import Mathlib

/-! # Verification of `ipsusila/opt`: the option store and its escaped text format

Shallow embedding of `options.go` and `config.go`.

Modelling conventions
* A Go `string` is modelled as a `List Char`: the list of code points of a well-formed
  UTF-8 text.  `for _, ch := range s` visits exactly these code points and
  `string(rbuf[:rp])` is the list of runes written so far.  `len(s)` is the UTF-8 byte
  length `goLen s`.
* A Go `map[string]interface{}` is modelled as an association list with pairwise distinct
  keys (`GoMap`); iteration order of a Go map is unspecified, so every statement about
  `String()` quantifies over the order in which the entries are rendered.
* A run-time panic is modelled by `Except.error` carrying a `Fatal`; an ordinary Go `error`
  result is the `Option ParseError` returned inside `Except.ok`.
* A text that need not be well-formed UTF-8 is a list of bytes: `ParseBytes` and
  `StringBytes` are `Parse` and `String` on bytes, decoded as `range` decodes them
  (section "Strings as bytes").
* In the definitions over `GoMap` a nested map is the value that it holds, and `Set`, which
  updates maps in place, is modelled by the tree that results: this is exact where no map is
  reachable along two paths. Section "Maps as references" gives the navigation, `Get` and
  `Set` on a heap of map objects, where one map object may be held under several keys.
* What a `Configurator` does to its collaborators is the list of calls it makes (`Event`);
  what a connector returns is an argument of the operation that calls it. Configurables are
  interface values, named by numbers; the comparison `a == b` of two of them panics when
  both hold the same uncomparable dynamic type, which the parameter `unc` tells.
-/

set_option autoImplicit false

namespace Opt

/-! ## Data model -/

/-- Integer kinds that the typed getters distinguish in their type switches. -/
inductive NumKind where
  | int | int8 | int16 | int32 | int64 | uint8 | uint16 | uint32 | uint64
  deriving DecidableEq, Repr

/-- Dynamic values stored in an option map (`interface{}`). -/
inductive Value where
  | str (s : List Char)
  | bool (b : Bool)
  | num (kind : NumKind) (n : Int)
  | float (bits : Nat)
  | null
  | arr (xs : List Value)
  | map (m : List (List Char × Value))

instance : Inhabited Value := ⟨.null⟩

/-- A Go `map[string]interface{}`: association list, keys pairwise distinct. -/
abbrev GoMap := List (List Char × Value)

/-- Map read `val, ok := m[key]`. -/
def GoMap.get? : GoMap → List Char → Option Value
  | [], _ => none
  | (k, v) :: rest, key => if k = key then some v else GoMap.get? rest key

/-- Removal of a key (auxiliary to `GoMap.set`). -/
def GoMap.erase : GoMap → List Char → GoMap
  | [], _ => []
  | (k, v) :: rest, key => if k = key then GoMap.erase rest key else (k, v) :: GoMap.erase rest key

/-- Map write `m[key] = val`: the binding of `key` is replaced (or created). -/
def GoMap.set (m : GoMap) (key : List Char) (val : Value) : GoMap :=
  (key, val) :: GoMap.erase m key

/-- The keys of a map. -/
def GoMap.keys (m : GoMap) : List (List Char) := m.map Prod.fst

/-- Type `Options`: the file path and the option map (the lock is not modelled). -/
structure Options where
  filePath : List Char
  options : GoMap

/-- `New()`. -/
def New : Options := { filePath := [], options := [] }

/-- `IsEmpty`: `len(o.options) == 0`. -/
def Options.IsEmpty (o : Options) : Bool := o.options.length == 0

/-! ## Constants -/

def delimField : Char := '='
def delimOpt : Char := ';'
def maxKVLen : Nat := 1024 * 1024
def maxLen : Nat := 1024 * 1024 * 100
def ESCAPE : Char := '\\'
def CR : Char := '\r'
def LF : Char := '\n'
def waitfieldDelim : Nat := 0
def waitoptDelim : Nat := 1

/-- Go `len(s)` of a string: its length in bytes (UTF-8). -/
def goLen (s : List Char) : Nat := (s.map Char.utf8Size).sum

/-! ## Replacers -/

/-- `rplLineEscape.Replace`: deletes backslash-CR-LF, backslash-CR and backslash-LF, scanning
left to right without overlap, earlier patterns having priority. -/
def rplLineEscape : List Char → List Char
  | [] => []
  | [c] => [c]
  | [c, d] => if c = ESCAPE ∧ (d = CR ∨ d = LF) then [] else c :: rplLineEscape [d]
  | c :: d :: e :: rest =>
    if c = ESCAPE ∧ d = CR ∧ e = LF then rplLineEscape rest
    else if c = ESCAPE ∧ (d = CR ∨ d = LF) then rplLineEscape (e :: rest)
    else c :: rplLineEscape (d :: e :: rest)

/-- `rplEscape.Replace`: backslash-n, backslash-r, doubled backslash and backslash-t are
replaced by line feed, carriage return, one backslash and tab. -/
def rplEscape : List Char → List Char
  | [] => []
  | [c] => [c]
  | c :: d :: rest =>
    if c = ESCAPE ∧ d = 'n' then '\n' :: rplEscape rest
    else if c = ESCAPE ∧ d = 'r' then '\r' :: rplEscape rest
    else if c = ESCAPE ∧ d = ESCAPE then '\\' :: rplEscape rest
    else if c = ESCAPE ∧ d = 't' then '\t' :: rplEscape rest
    else c :: rplEscape (d :: rest)

/-- `rplDelimiter.Replace`: every `;` and `=` is preceded by a backslash. -/
def rplDelimiter : List Char → List Char
  | [] => []
  | c :: rest =>
    if c = delimOpt ∨ c = delimField then ESCAPE :: c :: rplDelimiter rest
    else c :: rplDelimiter rest

/-! ## Parse -/

/-- Errors returned by `Parse`. -/
inductive ParseError where
  | unescaped (ch : Char)
  | emptyKey
  | emptyValue (key : List Char)
  deriving DecidableEq, Repr

/-- Run-time panics. -/
inductive Fatal where
  | sizeLimit (n : Nat) (max : Nat)
  | indexOutOfRange
  | nilMapWrite
  | nilDereference
  | alert (msg : List Char)
  | uncomparable
  deriving DecidableEq, Repr

/-- Local variables of `Parse` that live across loop iterations; `rbuf` is `rbuf[:rp]`. -/
structure LoopState where
  state : Nat
  key : List Char
  lastCh : Char
  rbuf : List Char
  options : GoMap
  err : Option ParseError

/-- Outcome of one iteration of `parseLoop`. -/
inductive Flow where
  | next (s : LoopState)
  | brk (s : LoopState)
  | fault

/-- Write `rbuf[rp] = ch; rp++` into a buffer of `cap` runes (`none`: index out of range). -/
def put (cap : Nat) (rbuf : List Char) (ch : Char) : Option (List Char) :=
  if rbuf.length < cap then some (rbuf ++ [ch]) else none

/-- The buffer writes of the escape branch. -/
def putEscaped (cap : Nat) (rbuf : List Char) (ch : Char) : Option (List Char) :=
  if ch = delimField ∨ ch = delimOpt then put cap rbuf ch
  else
    match put cap rbuf ESCAPE with
    | none => none
    | some b => put cap b ch

/-- One iteration of the `parseLoop` body for the rune `ch`. -/
def step (cap : Nat) (s : LoopState) (ch : Char) : Flow :=
  if s.state = waitfieldDelim then
    if s.lastCh = ESCAPE then
      match putEscaped cap s.rbuf ch with
      | none => .fault
      | some b =>
        if ch = ESCAPE then .next { s with rbuf := b, lastCh := CR }
        else .next { s with rbuf := b, lastCh := ch }
    else if ch = delimOpt then
      .brk { s with err := some (.unescaped ch) }
    else if ch = delimField then
      if goLen s.rbuf = 0 then
        .brk { s with key := s.rbuf, rbuf := [], state := waitoptDelim, err := some .emptyKey }
      else
        .next { s with key := s.rbuf, rbuf := [], state := waitoptDelim, lastCh := ch }
    else if ch ≠ ESCAPE then
      match put cap s.rbuf ch with
      | none => .fault
      | some b => .next { s with rbuf := b, lastCh := ch }
    else .next { s with lastCh := ch }
  else if s.state = waitoptDelim then
    if s.lastCh = ESCAPE then
      match putEscaped cap s.rbuf ch with
      | none => .fault
      | some b =>
        if ch = ESCAPE then .next { s with rbuf := b, lastCh := CR }
        else .next { s with rbuf := b, lastCh := ch }
    else if ch = delimField then
      .brk { s with err := some (.unescaped ch) }
    else if ch = delimOpt then
      if goLen s.rbuf = 0 then
        .brk { s with rbuf := [], err := some (.emptyValue s.key) }
      else
        .next { s with rbuf := [], options := s.options.set s.key (.str s.rbuf), key := [],
                       state := waitfieldDelim, lastCh := ch }
    else if ch ≠ ESCAPE then
      match put cap s.rbuf ch with
      | none => .fault
      | some b => .next { s with rbuf := b, lastCh := ch }
    else .next { s with lastCh := ch }
  else .next { s with lastCh := ch }

/-- The loop `for _, ch := range params` with label `parseLoop` (`none`: index out of range). -/
def parseLoop (cap : Nat) : LoopState → List Char → Option LoopState
  | s, [] => some s
  | s, ch :: rest =>
    match step cap s ch with
    | .fault => none
    | .brk s' => some s'
    | .next s' => parseLoop cap s' rest

/-- Local variables of `Parse` on loop entry. -/
def initState : LoopState :=
  { state := waitfieldDelim, key := [], lastCh := CR, rbuf := [], options := [], err := none }

/-- What `Parse` does after the loop. -/
def finish (o : Options) (s : LoopState) : Options × Option ParseError :=
  match s.err with
  | some e => ({ o with options := [] }, some e)
  | none =>
    if s.rbuf.length > 0 ∧ s.state = waitoptDelim ∧ goLen s.key > 0 then
      ({ o with options := s.options.set s.key (.str s.rbuf) }, none)
    else ({ o with options := s.options }, none)

/-- `Options.Parse`: the node after the call and the returned error, or a panic. -/
def Parse (o : Options) (params : List Char) : Except Fatal (Options × Option ParseError) :=
  let params := rplLineEscape params
  let n := goLen params
  if n > maxLen then .error (.sizeLimit n maxLen)
  else
    match parseLoop n initState params with
    | none => .error .indexOutOfRange
    | some s => .ok (finish o s)

/-! ## Dotted-path navigation and accessors -/

/-- `strings.Split(key, ".")`. -/
def splitDot : List Char → List (List Char)
  | [] => [[]]
  | c :: rest =>
    if c = '.' then [] :: splitDot rest
    else
      match splitDot rest with
      | [] => [[c]]
      | h :: t => (c :: h) :: t

/-- The loop of `getContainer` over the remaining items `keyItems[k:]`; the last item is
`keyItems[ne]`. A miss returns the empty map together with `keyItems[k+1]`. -/
def getContainerLoop : GoMap → List (List Char) → GoMap × List Char
  | mapItem, [] => (mapItem, [])
  | mapItem, [last] => (mapItem, last)
  | mapItem, key :: next :: rest =>
    match mapItem.get? key with
    | none => ([], next)
    | some (.map m) => getContainerLoop m (next :: rest)
    | some _ => ([], next)

/-- `Options.getContainer`. -/
def Options.getContainer (o : Options) (key : List Char) : GoMap × List Char :=
  let keyItems := splitDot key
  if keyItems.length ≤ 1 then (o.options, key) else getContainerLoop o.options keyItems

/-- What the accessors use from outside the package: `fmt.Sprintf("%v", val)`, the library
functions `path.Dir` and `path.Join`, and the result of `FromFile(filePath, "")` (`none`
when it returns an error), which depends on the file system. -/
structure Env where
  sprint : Value → List Char
  pathDir : List Char → List Char
  pathJoin : List Char → List Char → List Char
  fromFile : List Char → Option Options

/-- `Options.getPath`. -/
def Options.getPath (env : Env) (o : Options) (name : List Char) : List Char :=
  let name := if name.head? = some '@' then name.tail else name
  env.pathJoin (env.pathDir o.filePath) name

/-- `Options.asText`. -/
def asText (env : Env) : Value → List Char
  | .str optVal => rplEscape optVal
  | val => env.sprint val

/-- `Options.GetString`. -/
def Options.GetString (env : Env) (o : Options) (key def_ : List Char) : List Char :=
  let (container, key) := o.getContainer key
  match container.get? key with
  | none => def_
  | some val => asText env val

/-- `Options.GetObject`: the value and the presence flag. -/
def Options.GetObject (o : Options) (key : List Char) : Option Value :=
  let (container, key) := o.getContainer key
  container.get? key

/-- `Options.Exists`. -/
def Options.Exists (o : Options) (key : List Char) : Bool :=
  let (container, key) := o.getContainer key
  (container.get? key).isSome

/-- The deferred-reference branch of `Get`: the node loaded from the file that a string value
starting with `@` names, when that load succeeds. -/
def Options.deferred (env : Env) (o : Options) : Value → Option Options
  | .str vstr => if vstr.head? = some '@' then env.fromFile (o.getPath env vstr) else none
  | _ => none

/-- `Options.Get`. -/
def Options.Get (env : Env) (o : Options) (key : List Char) : Options :=
  let (container, key) := o.getContainer key
  match container.get? key with
  | none => New
  | some val =>
    match o.deferred env val with
    | some relOpt => relOpt
    | none =>
      match val with
      | .map vMap => { filePath := [], options := vMap }
      | _ => New

/-! ## Rendering -/

mutual
/-- The value part of an entry in `String()`: nested maps in braces, strings with escaped
delimiters, everything else through `%v`. -/
def renderValue (env : Env) : Value → List Char
  | .map vMap => '{' :: (renderEntries env vMap ++ ['}'])
  | .str s => rplDelimiter s
  | .bool b => env.sprint (.bool b)
  | .num k n => env.sprint (.num k n)
  | .float x => env.sprint (.float x)
  | .null => env.sprint .null
  | .arr xs => env.sprint (.arr xs)
/-- The text that `String()` builds when the map is iterated in the order of the list. -/
def renderEntries (env : Env) : List (List Char × Value) → List Char
  | [] => []
  | (key, val) :: rest =>
    key ++ delimField :: (renderValue env val ++ delimOpt :: renderEntries env rest)
end

/-- `Options.String`, for the iteration order in which the map is listed. -/
def Options.String (env : Env) (o : Options) : List Char := renderEntries env o.options

/-! ## Inputs used in examples -/

/-- The characters `key=value;pass=abc`, a backslash, a semicolon, `wrong`. -/
def inputEscapedSemicolon : List Char :=
  "key=value;pass=abc".toList ++ ESCAPE :: ";wrong".toList

/-- The characters `key=value;pass=abcd123s`, backslash, `;`, backslash, `ntest;kv=invalid`. -/
def inputEscapes : List Char :=
  "key=value;pass=abcd123s".toList ++ ESCAPE :: ';' :: ESCAPE :: "ntest;kv=invalid".toList

/-! ## The write path -/

/-- The loop of `newContainer` over the remaining items, followed by the write
`container[key] = val` of `Set`. Go updates the maps in place; the model returns the updated
map together with what `container[key]` held before the write. Where the value at an item
is present but not a map, the failed type assertion leaves `mapItem` nil and the write
`mapItem[key] = newContainer` panics. -/
def setLoop (val : Value) : GoMap → List (List Char) → Except Fatal (GoMap × Option Value)
  | mapItem, [] => .ok (mapItem, none)
  | mapItem, [last] => .ok (mapItem.set last val, mapItem.get? last)
  | mapItem, key :: next :: rest =>
    match mapItem.get? key with
    | none =>
      match setLoop val [] (next :: rest) with
      | .ok (newContainer, ov) => .ok (mapItem.set key (.map newContainer), ov)
      | .error f => .error f
    | some (.map m) =>
      match setLoop val m (next :: rest) with
      | .ok (m', ov) => .ok (mapItem.set key (.map m'), ov)
      | .error f => .error f
    | some _ => .error .nilMapWrite

/-- `Options.Set`: the node after the call and the returned value (`nil` is `Value.null`),
or a panic. -/
def Options.Set (o : Options) (key : List Char) (val : Value) : Except Fatal (Options × Value) :=
  let keyItems := splitDot key
  let written : Except Fatal (GoMap × Option Value) :=
    if keyItems.length ≤ 1 then .ok (o.options.set key val, o.options.get? key)
    else setLoop val o.options keyItems
  match written with
  | .ok (options, some ov) => .ok ({ o with options := options }, ov)
  | .ok (options, none) => .ok ({ o with options := options }, .null)
  | .error f => .error f

/-! ## Typed getters -/

/-- What the typed getters use from the standard library: `strconv.ParseInt(s, 10, 64)`,
`strconv.Atoi`, `strconv.ParseBool` and `time.ParseDuration` (`none` when they return an
error), the width of `int`, and the conversions of a floating-point value to `int64`, to
`int` and to `time.Duration`. -/
structure Conv where
  parseInt : List Char → Option Int
  atoi : List Char → Option Int
  parseBool : List Char → Option Bool
  parseDuration : List Char → Option Int
  intBits : Nat
  floatToInt64 : Nat → Int
  floatToInt : Nat → Int
  floatToDuration : Nat → Int

/-- Conversion of an integer to the signed type of `w` bits (two's complement wrap). -/
def wrapSigned (w : Nat) (n : Int) : Int :=
  (n + 2 ^ (w - 1)) % 2 ^ w - 2 ^ (w - 1)

/-- `Options.GetInt64`. -/
def Options.GetInt64 (env : Env) (conv : Conv) (o : Options) (key : List Char) (def_ : Int) :
    Int :=
  let (container, key) := o.getContainer key
  match container.get? key with
  | none => def_
  | some (.float v) => conv.floatToInt64 v
  | some (.num _ v) => wrapSigned 64 v
  | some val =>
    match conv.parseInt (asText env val) with
    | none => def_
    | some vi => vi

/-- `Options.GetInt`. -/
def Options.GetInt (env : Env) (conv : Conv) (o : Options) (key : List Char) (def_ : Int) :
    Int :=
  let (container, key) := o.getContainer key
  match container.get? key with
  | none => def_
  | some (.float v) => conv.floatToInt v
  | some (.num _ v) => wrapSigned conv.intBits v
  | some val =>
    match conv.atoi (asText env val) with
    | none => def_
    | some vi => vi

/-- `Options.GetBool`. -/
def Options.GetBool (env : Env) (conv : Conv) (o : Options) (key : List Char) (def_ : Bool) :
    Bool :=
  let (container, key) := o.getContainer key
  match container.get? key with
  | none => def_
  | some (.bool vBool) => vBool
  | some val =>
    match conv.parseBool (asText env val) with
    | none => def_
    | some vb => vb

/-- `Options.GetDuration`; a `time.Duration` is a number of nanoseconds in an `int64`. -/
def Options.GetDuration (env : Env) (conv : Conv) (o : Options) (key : List Char)
    (def_ : Int) : Int :=
  let (container, key) := o.getContainer key
  match container.get? key with
  | none => def_
  | some (.float v) => conv.floatToDuration v
  | some (.num _ v) => wrapSigned 64 v
  | some val =>
    match conv.parseDuration (asText env val) with
    | none => def_
    | some dur => dur

/-! ## Configurator (`config.go`) -/

/-- A Go `error` value, by its message. -/
abbrev Err := List Char

/-- The outcome of a call of `Connector.Load`: the error, or the loaded configuration, which
may be nil. -/
abbrev LoadResult := Except Err (Option Options)

/-- An item of the registry: the section and the identity of the `Configurable`. -/
structure configurableItem where
  section_ : List Char
  conf : Nat
  deriving DecidableEq

/-- Type `Configurator`: the identity of the connector (`none` is nil), the last
configuration (`none` is nil) and the registry; the lock is not modelled. -/
structure Configurator where
  conn : Option Nat
  lastCfg : Option Options
  items : List configurableItem

/-- Calls that a `Configurator` makes on its collaborators, in the order in which they are
made. -/
inductive Event where
  | configure (conf : Nat) (op : Options) (first : Bool)
  | connStore (conn : Nat) (v : Options)
  | connClose (conn : Nat)

/-- The calls `item.conf.Configure(cfg.Get(item.section), false)` of a loop over the items. -/
def broadcast (env : Env) (c : Options) (items : List configurableItem) : List Event :=
  items.map (fun item => Event.configure item.conf (c.Get env item.section_) false)

/-- `Configurator.sourceChanged`, for the outcome `res` of `cfg.conn.Load()` and the
equality check `equalTo newCfg cfg.lastCfg` (the method `EqualTo` is not part of the given
sources): the configurator afterwards, the calls made and the returned error. -/
def Configurator.sourceChanged (env : Env) (equalTo : Options → Option Options → Bool)
    (res : LoadResult) (cfg : Configurator) :
    Except Fatal (Configurator × List Event × Option Err) :=
  match cfg.conn with
  | none => .error .nilDereference
  | some _ =>
    match res with
    | .error err => .ok (cfg, [], some err)
    | .ok none => .ok (cfg, [], some "loaded configuration return <nil>".toList)
    | .ok (some newCfg) =>
      if !equalTo newCfg cfg.lastCfg then
        .ok ({ cfg with lastCfg := some newCfg }, broadcast env newCfg cfg.items, none)
      else .ok (cfg, [], none)

/-- `Configurator.Valid`. -/
def Configurator.Valid (cfg : Configurator) : Bool :=
  cfg.conn.isSome && cfg.lastCfg.isSome

/-- `Configurator.Get`. -/
def Configurator.Get (env : Env) (cfg : Configurator) (key : List Char) : Options :=
  match cfg.lastCfg with
  | some lastCfg => lastCfg.Get env key
  | none => New

/-- `Configurator.Store`, for the outcome `res` of `cfg.conn.Store`: the calls made and the
returned error. -/
def Configurator.Store (res : Option Err) (cfg : Configurator) : List Event × Option Err :=
  match cfg.conn, cfg.lastCfg with
  | some conn, some lastCfg => ([Event.connStore conn lastCfg], res)
  | _, _ => ([], none)

/-- `Configurator.Configure`: the calls made. -/
def Configurator.Configure (env : Env) (cfg : Configurator) : List Event :=
  match cfg.lastCfg with
  | some lastCfg => broadcast env lastCfg cfg.items
  | none => []

/-- `Configurator.Load`, for the outcome `res` of `cfg.conn.Load()`: the configurator
afterwards, the calls made and the returned error. -/
def Configurator.Load (env : Env) (configure : Bool) (res : LoadResult) (cfg : Configurator) :
    Configurator × List Event × Option Err :=
  match cfg.conn with
  | some _ =>
    match res with
    | .error err => (cfg, [], some err)
    | .ok newCfg =>
      let cfg' : Configurator := { cfg with lastCfg := newCfg }
      if configure then (cfg', cfg'.Configure env, none) else (cfg', [], none)
  | none => (cfg, [], none)

/-- The duplicate check of `Register`: the loop `for _, v := range cfg.items` with the test
`v.conf == c`, which compares two interface values. `unc a b` tells whether the comparison
of the values `a` and `b` panics, as it does in Go when both have the same dynamic type and
that type is not comparable; where it does not panic, the values are equal exactly when
they are the same. The result tells whether an equal item was found. -/
def Configurator.findConf (unc : Nat → Nat → Bool) (c : Nat) :
    List configurableItem → Except Fatal Bool
  | [] => .ok false
  | v :: rest =>
    if unc v.conf c then .error .uncomparable
    else if v.conf = c then .ok true
    else findConf unc c rest

/-- `Configurator.Register`: the configurator afterwards and the calls made, or the panic of
a comparison in the duplicate check. -/
def Configurator.Register (unc : Nat → Nat → Bool) (section_ : List Char) (c : Nat)
    (cfg : Configurator) : Except Fatal (Configurator × List Event) :=
  match Configurator.findConf unc c cfg.items with
  | .error f => .error f
  | .ok true => .ok (cfg, [])
  | .ok false =>
    let cfg' : Configurator :=
      { cfg with items := cfg.items ++ [{ section_ := section_, conf := c }] }
    match cfg.lastCfg with
    | some lastCfg => .ok (cfg', [Event.configure c lastCfg true])
    | none => .ok (cfg', [])

/-- `Configurator.Close`, for the outcome `res` of the connector's `Close`: the configurator
afterwards, the calls made and the returned error. -/
def Configurator.Close (res : Option Err) (cfg : Configurator) :
    Configurator × List Event × Option Err :=
  match cfg.conn with
  | some c => ({ cfg with conn := none }, [Event.connClose c], res)
  | none => (cfg, [], none)

/-- An operation on a `Configurator`, with the outcome of the connector call it makes. -/
inductive CfgOp where
  | register (section_ : List Char) (c : Nat)
  | load (reconfigure : Bool) (res : LoadResult)
  | sourceChanged (res : LoadResult)
  | configure
  | store (res : Option Err)
  | close (res : Option Err)
  | get (key : List Char)
  | valid

/-- The configurator after an operation and the calls that the operation makes. -/
def CfgOp.exec (unc : Nat → Nat → Bool) (env : Env)
    (equalTo : Options → Option Options → Bool) :
    CfgOp → Configurator → Except Fatal (Configurator × List Event)
  | .register section_ c, cfg => cfg.Register unc section_ c
  | .load reconfigure res, cfg =>
    .ok ((cfg.Load env reconfigure res).1, (cfg.Load env reconfigure res).2.1)
  | .sourceChanged res, cfg =>
    match cfg.sourceChanged env equalTo res with
    | .ok (cfg', evs, _) => .ok (cfg', evs)
    | .error f => .error f
  | .configure, cfg => .ok (cfg, cfg.Configure env)
  | .store res, cfg => .ok (cfg, (cfg.Store res).1)
  | .close res, cfg => .ok ((cfg.Close res).1, (cfg.Close res).2.1)
  | .get _, cfg => .ok (cfg, [])
  | .valid, cfg => .ok (cfg, [])

/-- A sequence of operations, first to last: the configurator afterwards and all calls
made. -/
def execAll (unc : Nat → Nat → Bool) (env : Env) (equalTo : Options → Option Options → Bool) :
    List CfgOp → Configurator → Except Fatal (Configurator × List Event)
  | [], cfg => .ok (cfg, [])
  | op :: ops, cfg =>
    match op.exec unc env equalTo cfg with
    | .error f => .error f
    | .ok (cfg', evs) =>
      match execAll unc env equalTo ops cfg' with
      | .error f => .error f
      | .ok (cfg'', evs') => .ok (cfg'', evs ++ evs')

/-! ## driver.go: the driver registry -/

/-- The package variable `drivers`, a `map[string]Driver`. A driver is identified by a
number; `Register` is the only writer and stores no nil driver. -/
abbrev DriverMap := List (List Char × Nat)

/-- `DriverFor`: the driver registered under the name, `none` for Go's `nil`. -/
def DriverFor : DriverMap → List Char → Option Nat
  | [], _ => none
  | (k, d) :: rest, name => if k = name then some d else DriverFor rest name

/-- `Register`, with `none` for a nil driver: the registry afterwards, or the panic. -/
def Register (drivers : DriverMap) (name : List Char) (driver : Option Nat) :
    Except Fatal DriverMap :=
  match driver with
  | none => .error (.alert "alert: Register driver is nil".toList)
  | some d =>
    if (DriverFor drivers name).isSome then
      .error (.alert ("alert: Register called twice for driver ".toList ++ name))
    else .ok ((name, d) :: drivers)

/-- `unregisterAllDrivers`: a fresh, empty registry. -/
def unregisterAllDrivers : DriverMap := []

/-- `Drivers`: the names in the registry, after `sort.Strings` (ascending in the order of Go
strings, which for valid UTF-8 is the lexicographic order of the code points). -/
def Drivers (drivers : DriverMap) : List (List Char) :=
  (drivers.map Prod.fst).insertionSort (· ≤ ·)

/-! ## config.go: NewConfigurator -/

/-- `NewConfigurator`, for the outcome `connectRes drv` of `drv.Connect` (a connector, `none`
for a nil one, or an error) and the outcome `loadRes` of the connector's first `Load`: the
returned configurator or error, and the calls made on the connector besides `Load`. -/
def NewConfigurator (drivers : DriverMap) (driver : List Char)
    (connectRes : Nat → Except Err (Option Nat)) (loadRes : LoadResult) :
    Except Fatal (Except Err Configurator × List Event) :=
  match DriverFor drivers driver with
  | none =>
    .ok (.error ("can not find configuration driver ".toList ++ driver ++
      ", forget to import?".toList), [])
  | some drv =>
    match connectRes drv with
    | .error err => .ok (.error err, [])
    | .ok none => .error .nilDereference
    | .ok (some conn) =>
      match loadRes with
      | .error err => .ok (.error err, [Event.connClose conn])
      | .ok lastCfg => .ok (.ok { conn := some conn, lastCfg := lastCfg, items := [] }, [])

/-! ## options.go: FromReader, FromText -/

/-- The library functions that `FromReader` calls: `strings.ToLower`, `hjson.Unmarshal` and
`json.Unmarshal` into a `map[string]interface{}`. -/
structure Codec where
  toLower : List Char → List Char
  hjsonUnmarshal : List Char → Except Err GoMap
  jsonUnmarshal : List Char → Except Err GoMap

/-- The constant `FormatHJSON`. -/
def FormatHJSON : List Char := "hjson".toList

/-- The constant `FormatJSON`. -/
def FormatJSON : List Char := "json".toList

/-- `errors.Wrap(err, msg)`: the message in front of the cause. -/
def wrap (err : Err) (msg : List Char) : Err := msg ++ ": ".toList ++ err

/-- `Assign`: a fresh map that receives every entry of `optMap`. -/
def Options.Assign (o : Options) (optMap : GoMap) : Options :=
  { o with options := optMap.foldl (fun acc e => acc.set e.1 e.2) [] }

/-- `FromReader`, for the outcome `read` of `ioutil.ReadAll(reader)`. The `FormatJSON` case
of the switch has no `return`: after `o.Assign(data)` control reaches the statement that
follows the switch. -/
def FromReader (codec : Codec) (read : Except Err (List Char)) (format : List Char) :
    Except Err Options :=
  match read with
  | .error err => .error (wrap err "failed to read options".toList)
  | .ok content =>
    let notSupported : Except Err Options :=
      .error ("Not supported options format ".toList ++ format)
    if codec.toLower format = FormatHJSON then
      match codec.hjsonUnmarshal content with
      | .error err => .error (wrap err "failed to unmarshal hjson".toList)
      | .ok data => .ok (({ filePath := [], options := [] } : Options).Assign data)
    else if codec.toLower format = FormatJSON then
      match codec.jsonUnmarshal content with
      | .error err => .error (wrap err "failed to unmarshal json".toList)
      | .ok data =>
        let _o := ({ filePath := [], options := [] } : Options).Assign data
        notSupported
    else notSupported

/-- `FromText`: `FromReader` on a `strings.Reader`, whose reads do not fail. -/
def FromText (codec : Codec) (cfgText : List Char) (format : List Char) : Except Err Options :=
  FromReader codec (.ok cfgText) format

/-! ## Strings as bytes

A Go string is a sequence of bytes that need not be well-formed UTF-8. Above, a string is
written as the text it holds, which is exact for well-formed strings; the definitions below
give the byte level of `Parse` and `String`, where it matters. -/

/-- The bytes of a Go string; a byte is a number below 256. -/
abbrev Bytes := List Nat

/-- The conversion `string(r)` of one rune: its UTF-8 encoding. -/
def encodeRune (c : Char) : Bytes :=
  if c.toNat < 0x80 then [c.toNat]
  else if c.toNat < 0x800 then [0xC0 + c.toNat / 0x40, 0x80 + c.toNat % 0x40]
  else if c.toNat < 0x10000 then
    [0xE0 + c.toNat / 0x1000, 0x80 + c.toNat / 0x40 % 0x40, 0x80 + c.toNat % 0x40]
  else
    [0xF0 + c.toNat / 0x40000, 0x80 + c.toNat / 0x1000 % 0x40, 0x80 + c.toNat / 0x40 % 0x40,
      0x80 + c.toNat % 0x40]

/-- The conversion `string(rbuf[:rp])`: the bytes of a text. -/
def utf8 (s : List Char) : Bytes := s.flatMap encodeRune

/-- A continuation byte of UTF-8. -/
def isCont (b : Nat) : Prop := 0x80 ≤ b ∧ b ≤ 0xBF

instance (b : Nat) : Decidable (isCont b) := by unfold isCont; infer_instance

/-- The rune `utf8.RuneError`, U+FFFD. -/
def RuneError : Char := Char.ofNat 0xFFFD

/-- One step of `for _, ch := range params`: the rune at the head of a non-empty string and
the number of bytes that it takes. A byte below 0x80 is its own rune; otherwise the runtime
decodes a two-, three- or four-byte sequence, and where the bytes are no valid encoding it
yields `RuneError` and takes one byte. -/
def decodeRune : Bytes → Char × Nat
  | [] => (RuneError, 1)
  | b0 :: rest =>
    if b0 < 0x80 then (Char.ofNat b0, 1)
    else if 0xC0 ≤ b0 ∧ b0 < 0xE0 then
      match rest with
      | b1 :: _ =>
        if isCont b1 ∧ 0x7F < b0 % 0x20 * 0x40 + b1 % 0x40 then
          (Char.ofNat (b0 % 0x20 * 0x40 + b1 % 0x40), 2)
        else (RuneError, 1)
      | _ => (RuneError, 1)
    else if 0xE0 ≤ b0 ∧ b0 < 0xF0 then
      match rest with
      | b1 :: b2 :: _ =>
        if isCont b1 ∧ isCont b2 ∧
            0x7FF < b0 % 0x10 * 0x1000 + b1 % 0x40 * 0x40 + b2 % 0x40 ∧
            ¬ (0xD800 ≤ b0 % 0x10 * 0x1000 + b1 % 0x40 * 0x40 + b2 % 0x40 ∧
              b0 % 0x10 * 0x1000 + b1 % 0x40 * 0x40 + b2 % 0x40 ≤ 0xDFFF) then
          (Char.ofNat (b0 % 0x10 * 0x1000 + b1 % 0x40 * 0x40 + b2 % 0x40), 3)
        else (RuneError, 1)
      | _ => (RuneError, 1)
    else if 0xF0 ≤ b0 ∧ b0 < 0xF8 then
      match rest with
      | b1 :: b2 :: b3 :: _ =>
        if isCont b1 ∧ isCont b2 ∧ isCont b3 ∧
            0xFFFF < b0 % 8 * 0x40000 + b1 % 0x40 * 0x1000 + b2 % 0x40 * 0x40 + b3 % 0x40 ∧
            b0 % 8 * 0x40000 + b1 % 0x40 * 0x1000 + b2 % 0x40 * 0x40 + b3 % 0x40
              ≤ 0x10FFFF then
          (Char.ofNat (b0 % 8 * 0x40000 + b1 % 0x40 * 0x1000 + b2 % 0x40 * 0x40 + b3 % 0x40), 4)
        else (RuneError, 1)
      | _ => (RuneError, 1)
    else (RuneError, 1)

/-- The runes that `for _, ch := range params` yields, for at most `fuel` iterations. -/
def rangeRunes : Nat → Bytes → List Char
  | 0, _ => []
  | _ + 1, [] => []
  | fuel + 1, b :: bs =>
    (decodeRune (b :: bs)).1 :: rangeRunes fuel ((b :: bs).drop (decodeRune (b :: bs)).2)

/-- The runes that `for _, ch := range params` yields: every iteration takes at least one
byte, so that the length of the string bounds the number of iterations. -/
def decodeRunes (bs : Bytes) : List Char := rangeRunes bs.length bs

/-- `rplLineEscape.Replace` on the bytes of a string: deletes backslash-CR-LF, backslash-CR
and backslash-LF. -/
def rplLineEscapeBytes : Bytes → Bytes
  | [] => []
  | [c] => [c]
  | [c, d] => if c = 0x5C ∧ (d = 0x0D ∨ d = 0x0A) then [] else c :: rplLineEscapeBytes [d]
  | c :: d :: e :: rest =>
    if c = 0x5C ∧ d = 0x0D ∧ e = 0x0A then rplLineEscapeBytes rest
    else if c = 0x5C ∧ (d = 0x0D ∨ d = 0x0A) then rplLineEscapeBytes (e :: rest)
    else c :: rplLineEscapeBytes (d :: e :: rest)

/-- `rplDelimiter.Replace` on the bytes of a string: every `;` and `=` is preceded by a
backslash. -/
def rplDelimiterBytes : Bytes → Bytes
  | [] => []
  | c :: rest =>
    if c = 0x3B ∨ c = 0x3D then 0x5C :: c :: rplDelimiterBytes rest
    else c :: rplDelimiterBytes rest

/-- `Options.Parse` on the bytes of `params`: line continuations are deleted and the length
is taken on the bytes; the loop ranges over the runes of the result, and the keys and values
that it stores are the strings of the accumulated runes. -/
def ParseBytes (o : Options) (params : Bytes) : Except Fatal (Options × Option ParseError) :=
  let params := rplLineEscapeBytes params
  let n := params.length
  if n > maxLen then .error (.sizeLimit n maxLen)
  else
    match parseLoop n initState (decodeRunes params) with
    | none => .error .indexOutOfRange
    | some s => .ok (finish o s)

/-- `Options.String` on a node whose values are all strings, given by the bytes of its keys
and values in the order in which the map is listed: key, `=`, the value with its delimiters
escaped, `;` for each entry. -/
def StringBytes : List (Bytes × Bytes) → Bytes
  | [] => []
  | (key, val) :: rest => key ++ 0x3D :: (rplDelimiterBytes val ++ 0x3B :: StringBytes rest)

/-! ## Maps as references

A Go map is a reference to a map object: `newContainer` and `Set` write into the object that
they reach, so that an object held under two keys changes under both, and `Get` returns a
node over the object that it finds. The definitions below give `getContainer`,
`newContainer` and the accessors that use them on a heap of map objects; the definitions of
the same functions above take a nested map as the value it holds, which is exact where no map
object is held twice. -/

/-- A value held in a map object; a nested map is the address of its object. -/
inductive Item where
  | str (s : List Char)
  | scalar (n : Nat)
  | null
  | map (a : Nat)
  deriving DecidableEq, Repr

/-- A map object: association list, keys pairwise distinct. -/
abbrev MapObj := List (List Char × Item)

/-- Map read `val, ok := m[key]`. -/
def MapObj.get? : MapObj → List Char → Option Item
  | [], _ => none
  | (k, v) :: rest, key => if k = key then some v else MapObj.get? rest key

/-- Removal of a key (auxiliary to `MapObj.set`). -/
def MapObj.erase : MapObj → List Char → MapObj
  | [], _ => []
  | (k, v) :: rest, key =>
    if k = key then MapObj.erase rest key else (k, v) :: MapObj.erase rest key

/-- Map write `m[key] = val`. -/
def MapObj.set (m : MapObj) (key : List Char) (val : Item) : MapObj :=
  (key, val) :: MapObj.erase m key

/-- The map objects, by address. An address that the heap does not hold stands for a nil
map. -/
abbrev Heap := List MapObj

/-- Read `val, ok := m[key]` of the map at an address; a nil map has no key. -/
def Heap.read (h : Heap) (a : Nat) (key : List Char) : Option Item :=
  match h[a]? with
  | none => none
  | some m => m.get? key

/-- Write `m[key] = val` into the map at an address; it panics on a nil map. -/
def Heap.write (h : Heap) (a : Nat) (key : List Char) (val : Item) : Except Fatal Heap :=
  match h[a]? with
  | none => .error .nilMapWrite
  | some m => .ok (h.set a (m.set key val))

/-- `make(map[string]interface{})`: the heap with a fresh empty map, and its address. -/
def Heap.alloc (h : Heap) : Heap × Nat := (h ++ [[]], h.length)

/-- Type `Options` on the heap: the file path and the address of the option map. -/
structure Node where
  filePath : List Char
  options : Nat
  deriving DecidableEq, Repr

/-- The loop of `getContainer` on the heap over the remaining items; a miss returns the
empty map `mapEmpty` together with the item after the one that missed. -/
def Node.getContainerLoop (h : Heap) (mapEmpty : Nat) :
    Nat → List (List Char) → Nat × List Char
  | mapItem, [] => (mapItem, [])
  | mapItem, [last] => (mapItem, last)
  | mapItem, key :: next :: rest =>
    match h.read mapItem key with
    | some (.map m) => Node.getContainerLoop h mapEmpty m (next :: rest)
    | _ => (mapEmpty, next)

/-- `Options.getContainer` on the heap: the heap after the call, which holds the map
`mapEmpty` that the function makes when the key has more than one item, the address of the
container and the last key. -/
def Node.getContainer (h : Heap) (o : Node) (key : List Char) : Heap × Nat × List Char :=
  let keyItems := splitDot key
  if keyItems.length ≤ 1 then (h, o.options, key)
  else (h.alloc.1, Node.getContainerLoop h.alloc.1 h.alloc.2 o.options keyItems)

/-- `Options.GetObject` on the heap: the heap after the call, the value and the presence. -/
def Node.GetObject (h : Heap) (o : Node) (key : List Char) : Heap × Option Item :=
  ((Node.getContainer h o key).1,
    (Node.getContainer h o key).1.read (Node.getContainer h o key).2.1
      (Node.getContainer h o key).2.2)

/-- `Options.Exists` on the heap. -/
def Node.Exists (h : Heap) (o : Node) (key : List Char) : Heap × Bool :=
  ((Node.GetObject h o key).1, (Node.GetObject h o key).2.isSome)

/-- `New()` on the heap: a node over a fresh empty map. -/
def Node.New (h : Heap) : Heap × Node := (h.alloc.1, { filePath := [], options := h.alloc.2 })

/-- What `Get` on the heap uses from outside: the library functions `path.Dir` and
`path.Join`, and `FromFile(filePath, "")`, a function of the package that is given a path
and no map of the caller: from the path and the next free address it gives the map objects
that the load makes, which take the addresses from that one on, and the loaded node (`none`
when it returns an error). -/
structure HeapEnv where
  pathDir : List Char → List Char
  pathJoin : List Char → List Char → List Char
  fromFile : List Char → Nat → Option (List MapObj × Node)

/-- `Options.getPath` on the heap. -/
def Node.getPath (env : HeapEnv) (o : Node) (name : List Char) : List Char :=
  let name := if name.head? = some '@' then name.tail else name
  env.pathJoin (env.pathDir o.filePath) name

/-- The deferred-reference branch of `Get` on the heap: the heap with the loaded map objects
and the node loaded from the file that a string value starting with `@` names, when that
load succeeds. -/
def Node.deferred (env : HeapEnv) (h : Heap) (o : Node) : Item → Option (Heap × Node)
  | .str vstr =>
    if vstr.head? = some '@' then
      match env.fromFile (o.getPath env vstr) h.length with
      | some (objs, loaded) => some (h ++ objs, loaded)
      | none => none
    else none
  | _ => none

/-- `Options.Get` on the heap: the heap after the call and the returned node, which is a
fresh empty node, the loaded node, or a node over the map object found. -/
def Node.Get (env : HeapEnv) (h : Heap) (o : Node) (key : List Char) : Heap × Node :=
  let h1 := (Node.getContainer h o key).1
  match h1.read (Node.getContainer h o key).2.1 (Node.getContainer h o key).2.2 with
  | none => Node.New h1
  | some val =>
    match o.deferred env h1 val with
    | some loaded => loaded
    | none =>
      match val with
      | .map vMap => (h1, { filePath := [], options := vMap })
      | _ => Node.New h1

/-- `Options.IsEmpty` on the heap: `len(o.options) == 0`. -/
def Node.IsEmpty (h : Heap) (o : Node) : Bool :=
  match h[o.options]? with
  | none => true
  | some m => m.length == 0

/-- The loop of `newContainer` on the heap over the remaining items: a missing item gets a
fresh map, written into the map reached so far; where the value at an item is present but
not a map, the failed type assertion leaves `mapItem` nil and the write
`mapItem[key] = newContainer` panics. The fresh map gets the next free address `len(h)`;
the write is done on the heap before the fresh map is added to it, so that an address
outside the heap is a nil map for the write. -/
def Node.newContainerLoop : Heap → Nat → List (List Char) → Except Fatal (Heap × Nat × List Char)
  | h, mapItem, [] => .ok (h, mapItem, [])
  | h, mapItem, [last] => .ok (h, mapItem, last)
  | h, mapItem, key :: next :: rest =>
    match h.read mapItem key with
    | none =>
      match h.write mapItem key (.map h.alloc.2) with
      | .error f => .error f
      | .ok h2 => Node.newContainerLoop h2.alloc.1 h.alloc.2 (next :: rest)
    | some (.map m) => Node.newContainerLoop h m (next :: rest)
    | some _ => .error .nilMapWrite

/-- `Options.newContainer` on the heap. -/
def Node.newContainer (h : Heap) (o : Node) (key : List Char) :
    Except Fatal (Heap × Nat × List Char) :=
  let keyItems := splitDot key
  if keyItems.length ≤ 1 then .ok (h, o.options, key)
  else Node.newContainerLoop h o.options keyItems

/-- `Options.Set` on the heap: the heap after the call and the returned value (`nil` is
`Item.null`), or a panic. -/
def Node.Set (h : Heap) (o : Node) (key : List Char) (val : Item) : Except Fatal (Heap × Item) :=
  match Node.newContainer h o key with
  | .error f => .error f
  | .ok (h1, container, k) =>
    match h1.write container k val with
    | .error f => .error f
    | .ok h2 =>
      .ok (h2, match h1.read container k with
        | some ov => ov
        | none => .null)
/-! ## Auxiliary definitions used in the proofs -/

/-- One iteration with a buffer that always has room for the (at most two) writes of the
iteration; it agrees with `step cap` whenever the latter does not fault. -/
def stepU (s : LoopState) (ch : Char) : Flow := step (s.rbuf.length + 2) s ch

/-- The loop on an unbounded buffer: the state on leaving the loop (end of input or break). -/
def run : LoopState → List Char → LoopState
  | s, [] => s
  | s, ch :: rest =>
    match stepU s ch with
    | .fault => s
    | .brk s' => s'
    | .next s' => run s' rest

/-- Number of consumed runes not yet reflected in the buffer: a pending escape. -/
def pend (s : LoopState) : Nat := if s.lastCh = ESCAPE then 1 else 0

/-- A rune that is neither a delimiter nor the escape character. -/
def plain (c : Char) : Prop := c ≠ delimField ∧ c ≠ delimOpt ∧ c ≠ ESCAPE

instance (c : Char) : Decidable (plain c) := by unfold plain; infer_instance

/-- The loop is in one of its two parser states. -/
def inState (s : LoopState) : Prop := s.state = waitfieldDelim ∨ s.state = waitoptDelim

/-- The twelve ways in which one iteration can go. -/
inductive StepCase (s : LoopState) (ch : Char) : Flow → Prop where
  | other (hs : ¬ inState s) : StepCase s ch (.next { s with lastCh := ch })
  | escDelim (hs : inState s) (h : s.lastCh = ESCAPE) (hc : ch = delimField ∨ ch = delimOpt) :
      StepCase s ch (.next { s with rbuf := s.rbuf ++ [ch], lastCh := ch })
  | escEsc (hs : inState s) (h : s.lastCh = ESCAPE) (hc : ch = ESCAPE) :
      StepCase s ch (.next { s with rbuf := s.rbuf ++ [ESCAPE, ESCAPE], lastCh := CR })
  | escPlain (hs : inState s) (h : s.lastCh = ESCAPE) (hc : plain ch) :
      StepCase s ch (.next { s with rbuf := s.rbuf ++ [ESCAPE, ch], lastCh := ch })
  | bslash (hs : inState s) (h : s.lastCh ≠ ESCAPE) (hc : ch = ESCAPE) :
      StepCase s ch (.next { s with lastCh := ESCAPE })
  | plain (hs : inState s) (h : s.lastCh ≠ ESCAPE) (hc : plain ch) :
      StepCase s ch (.next { s with rbuf := s.rbuf ++ [ch], lastCh := ch })
  | fieldOpt (h0 : s.state = waitfieldDelim) (h : s.lastCh ≠ ESCAPE) (hc : ch = delimOpt) :
      StepCase s ch (.brk { s with err := some (.unescaped delimOpt) })
  | fieldEmpty (h0 : s.state = waitfieldDelim) (h : s.lastCh ≠ ESCAPE) (hc : ch = delimField)
      (hb : s.rbuf = []) :
      StepCase s ch
        (.brk { s with key := [], rbuf := [], state := waitoptDelim, err := some .emptyKey })
  | fieldKey (h0 : s.state = waitfieldDelim) (h : s.lastCh ≠ ESCAPE) (hc : ch = delimField)
      (hb : s.rbuf ≠ []) :
      StepCase s ch
        (.next { s with key := s.rbuf, rbuf := [], state := waitoptDelim, lastCh := delimField })
  | valueField (h0 : s.state = waitoptDelim) (h : s.lastCh ≠ ESCAPE) (hc : ch = delimField) :
      StepCase s ch (.brk { s with err := some (.unescaped delimField) })
  | valueEmpty (h0 : s.state = waitoptDelim) (h : s.lastCh ≠ ESCAPE) (hc : ch = delimOpt)
      (hb : s.rbuf = []) :
      StepCase s ch (.brk { s with rbuf := [], err := some (.emptyValue s.key) })
  | valueDone (h0 : s.state = waitoptDelim) (h : s.lastCh ≠ ESCAPE) (hc : ch = delimOpt)
      (hb : s.rbuf ≠ []) :
      StepCase s ch
        (.next { s with rbuf := [], options := s.options.set s.key (.str s.rbuf), key := [],
                        state := waitfieldDelim, lastCh := delimOpt })

/-- The shape of every key and value that the loop accumulates: a backslash is always the
first rune of a two-rune unit whose second rune is not a delimiter. -/
def wellEscaped : List Char → Bool
  | [] => true
  | [c] => decide (c ≠ ESCAPE)
  | c :: d :: rest =>
    if c = ESCAPE then decide (d ≠ delimField ∧ d ≠ delimOpt) && wellEscaped rest
    else wellEscaped (d :: rest)

/-- The text contains a line continuation: a backslash followed by CR or LF. -/
def hasLineCont : List Char → Bool
  | [] => false
  | [_] => false
  | c :: d :: rest => decide (c = ESCAPE ∧ (d = CR ∨ d = LF)) || hasLineCont (d :: rest)

/-- A text that the loop can have accumulated as a key or as a value. -/
def GoodStr (b : List Char) : Prop := wellEscaped b = true ∧ b ≠ []

/-- Every entry of the map is a non-empty well-escaped key bound to a non-empty well-escaped
string, and no key occurs twice. -/
def GoodMap (m : GoMap) : Prop :=
  (∀ e ∈ m, GoodStr e.1 ∧ ∃ b, e.2 = .str b ∧ GoodStr b) ∧ m.keys.Nodup

/-- Invariant of the loop on entry to each iteration. -/
structure Inv (s : LoopState) : Prop where
  inSt : inState s
  buf : wellEscaped s.rbuf = true
  key : s.state = waitoptDelim → GoodStr s.key
  opts : GoodMap s.options

/-- Map write for every entry of a list, first to last. -/
def GoMap.setAll (m : GoMap) (es : List (List Char × Value)) : GoMap :=
  es.foldl (fun acc e => acc.set e.1 e.2) m

/-- The text `k_1=v_1;...;k_n=v_n;` of a sequence of records. -/
def recordText : List (List Char × List Char) → List Char
  | [] => []
  | (k, v) :: rest => k ++ delimField :: (v ++ delimOpt :: recordText rest)

/-- The value that a sequence of pairs gives to a key when a later pair overrides an earlier
one with the same key. -/
def lastBinding : List (List Char × List Char) → List Char → Option (List Char)
  | [], _ => none
  | (k, v) :: rest, key =>
    match lastBinding rest key with
    | some w => some w
    | none => if k = key then some v else none

/-- The entries that a sequence of pairs denotes: every value stored as a string. -/
def strEntries (ps : List (List Char × List Char)) : List (List Char × Value) :=
  ps.map (fun kv => (kv.1, Value.str kv.2))

/-- An entry that `String()` renders so that `Parse` reads it back: a non-empty
well-escaped key without delimiters, bound to a non-empty well-escaped string. -/
def Readable (e : List Char × Value) : Prop :=
  GoodStr e.1 ∧ (∀ c ∈ e.1, c ≠ delimField ∧ c ≠ delimOpt) ∧ ∃ b, e.2 = .str b ∧ GoodStr b

/-- Records whose keys and values are non-empty and free of delimiters and backslashes. -/
def PlainRecords (ps : List (List Char × List Char)) : Prop :=
  ∀ kv ∈ ps, kv.1 ≠ [] ∧ kv.2 ≠ [] ∧ (∀ c ∈ kv.1, plain c) ∧ (∀ c ∈ kv.2, plain c)

/-- The value that a read finds at a path given by its items: `container[key]` for the
container and last key that `getContainer` returns. -/
def look (m : GoMap) (items : List (List Char)) : Option Value :=
  (getContainerLoop m items).1.get? (getContainerLoop m items).2

/-- The node that `Get` would load for the key as a deferred `@` file reference, if any. -/
def Options.deferredAt (env : Env) (o : Options) (key : List Char) : Option Options :=
  match o.GetObject key with
  | none => none
  | some val => o.deferred env val

/-- An environment in which no file can be loaded. -/
def envNoFiles : Env :=
  { sprint := fun _ => [], pathDir := id, pathJoin := fun a b => a ++ b, fromFile := fun _ => none }

/-- The tree `{a: {b: {c: "1"}}, s: "text"}`. -/
def sampleTree : Options :=
  { filePath := [],
    options := [(['a'], .map [(['b'], .map [(['c'], .str ['1'])])]), (['s'], .str "text".toList)] }

/-- The rune opens a line continuation with the text that follows it. -/
def opensLineCont (c : Char) (l : List Char) : Prop :=
  c = ESCAPE ∧ (l.head? = some CR ∨ l.head? = some LF)

instance (c : Char) (l : List Char) : Decidable (opensLineCont c l) := by
  unfold opensLineCont; infer_instance

/-- Invariant of the loop on an input without line continuation; `prev` is the rune read
last. -/
structure InvLC (prev : Char) (s : LoopState) : Prop where
  buf : hasLineCont s.rbuf = false
  last : s.rbuf.getLast? = some ESCAPE → prev = ESCAPE
  pending : s.lastCh = ESCAPE → prev = ESCAPE
  key : hasLineCont s.key = false
  opts : ∀ e ∈ s.options, hasLineCont e.1 = false ∧ ∀ b, e.2 = .str b → hasLineCont b = false

/-- No key and no string value of the map holds a line continuation. -/
def NoLineContMap (m : GoMap) : Prop :=
  ∀ e ∈ m, hasLineCont e.1 = false ∧ ∀ b, e.2 = .str b → hasLineCont b = false

/-- The text uses a control-character escape: a backslash followed by `n`, `r` or `t`, or a
line continuation (a backslash followed by CR or LF). -/
def usesControlEscape : List Char → Bool
  | [] => false
  | [_] => false
  | c :: d :: rest =>
    decide (c = ESCAPE ∧ (d = 'n' ∨ d = 'r' ∨ d = 't' ∨ d = CR ∨ d = LF)) ||
      usesControlEscape (d :: rest)

/-- The characters `a`, backslash, `=b=c;`: one record whose key is `a=b`. -/
def inputEscapedKey : List Char := 'a' :: ESCAPE :: "=b=c;".toList

/-- The characters `a=1;b=x`, backslash, `;y`: the last record is not terminated. -/
def inputTwoRecords : List Char := "a=1;b=x".toList ++ ESCAPE :: ";y".toList

/-- The tree `{a: nil}`, as a document with `a: null` decodes. -/
def nullTree : Options :=
  { filePath := [], options := [(['a'], .null)] }

/-- The tree `{log: {file: {name: "./applog.log"}}}`. -/
def logTree : Options :=
  { filePath := [],
    options := [("log".toList, .map [("file".toList, .map [("name".toList,
      .str "./applog.log".toList)])])] }

/-- The value is of one of the numeric types that the type switches of the typed getters
list. -/
def isNumber : Value → Bool
  | .num _ _ => true
  | .float _ => true
  | _ => false

/-- The value is a `bool`. -/
def isBool : Value → Bool
  | .bool _ => true
  | _ => false

/-- The value of a decimal digit. -/
def digitValue (c : Char) : Option Nat :=
  if '0' ≤ c ∧ c ≤ '9' then some (c.toNat - '0'.toNat) else none

/-- The number that a run of decimal digits denotes, continuing from `acc`. -/
def parseDigitsFrom : Nat → List Char → Option Nat
  | acc, [] => some acc
  | acc, c :: cs =>
    match digitValue c with
    | some d => parseDigitsFrom (acc * 10 + d) cs
    | none => none

/-- The number that a non-empty run of decimal digits denotes. -/
def parseDigits (s : List Char) : Option Nat :=
  if s = [] then none else parseDigitsFrom 0 s

/-- A sample of `strconv.ParseInt(s, 10, bits)`: an optional sign, decimal digits, and the
range check of the signed type of `bits` bits. -/
def parseIntDec (bits : Nat) : List Char → Option Int
  | [] => none
  | c :: ds =>
    if c = '-' then
      match parseDigits ds with
      | some n => if n ≤ 2 ^ (bits - 1) then some (-(n : Int)) else none
      | none => none
    else if c = '+' then
      match parseDigits ds with
      | some n => if n < 2 ^ (bits - 1) then some (n : Int) else none
      | none => none
    else
      match parseDigits (c :: ds) with
      | some n => if n < 2 ^ (bits - 1) then some (n : Int) else none
      | none => none

/-- A sample of `strconv.ParseBool`. -/
def parseBoolStd (s : List Char) : Option Bool :=
  if s ∈ ["1".toList, "t".toList, "T".toList, "TRUE".toList, "true".toList, "True".toList] then
    some true
  else if s ∈ ["0".toList, "f".toList, "F".toList, "FALSE".toList, "false".toList,
      "False".toList] then
    some false
  else none

/-- A sample of `fmt.Sprintf("%v", val)` on strings, booleans, integers and nil; other
values are not rendered. -/
def sprintStd : Value → List Char
  | .str s => s
  | .bool true => "true".toList
  | .bool false => "false".toList
  | .num _ n => (toString n).toList
  | .null => "<nil>".toList
  | _ => []

/-- A sample environment: no file loads, scalars are rendered as `%v` renders them. -/
def envStd : Env :=
  { sprint := sprintStd, pathDir := id, pathJoin := fun a b => a ++ b, fromFile := fun _ => none }

/-- A sample of the standard library on a 64-bit platform; durations and floating-point
values are not covered by the sample. -/
def convStd : Conv :=
  { parseInt := parseIntDec 64, atoi := parseIntDec 64, parseBool := parseBoolStd,
    parseDuration := fun _ => none, intBits := 64, floatToInt64 := fun _ => 0,
    floatToInt := fun _ => 0, floatToDuration := fun _ => 0 }

/-- The tree `{vStr: "Ini string", vNum: "456789", vBool: "true"}`. -/
def textTree : Options :=
  { filePath := [],
    options := [("vStr".toList, .str "Ini string".toList), ("vNum".toList, .str "456789".toList),
      ("vBool".toList, .str "true".toList)] }

/-- The tree `{u: uint64(18446744073709551615)}`. -/
def uintTree : Options :=
  { filePath := [], options := [(['u'], .num .uint64 18446744073709551615)] }

/-- The `Configure` calls that a `Configurable` receives among the calls made: the node and
the flag `first` of each, in order. -/
def callsTo (c : Nat) (evs : List Event) : List (Options × Bool) :=
  evs.filterMap (fun e =>
    match e with
    | .configure c' op first => if c' = c then some (op, first) else none
    | _ => none)

/-- The registry entries of a `Configurable`. -/
def entriesOf (c : Nat) (cfg : Configurator) : List configurableItem :=
  cfg.items.filter (fun item => decide (item.conf = c))

/-- The identities in the registry, in registration order. -/
def registered (cfg : Configurator) : List Nat := cfg.items.map configurableItem.conf

/-- The zero value of `Configurator`: no connector, no snapshot, nothing registered. -/
def zeroConfigurator : Configurator := { conn := none, lastCfg := none, items := [] }

/-- A bound configurator whose snapshot is `{a: {b: {c: "1"}}, s: "text"}`. -/
def boundConfigurator : Configurator :=
  { conn := some 1, lastCfg := some sampleTree, items := [] }

/-- A bound configurator with the snapshot `{a: {b: {c: "1"}}, s: "text"}` and the registry
`[(a, 7), (s, 8)]`. -/
def servingConfigurator : Configurator :=
  { conn := some 1, lastCfg := some sampleTree,
    items := [{ section_ := ['a'], conf := 7 }, { section_ := ['s'], conf := 8 }] }


/-- The registry `{file: 1, db: 2, rest: 3}`. -/
def sampleDrivers : DriverMap := [("file".toList, 1), ("db".toList, 2), ("rest".toList, 3)]

/-- The document `{"a": "1"}`, valid as JSON and as HJSON. -/
def sampleDocument : List Char := "\x7b\"a\": \"1\"\x7d".toList

/-- A sample codec: lower-casing of ASCII letters, and two decoders that accept the document
`{"a": "1"}` as the object with the one member `a`. -/
def codecStd : Codec :=
  { toLower := fun s => s.map Char.toLower,
    hjsonUnmarshal := fun content =>
      if content = sampleDocument then .ok [(['a'], .str ['1'])] else .error "syntax".toList,
    jsonUnmarshal := fun content =>
      if content = sampleDocument then .ok [(['a'], .str ['1'])] else .error "syntax".toList }

/-- The text of a flat node of strings as `String()` renders it, entry by entry. -/
def flatText (es : List (List Char × List Char)) : List Char :=
  es.flatMap (fun kv => kv.1 ++ delimField :: (rplDelimiter kv.2 ++ [delimOpt]))

/-- A field of the input as the parser reads it in one piece: every `=` and `;` in it is
preceded by a backslash, and a backslash is followed by a rune that belongs to it. -/
def rawField : List Char → Bool
  | [] => true
  | [c] => decide (c ≠ ESCAPE ∧ c ≠ delimField ∧ c ≠ delimOpt)
  | c :: d :: rest =>
    if c = ESCAPE then rawField rest
    else decide (c ≠ delimField ∧ c ≠ delimOpt) && rawField (d :: rest)

/-- A field of the input without its delimiter escapes: a backslash is dropped before `=`
and before `;`, and kept, together with the rune that follows it, everywhere else. -/
def dropDelimiterEscapes : List Char → List Char
  | [] => []
  | [c] => [c]
  | c :: d :: rest =>
    if c = ESCAPE then
      if d = delimField ∨ d = delimOpt then d :: dropDelimiterEscapes rest
      else c :: d :: dropDelimiterEscapes rest
    else c :: dropDelimiterEscapes (d :: rest)

/-- The records that the fields of the input denote. -/
def storedRecords (rs : List (List Char × List Char)) : List (List Char × List Char) :=
  rs.map (fun kv => (dropDelimiterEscapes kv.1, dropDelimiterEscapes kv.2))

/-- The bytes of the text `k_1=v_1;...;k_n=v_n;` of records given by the bytes of their keys
and values. -/
def recordBytes : List (Bytes × Bytes) → Bytes
  | [] => []
  | (k, v) :: rest => k ++ 0x3D :: (v ++ 0x3B :: recordBytes rest)

/-- The bytes of the keys and values of records that are texts. -/
def encodeRecords (ps : List (List Char × List Char)) : List (Bytes × Bytes) :=
  ps.map (fun kv => (utf8 kv.1, utf8 kv.2))

/-- The value that a read on the heap finds along the items of a path, from the map at an
address. -/
def Heap.look (h : Heap) : Nat → List (List Char) → Option Item
  | _, [] => none
  | a, [last] => h.read a last
  | a, key :: next :: rest =>
    match h.read a key with
    | some (.map m) => Heap.look h m (next :: rest)
    | _ => none

/-- The map reached from the map at an address along a path of keys. -/
def Heap.addr (h : Heap) : Nat → List (List Char) → Option Nat
  | a, [] => some a
  | a, key :: rest =>
    match h.read a key with
    | some (.map m) => Heap.addr h m rest
    | _ => none

/-- The maps reached from the map at `a` form a tree of map objects: no map is reached along
two paths, and every map reached is a map object of the heap, not a nil map. -/
def Heap.Tree (h : Heap) (a : Nat) : Prop :=
  (∀ p q c, h.addr a p = some c → h.addr a q = some c → p = q) ∧
    (∀ p c, h.addr a p = some c → c < h.length)

/-- The loop of `newContainer` on the heap followed by the write `container[key] = val` of
`Set`: the heap afterwards and what `container[key]` held before. -/
def Heap.setLoop (val : Item) : Heap → Nat → List (List Char) → Except Fatal (Heap × Option Item)
  | h, _, [] => .ok (h, none)
  | h, a, [last] =>
    match h.write a last val with
    | .error f => .error f
    | .ok h2 => .ok (h2, h.read a last)
  | h, a, key :: next :: rest =>
    match h.read a key with
    | none =>
      match h.write a key (.map h.length) with
      | .error f => .error f
      | .ok h2 => Heap.setLoop val (h2 ++ [[]]) h.length (next :: rest)
    | some (.map m) => Heap.setLoop val h m (next :: rest)
    | some _ => .error .nilMapWrite

/-- The heap with the one map `{a: m}` at address 0, `m` being the empty map at address 1,
and the node over the map at address 0. -/
def sharedHeap : Heap := [[(['a'], .map 1)], []]

/-- The node over the map at address 0. -/
def rootNode : Node := { filePath := [], options := 0 }

/-- The tree `{a: {b: {c: "1"}}, s: "text"}` on the heap, with the root map at address 0. -/
def sampleHeap : Heap :=
  [[(['a'], .map 1), (['s'], .str "text".toList)], [(['b'], .map 2)], [(['c'], .str ['1'])]]

/-- The heap with the one map `{r: "@inc.hjson"}` at address 0. -/
def refHeap : Heap := [[(['r'], .str "@inc.hjson".toList)]]

/-- An environment on the heap in which no file can be loaded. -/
def heapEnvNoFiles : HeapEnv :=
  { pathDir := id, pathJoin := fun a b => a ++ b, fromFile := fun _ _ => none }

/-- An environment on the heap in which every file that a deferred reference names loads as
the node over a new map `{x: "1"}`. -/
def heapEnvOneFile : HeapEnv :=
  { pathDir := id, pathJoin := fun a b => a ++ b,
    fromFile := fun f n => some ([[(['x'], .str ['1'])]], { filePath := f, options := n }) }
/-! ## Basic facts -/

theorem goLen_nil : goLen [] = 0 := rfl

theorem goLen_cons (c : Char) (s : List Char) : goLen (c :: s) = c.utf8Size + goLen s := by
  simp [goLen]

theorem goLen_append (a b : List Char) : goLen (a ++ b) = goLen a + goLen b := by
  simp [goLen]

theorem length_le_goLen (s : List Char) : s.length ≤ goLen s := by
  induction s with
  | nil => simp [goLen]
  | cons c s ih =>
    have := Char.utf8Size_pos c
    rw [goLen_cons, List.length_cons]; omega

theorem goLen_eq_zero {s : List Char} : goLen s = 0 ↔ s = [] := by
  constructor
  · intro h
    have := length_le_goLen s
    exact List.length_eq_zero.mp (by omega)
  · rintro rfl; rfl

theorem goLen_pos {s : List Char} : 0 < goLen s ↔ s ≠ [] := by
  rw [Nat.pos_iff_ne_zero, Ne, goLen_eq_zero]

/-! ## One iteration, case by case -/

theorem stepU_esc_delim (s : LoopState) (ch : Char) (hs : inState s) (h : s.lastCh = ESCAPE)
    (hc : ch = delimField ∨ ch = delimOpt) :
    stepU s ch = .next { s with rbuf := s.rbuf ++ [ch], lastCh := ch } := by
  have hne : ch ≠ ESCAPE := by rcases hc with rfl | rfl <;> decide
  rcases hs with h0 | h1
  · simp [stepU, step, putEscaped, put, h0, h, hc, hne]
  · simp [stepU, step, putEscaped, put, h1, h, hc, hne, waitoptDelim, waitfieldDelim]

theorem stepU_esc_esc (s : LoopState) (hs : inState s) (h : s.lastCh = ESCAPE) :
    stepU s ESCAPE = .next { s with rbuf := s.rbuf ++ [ESCAPE, ESCAPE], lastCh := CR } := by
  have h1 : ¬ (ESCAPE = delimField ∨ ESCAPE = delimOpt) := by decide
  rcases hs with h0 | h0
  · simp [stepU, step, putEscaped, put, h0, h, h1]
  · simp [stepU, step, putEscaped, put, h0, h, h1, waitoptDelim, waitfieldDelim]

theorem stepU_esc_plain (s : LoopState) (ch : Char) (hs : inState s) (h : s.lastCh = ESCAPE)
    (hc : plain ch) :
    stepU s ch = .next { s with rbuf := s.rbuf ++ [ESCAPE, ch], lastCh := ch } := by
  obtain ⟨c1, c2, c3⟩ := hc
  rcases hs with h0 | h0
  · simp [stepU, step, putEscaped, put, h0, h, c1, c2, c3]
  · simp [stepU, step, putEscaped, put, h0, h, c1, c2, c3, waitoptDelim, waitfieldDelim]

theorem stepU_bslash (s : LoopState) (hs : inState s) (h : s.lastCh ≠ ESCAPE) :
    stepU s ESCAPE = .next { s with lastCh := ESCAPE } := by
  have h1 : ESCAPE ≠ delimField := by decide
  have h2 : ESCAPE ≠ delimOpt := by decide
  rcases hs with h0 | h0
  · simp [stepU, step, h0, h, h1, h2]
  · simp [stepU, step, h0, h, h1, h2, waitoptDelim, waitfieldDelim]

theorem stepU_plain (s : LoopState) (ch : Char) (hs : inState s) (h : s.lastCh ≠ ESCAPE)
    (hc : plain ch) :
    stepU s ch = .next { s with rbuf := s.rbuf ++ [ch], lastCh := ch } := by
  obtain ⟨c1, c2, c3⟩ := hc
  rcases hs with h0 | h0
  · simp [stepU, step, put, h0, h, c1, c2, c3]
  · simp [stepU, step, put, h0, h, c1, c2, c3, waitoptDelim, waitfieldDelim]

theorem stepU_field_opt (s : LoopState) (h0 : s.state = waitfieldDelim) (h : s.lastCh ≠ ESCAPE) :
    stepU s delimOpt = .brk { s with err := some (.unescaped delimOpt) } := by
  simp [stepU, step, h0, h]

theorem stepU_field_field (s : LoopState) (h0 : s.state = waitfieldDelim)
    (h : s.lastCh ≠ ESCAPE) :
    stepU s delimField =
      if s.rbuf = [] then
        .brk { s with key := s.rbuf, rbuf := [], state := waitoptDelim, err := some .emptyKey }
      else
        .next { s with key := s.rbuf, rbuf := [], state := waitoptDelim, lastCh := delimField } := by
  have h1 : delimField ≠ delimOpt := by decide
  simp [stepU, step, h0, h, h1, goLen_eq_zero]

theorem stepU_value_field (s : LoopState) (h0 : s.state = waitoptDelim)
    (h : s.lastCh ≠ ESCAPE) :
    stepU s delimField = .brk { s with err := some (.unescaped delimField) } := by
  simp [stepU, step, h0, h, waitoptDelim, waitfieldDelim]

theorem stepU_value_opt (s : LoopState) (h0 : s.state = waitoptDelim) (h : s.lastCh ≠ ESCAPE) :
    stepU s delimOpt =
      if s.rbuf = [] then
        .brk { s with rbuf := [], err := some (.emptyValue s.key) }
      else
        .next { s with rbuf := [], options := s.options.set s.key (.str s.rbuf), key := [],
                       state := waitfieldDelim, lastCh := delimOpt } := by
  have h1 : delimOpt ≠ delimField := by decide
  simp [stepU, step, h0, h, h1, goLen_eq_zero, waitoptDelim, waitfieldDelim]

/-- Every rune is the escape character, a delimiter, or plain. -/
theorem char_cases (ch : Char) : ch = ESCAPE ∨ ch = delimField ∨ ch = delimOpt ∨ plain ch := by
  unfold plain; tauto

theorem stepU_other (s : LoopState) (ch : Char) (hs : ¬ inState s) :
    stepU s ch = .next { s with lastCh := ch } := by
  unfold inState at hs
  push_neg at hs
  simp [stepU, step, hs.1, hs.2]

theorem stepU_case (s : LoopState) (ch : Char) : StepCase s ch (stepU s ch) := by
  by_cases hs : inState s
  swap
  · rw [stepU_other s ch hs]; exact .other hs
  by_cases h : s.lastCh = ESCAPE
  · rcases char_cases ch with rfl | rfl | rfl | hc
    · rw [stepU_esc_esc s hs h]; exact .escEsc hs h rfl
    · rw [stepU_esc_delim s _ hs h (Or.inl rfl)]; exact .escDelim hs h (Or.inl rfl)
    · rw [stepU_esc_delim s _ hs h (Or.inr rfl)]; exact .escDelim hs h (Or.inr rfl)
    · rw [stepU_esc_plain s _ hs h hc]; exact .escPlain hs h hc
  · rcases char_cases ch with rfl | rfl | rfl | hc
    · rw [stepU_bslash s hs h]; exact .bslash hs h rfl
    · rcases hs with h0 | h0
      · rw [stepU_field_field s h0 h]
        by_cases hb : s.rbuf = []
        · rw [if_pos hb]
          have := @StepCase.fieldEmpty s delimField h0 h rfl hb
          simpa [hb] using this
        · rw [if_neg hb]; exact .fieldKey h0 h rfl hb
      · rw [stepU_value_field s h0 h]; exact .valueField h0 h rfl
    · rcases hs with h0 | h0
      · rw [stepU_field_opt s h0 h]; exact .fieldOpt h0 h rfl
      · rw [stepU_value_opt s h0 h]
        by_cases hb : s.rbuf = []
        · rw [if_pos hb]; exact .valueEmpty h0 h rfl hb
        · rw [if_neg hb]; exact .valueDone h0 h rfl hb
    · rw [stepU_plain s _ hs h hc]; exact .plain hs h hc

/-- With room for the pending escape, the bounded iteration is the unbounded one. -/
theorem step_eq_stepU (cap : Nat) (s : LoopState) (ch : Char)
    (h : s.rbuf.length + pend s < cap) : step cap s ch = stepU s ch := by
  unfold pend at h
  unfold stepU step putEscaped put
  split_ifs at h ⊢ <;> simp_all <;> omega

/-! ## The loop -/

theorem stepU_ne_fault (s : LoopState) (ch : Char) : stepU s ch ≠ .fault := by
  intro h
  have := stepU_case s ch
  rw [h] at this
  cases this

theorem stepU_next_room {s s' : LoopState} {ch : Char} (h : stepU s ch = .next s') :
    s'.rbuf.length + pend s' ≤ s.rbuf.length + pend s + 1 := by
  have hc := stepU_case s ch
  rw [h] at hc
  unfold pend
  cases hc <;> simp_all [plain] <;> first | decide | (split_ifs <;> omega)

theorem stepU_next_err {s s' : LoopState} {ch : Char} (h : stepU s ch = .next s') :
    s'.err = s.err := by
  have hc := stepU_case s ch
  rw [h] at hc
  cases hc <;> rfl

theorem stepU_brk_err {s s' : LoopState} {ch : Char} (h : stepU s ch = .brk s') :
    s'.err ≠ none := by
  have hc := stepU_case s ch
  rw [h] at hc
  cases hc <;> simp

theorem run_nil (s : LoopState) : run s [] = s := rfl

theorem run_cons_next {s s' : LoopState} {ch : Char} (h : stepU s ch = .next s')
    (rest : List Char) : run s (ch :: rest) = run s' rest := by
  simp [run, h]

theorem run_cons_brk {s s' : LoopState} {ch : Char} (h : stepU s ch = .brk s')
    (rest : List Char) : run s (ch :: rest) = s' := by
  simp [run, h]

/-- The bounded loop never faults and computes `run` when the buffer has room for the
pending escape and one rune per remaining input rune. -/
theorem parseLoop_eq_run (cap : Nat) :
    ∀ (l : List Char) (s : LoopState), s.rbuf.length + pend s + l.length ≤ cap →
      parseLoop cap s l = some (run s l)
  | [], s, _ => rfl
  | ch :: rest, s, h => by
    have hroom : s.rbuf.length + pend s < cap := by
      simp only [List.length_cons] at h; omega
    have hstep : step cap s ch = stepU s ch := step_eq_stepU cap s ch hroom
    cases hst : stepU s ch with
    | fault => exact absurd hst (stepU_ne_fault s ch)
    | brk s' => simp [parseLoop, run, hstep, hst]
    | next s' =>
      have h1 := stepU_next_room hst
      have : s'.rbuf.length + pend s' + rest.length ≤ cap := by
        simp only [List.length_cons] at h; omega
      simp [parseLoop, run, hstep, hst, parseLoop_eq_run cap rest s' this]

theorem parseLoop_init (cap : Nat) (l : List Char) (h : l.length ≤ cap) :
    parseLoop cap initState l = some (run initState l) := by
  apply parseLoop_eq_run
  simpa [initState, pend, CR, ESCAPE] using h

/-- Within the size limit `Parse` returns, and what it returns is computed by `run`. -/
theorem Parse_of_le (o : Options) (p : List Char) (h : goLen (rplLineEscape p) ≤ maxLen) :
    Parse o p = .ok (finish o (run initState (rplLineEscape p))) := by
  unfold Parse
  simp only [gt_iff_lt, Nat.not_lt.mpr h, if_false]
  rw [parseLoop_init _ _ (length_le_goLen _)]

/-- Beyond the size limit `Parse` panics. -/
theorem Parse_of_gt (o : Options) (p : List Char) (h : maxLen < goLen (rplLineEscape p)) :
    Parse o p = .error (.sizeLimit (goLen (rplLineEscape p)) maxLen) := by
  unfold Parse
  simp only [gt_iff_lt, h, if_true]

theorem run_err_of_none {l : List Char} : ∀ {s : LoopState}, (run s l).err = none → s.err = none := by
  induction l with
  | nil => intro s h; exact h
  | cons ch rest ih =>
    intro s h
    cases hst : stepU s ch with
    | fault => exact absurd hst (stepU_ne_fault s ch)
    | brk s' => rw [run_cons_brk hst] at h; exact absurd h (stepU_brk_err hst)
    | next s' => rw [run_cons_next hst] at h; rw [← stepU_next_err hst]; exact ih h

/-- If the loop did not break on `l1`, it continues with `l2`. -/
theorem run_append (l1 l2 : List Char) :
    ∀ (s : LoopState), (run s l1).err = none → run s (l1 ++ l2) = run (run s l1) l2 := by
  induction l1 with
  | nil => intro s _; rfl
  | cons ch rest ih =>
    intro s h
    cases hst : stepU s ch with
    | fault => exact absurd hst (stepU_ne_fault s ch)
    | brk s' => rw [run_cons_brk hst] at h; exact absurd h (stepU_brk_err hst)
    | next s' =>
      rw [run_cons_next hst] at h
      rw [List.cons_append, run_cons_next hst, run_cons_next hst, ih s' h]

/-- If the loop broke on `l1`, what follows is not read. -/
theorem run_append_brk (l1 l2 : List Char) :
    ∀ (s : LoopState), s.err = none → (run s l1).err ≠ none → run s (l1 ++ l2) = run s l1 := by
  induction l1 with
  | nil => intro s h0 h; exact absurd h0 h
  | cons ch rest ih =>
    intro s h0 h
    cases hst : stepU s ch with
    | fault => exact absurd hst (stepU_ne_fault s ch)
    | brk s' => rw [List.cons_append, run_cons_brk hst, run_cons_brk hst]
    | next s' =>
      rw [run_cons_next hst] at h
      rw [List.cons_append, run_cons_next hst, run_cons_next hst,
        ih s' ((stepU_next_err hst).trans h0) h]

/-! ## The replacers on text without their patterns -/

theorem rplLineEscape_cons_ne (c : Char) (l : List Char) (hc : c ≠ ESCAPE) :
    rplLineEscape (c :: l) = c :: rplLineEscape l := by
  match l with
  | [] => simp [rplLineEscape]
  | [d] => simp [rplLineEscape, hc]
  | d :: e :: rest => simp [rplLineEscape, hc]

theorem rplLineEscape_append_of_not_mem (l m : List Char) (h : ESCAPE ∉ l) :
    rplLineEscape (l ++ m) = l ++ rplLineEscape m := by
  induction l with
  | nil => rfl
  | cons c l ih =>
    simp only [List.mem_cons, not_or] at h
    rw [List.cons_append, rplLineEscape_cons_ne _ _ (Ne.symm h.1), ih h.2, List.cons_append]

theorem rplLineEscape_of_not_mem (l : List Char) (h : ESCAPE ∉ l) : rplLineEscape l = l := by
  have := rplLineEscape_append_of_not_mem l [] h
  simpa [rplLineEscape] using this

theorem rplDelimiter_append (a b : List Char) :
    rplDelimiter (a ++ b) = rplDelimiter a ++ rplDelimiter b := by
  induction a with
  | nil => rfl
  | cons c a ih =>
    simp only [List.cons_append, rplDelimiter]
    split_ifs <;> simp [ih]

theorem rplDelimiter_of_no_delim (l : List Char)
    (h : ∀ c ∈ l, c ≠ delimField ∧ c ≠ delimOpt) : rplDelimiter l = l := by
  induction l with
  | nil => rfl
  | cons c l ih =>
    have hc := h c (List.mem_cons_self _ _)
    simp [rplDelimiter, hc.1, hc.2, ih (fun d hd => h d (List.mem_cons_of_mem _ hd))]

theorem goLen_replicate (n : Nat) (c : Char) (hc : c.utf8Size = 1) :
    goLen (List.replicate n c) = n := by
  induction n with
  | zero => rfl
  | succ n ih => rw [List.replicate_succ, goLen_cons, hc, ih]; omega

/-! ## Well-escaped text -/

theorem wellEscaped_cons_ne (c : Char) (l : List Char) (hc : c ≠ ESCAPE) :
    wellEscaped (c :: l) = wellEscaped l := by
  match l with
  | [] => simp [wellEscaped, hc]
  | d :: rest => simp [wellEscaped, hc]

theorem wellEscaped_esc_cons (d : Char) (l : List Char) :
    wellEscaped (ESCAPE :: d :: l) = (decide (d ≠ delimField ∧ d ≠ delimOpt) && wellEscaped l) := by
  simp [wellEscaped]

theorem wellEscaped_of_no_esc (l : List Char) (h : ∀ c ∈ l, c ≠ ESCAPE) :
    wellEscaped l = true := by
  induction l with
  | nil => rfl
  | cons c l ih =>
    rw [wellEscaped_cons_ne _ _ (h c (List.mem_cons_self _ _))]
    exact ih (fun d hd => h d (List.mem_cons_of_mem _ hd))

theorem wellEscaped_append (a b : List Char) (ha : wellEscaped a = true)
    (hb : wellEscaped b = true) : wellEscaped (a ++ b) = true := by
  induction a using wellEscaped.induct with
  | case1 => simpa using hb
  | case2 c =>
    simp only [wellEscaped, decide_eq_true_eq] at ha
    rw [List.singleton_append, wellEscaped_cons_ne _ _ ha]; exact hb
  | case3 d rest ih =>
    rw [wellEscaped_esc_cons] at ha
    simp only [Bool.and_eq_true] at ha
    simp only [List.cons_append, wellEscaped_esc_cons, Bool.and_eq_true]
    exact ⟨ha.1, ih ha.2⟩
  | case4 c d rest hc ih =>
    rw [wellEscaped_cons_ne _ _ hc] at ha
    rw [List.cons_append, wellEscaped_cons_ne _ _ hc]
    exact ih ha

/-! ## Reading back escaped text -/

/-- One rune other than the backslash, written with its delimiter escape, is read back as
that rune. -/
theorem run_single (s : LoopState) (c : Char) (rest : List Char) (hs : inState s)
    (h : s.lastCh ≠ ESCAPE) (hc : c ≠ ESCAPE) :
    ∃ c', c' ≠ ESCAPE ∧
      run s (rplDelimiter [c] ++ rest) = run { s with rbuf := s.rbuf ++ [c], lastCh := c' } rest := by
  by_cases hd : c = delimOpt ∨ c = delimField
  · refine ⟨c, hc, ?_⟩
    have e1 : rplDelimiter [c] = [ESCAPE, c] := by simp [rplDelimiter, hd]
    rw [e1]
    simp only [List.cons_append, List.nil_append]
    rw [run_cons_next (stepU_bslash s hs h)]
    rw [run_cons_next (stepU_esc_delim { s with lastCh := ESCAPE } c hs rfl hd.symm)]
  · refine ⟨c, hc, ?_⟩
    have e1 : rplDelimiter [c] = [c] := by simp [rplDelimiter, hd]
    push_neg at hd
    rw [e1]
    simp only [List.cons_append, List.nil_append]
    rw [run_cons_next (stepU_plain s c hs h ⟨hd.2, hd.1, hc⟩)]

/-- A well-escaped text, written with its delimiters escaped, is read back unchanged into
the buffer, in either parser state. -/
theorem run_raw (b : List Char) :
    ∀ (s : LoopState) (rest : List Char), wellEscaped b = true → inState s →
      s.lastCh ≠ ESCAPE →
      ∃ c', c' ≠ ESCAPE ∧
        run s (rplDelimiter b ++ rest) = run { s with rbuf := s.rbuf ++ b, lastCh := c' } rest := by
  induction b using wellEscaped.induct with
  | case1 =>
    intro s rest _ _ h
    exact ⟨s.lastCh, h, by simp [rplDelimiter]⟩
  | case2 c =>
    intro s rest hw hs h
    simp only [wellEscaped, decide_eq_true_eq] at hw
    exact run_single s c rest hs h hw
  | case3 d rest' ih =>
    intro s rest hw hs h
    rw [wellEscaped_esc_cons] at hw
    simp only [Bool.and_eq_true, decide_eq_true_eq] at hw
    obtain ⟨⟨hd1, hd2⟩, hw'⟩ := hw
    have e1 : rplDelimiter (ESCAPE :: d :: rest') = ESCAPE :: d :: rplDelimiter rest' := by
      have : ¬ (ESCAPE = delimOpt ∨ ESCAPE = delimField) := by decide
      simp [rplDelimiter, this, hd1, hd2]
    rw [e1]
    simp only [List.cons_append]
    rw [run_cons_next (stepU_bslash s hs h)]
    by_cases hde : d = ESCAPE
    · subst hde
      rw [run_cons_next (stepU_esc_esc { s with lastCh := ESCAPE } hs rfl)]
      obtain ⟨c', hc', e⟩ := ih { s with rbuf := s.rbuf ++ [ESCAPE, ESCAPE], lastCh := CR } rest hw'
        hs (show CR ≠ ESCAPE by decide)
      exact ⟨c', hc', by simpa using e⟩
    · rw [run_cons_next (stepU_esc_plain { s with lastCh := ESCAPE } d hs rfl ⟨hd1, hd2, hde⟩)]
      obtain ⟨c', hc', e⟩ := ih { s with rbuf := s.rbuf ++ [ESCAPE, d], lastCh := d } rest hw'
        hs hde
      exact ⟨c', hc', by simpa using e⟩
  | case4 c d rest' hc ih =>
    intro s rest hw hs h
    rw [wellEscaped_cons_ne _ _ hc] at hw
    obtain ⟨c1, hc1, e1⟩ := run_single s c (rplDelimiter (d :: rest') ++ rest) hs h hc
    have e0 : rplDelimiter (c :: d :: rest') = rplDelimiter [c] ++ rplDelimiter (d :: rest') := by
      rw [← rplDelimiter_append]; rfl
    rw [e0, List.append_assoc, e1]
    obtain ⟨c', hc', e⟩ := ih { s with rbuf := s.rbuf ++ [c], lastCh := c1 } rest hw hs hc1
    exact ⟨c', hc', by simpa using e⟩

/-! ## Maps -/

theorem GoMap.erase_eq_filter (m : GoMap) (key : List Char) :
    m.erase key = m.filter (fun e => decide (e.1 ≠ key)) := by
  induction m with
  | nil => rfl
  | cons e m ih =>
    obtain ⟨k, v⟩ := e
    by_cases h : k = key <;> simp [GoMap.erase, h, ih]

theorem GoMap.mem_erase {m : GoMap} {key : List Char} {e : List Char × Value} :
    e ∈ m.erase key ↔ e ∈ m ∧ e.1 ≠ key := by
  rw [GoMap.erase_eq_filter]; simp

theorem GoMap.mem_set {m : GoMap} {key : List Char} {val : Value} {e : List Char × Value} :
    e ∈ m.set key val ↔ e = (key, val) ∨ (e ∈ m ∧ e.1 ≠ key) := by
  simp [GoMap.set, GoMap.mem_erase]

theorem GoMap.get?_erase (m : GoMap) (key k : List Char) :
    (m.erase key).get? k = if key = k then none else m.get? k := by
  induction m with
  | nil => simp [GoMap.erase, GoMap.get?]
  | cons e m ih =>
    obtain ⟨k', v⟩ := e
    by_cases h : k' = key
    · subst h
      by_cases h2 : k' = k
      · subst h2
        simpa [GoMap.erase] using ih
      · simpa [GoMap.erase, GoMap.get?, h2] using ih
    · by_cases h2 : k' = k
      · subst h2
        have h3 : ¬ key = k' := fun e => h e.symm
        simp [GoMap.erase, GoMap.get?, h, h3]
      · simp [GoMap.erase, GoMap.get?, h, h2, ih]

theorem GoMap.get?_set (m : GoMap) (key : List Char) (val : Value) (k : List Char) :
    (m.set key val).get? k = if key = k then some val else m.get? k := by
  by_cases h : key = k <;> simp [GoMap.set, GoMap.get?, GoMap.get?_erase, h]

theorem GoMap.keys_erase (m : GoMap) (key : List Char) :
    (m.erase key).keys = m.keys.filter (fun k => decide (k ≠ key)) := by
  induction m with
  | nil => rfl
  | cons e m ih =>
    obtain ⟨k, v⟩ := e
    by_cases h : k = key
    · simp [GoMap.erase, GoMap.keys, h] at ih ⊢; exact ih
    · simp [GoMap.erase, GoMap.keys, h] at ih ⊢; exact ih

theorem GoMap.nodup_set {m : GoMap} (h : m.keys.Nodup) (key : List Char) (val : Value) :
    (m.set key val).keys.Nodup := by
  have e : (m.set key val).keys = key :: (m.erase key).keys := rfl
  rw [e, GoMap.keys_erase, List.nodup_cons]
  exact ⟨by simp, h.filter _⟩

/-- In a map without repeated keys, the read of a key returns the value of its entry. -/
theorem GoMap.get?_eq_some_iff {m : GoMap} (h : m.keys.Nodup) (k : List Char) (v : Value) :
    m.get? k = some v ↔ (k, v) ∈ m := by
  induction m with
  | nil => simp [GoMap.get?]
  | cons e m ih =>
    obtain ⟨k', v'⟩ := e
    have hk : k' ∉ GoMap.keys m ∧ (GoMap.keys m).Nodup := by
      simpa [GoMap.keys] using h
    by_cases hkk : k' = k
    · subst hkk
      simp only [GoMap.get?, if_true, Option.some.injEq, List.mem_cons, Prod.mk.injEq, true_and]
      constructor
      · intro e; exact Or.inl e.symm
      · rintro (e | hm)
        · exact e.symm
        · exact absurd (List.mem_map_of_mem Prod.fst hm) hk.1
    · simp only [GoMap.get?, hkk, if_false, List.mem_cons, Prod.mk.injEq]
      rw [ih hk.2]
      constructor
      · intro hm; exact Or.inr hm
      · rintro (⟨e, _⟩ | hm)
        · exact absurd e.symm hkk
        · exact hm

theorem GoMap.get?_eq_none_iff (m : GoMap) (k : List Char) :
    m.get? k = none ↔ k ∉ m.keys := by
  induction m with
  | nil => simp [GoMap.get?, GoMap.keys]
  | cons e m ih =>
    obtain ⟨k', v'⟩ := e
    by_cases hkk : k' = k
    · simp [GoMap.get?, GoMap.keys, hkk]
    · simp only [GoMap.get?, hkk, if_false, ih]
      simp [GoMap.keys, Ne.symm hkk]

/-- Two maps without repeated keys and with the same entries read alike. -/
theorem GoMap.get?_eq_of_perm {m1 m2 : GoMap} (h1 : m1.keys.Nodup) (hp : m1.Perm m2)
    (k : List Char) : m1.get? k = m2.get? k := by
  have h2 : m2.keys.Nodup := (hp.map Prod.fst).nodup_iff.mp h1
  cases hv : m2.get? k with
  | none =>
    rw [GoMap.get?_eq_none_iff] at hv ⊢
    intro hm; exact hv ((hp.map Prod.fst).mem_iff.mp hm)
  | some v =>
    rw [GoMap.get?_eq_some_iff h2] at hv
    rw [GoMap.get?_eq_some_iff h1]
    exact hp.mem_iff.mpr hv

theorem GoMap.setAll_nil (m : GoMap) : m.setAll [] = m := rfl

theorem GoMap.setAll_cons (m : GoMap) (e : List Char × Value) (es : List (List Char × Value)) :
    m.setAll (e :: es) = (m.set e.1 e.2).setAll es := rfl

theorem GoMap.setAll_append (m : GoMap) (es fs : List (List Char × Value)) :
    m.setAll (es ++ fs) = (m.setAll es).setAll fs := by
  simp [GoMap.setAll, List.foldl_append]

theorem GoMap.nodup_setAll (es : List (List Char × Value)) :
    ∀ {m : GoMap}, m.keys.Nodup → (m.setAll es).keys.Nodup := by
  induction es with
  | nil => intro m h; exact h
  | cons e es ih => intro m h; exact ih (GoMap.nodup_set h _ _)

/-! ## The loop invariant -/

theorem Inv_initState : Inv initState :=
  ⟨Or.inl rfl, rfl, fun h => absurd h (by decide), ⟨fun _ h => absurd h (List.not_mem_nil _),
    List.nodup_nil⟩⟩

theorem wellEscaped_snoc {b : List Char} {c : Char} (hb : wellEscaped b = true)
    (hc : c ≠ ESCAPE) : wellEscaped (b ++ [c]) = true :=
  wellEscaped_append b [c] hb (by simp [wellEscaped, hc])

theorem wellEscaped_snoc_pair {b : List Char} {c : Char} (hb : wellEscaped b = true)
    (hc : c ≠ delimField ∧ c ≠ delimOpt) : wellEscaped (b ++ [ESCAPE, c]) = true :=
  wellEscaped_append b [ESCAPE, c] hb (by simp [wellEscaped, hc])

theorem Inv_step {s s' : LoopState} {ch : Char} (hI : Inv s) (h : stepU s ch = .next s') :
    Inv s' := by
  have hc := stepU_case s ch
  rw [h] at hc
  obtain ⟨hst, hbuf, hkey, hopts⟩ := hI
  cases hc with
  | other hs => exact absurd hst hs
  | escDelim hs hl hd =>
    refine ⟨hst, wellEscaped_snoc hbuf ?_, hkey, hopts⟩
    rcases hd with rfl | rfl <;> decide
  | escEsc hs hl hd =>
    exact ⟨hst, wellEscaped_snoc_pair hbuf (by decide), hkey, hopts⟩
  | escPlain hs hl hd =>
    exact ⟨hst, wellEscaped_snoc_pair hbuf ⟨hd.1, hd.2.1⟩, hkey, hopts⟩
  | bslash hs hl hd => exact ⟨hst, hbuf, hkey, hopts⟩
  | plain hs hl hd => exact ⟨hst, wellEscaped_snoc hbuf hd.2.2, hkey, hopts⟩
  | fieldKey h0 hl hd hb => exact ⟨Or.inr rfl, rfl, fun _ => ⟨hbuf, hb⟩, hopts⟩
  | valueDone h0 hl hd hb =>
    refine ⟨Or.inl rfl, rfl, fun h => absurd h (show ¬ waitfieldDelim = waitoptDelim by decide),
      ?_, GoMap.nodup_set hopts.2 _ _⟩
    intro e he
    rcases GoMap.mem_set.mp he with rfl | ⟨hm, _⟩
    · exact ⟨hkey h0, s.rbuf, rfl, hbuf, hb⟩
    · exact hopts.1 e hm

theorem Inv_run (l : List Char) :
    ∀ {s : LoopState}, Inv s → (run s l).err = none → Inv (run s l) := by
  induction l with
  | nil => intro s hI _; exact hI
  | cons ch rest ih =>
    intro s hI he
    cases hst : stepU s ch with
    | fault => exact absurd hst (stepU_ne_fault s ch)
    | brk s' => rw [run_cons_brk hst] at he; exact absurd he (stepU_brk_err hst)
    | next s' =>
      rw [run_cons_next hst] at he ⊢
      exact ih (Inv_step hI hst) he

/-- After a loop that ended without error, `Parse` returns no error and a good map. -/
theorem finish_good (o : Options) {s : LoopState} (hI : Inv s) (he : s.err = none) :
    (finish o s).2 = none ∧ GoodMap (finish o s).1.options := by
  unfold finish
  rw [he]
  simp only
  split_ifs with hc
  · refine ⟨rfl, ?_, GoMap.nodup_set hI.opts.2 _ _⟩
    intro e hm
    rcases GoMap.mem_set.mp hm with rfl | ⟨hm, _⟩
    · exact ⟨hI.key hc.2.1, s.rbuf, rfl, hI.buf, List.length_pos.mp hc.1⟩
    · exact hI.opts.1 e hm
  · exact ⟨rfl, hI.opts⟩

/-- A successful `Parse` leaves a good map: non-empty well-escaped keys bound to non-empty
well-escaped strings, no key twice. -/
theorem Parse_good {o o' : Options} {p : List Char} (h : Parse o p = .ok (o', none)) :
    GoodMap o'.options := by
  by_cases hlen : goLen (rplLineEscape p) ≤ maxLen
  · rw [Parse_of_le o p hlen] at h
    simp only [Except.ok.injEq] at h
    have he : (run initState (rplLineEscape p)).err = none := by
      by_contra hne
      unfold finish at h
      split at h
      · cases h
      · rename_i heq; exact hne heq
    have := finish_good o (Inv_run _ Inv_initState he) he
    rw [h] at this
    exact this.2
  · rw [Parse_of_gt o p (Nat.lt_of_not_le hlen)] at h
    cases h

/-! ## Reading a rendered record -/

/-- A record `key=value;` whose value is written with escaped delimiters is read back as
the binding of the key to the value. -/
theorem run_record (s : LoopState) (k b rest : List Char) (h0 : s.state = waitfieldDelim)
    (hbuf : s.rbuf = []) (h : s.lastCh ≠ ESCAPE) (hk : GoodStr k)
    (hkd : ∀ c ∈ k, c ≠ delimField ∧ c ≠ delimOpt) (hb : GoodStr b) :
    run s (k ++ delimField :: (rplDelimiter b ++ delimOpt :: rest)) =
      run { state := waitfieldDelim, key := [], lastCh := delimOpt, rbuf := [],
            options := s.options.set k (.str b), err := s.err } rest := by
  obtain ⟨c1, hc1, e1⟩ := run_raw k s (delimField :: (rplDelimiter b ++ delimOpt :: rest)) hk.1
    (Or.inl h0) h
  rw [rplDelimiter_of_no_delim k hkd] at e1
  rw [e1, hbuf, List.nil_append]
  have e2 := stepU_field_field { s with rbuf := k, lastCh := c1 } h0 hc1
  rw [if_neg (show ¬ k = [] from hk.2)] at e2
  rw [run_cons_next e2]
  obtain ⟨c2, hc2, e3⟩ := run_raw b
    { s with key := k, rbuf := [], state := waitoptDelim, lastCh := delimField }
    (delimOpt :: rest) hb.1 (Or.inr rfl) (show delimField ≠ ESCAPE by decide)
  rw [e3]
  have e4 := stepU_value_opt
    { s with key := k, rbuf := [] ++ b, state := waitoptDelim, lastCh := c2 } rfl hc2
  rw [if_neg (show ¬ ([] ++ b = []) by simpa using hb.2)] at e4
  rw [run_cons_next e4]
  simp

theorem renderEntries_cons_str (env : Env) (k b : List Char) (es : List (List Char × Value)) :
    renderEntries env ((k, .str b) :: es) =
      k ++ delimField :: (rplDelimiter b ++ delimOpt :: renderEntries env es) := by
  simp [renderEntries, renderValue]

/-- The rendering of readable entries is read back entry by entry. -/
theorem run_renderEntries (env : Env) (es : List (List Char × Value)) :
    ∀ (s : LoopState), (∀ e ∈ es, Readable e) → s.state = waitfieldDelim → s.rbuf = [] →
      s.lastCh ≠ ESCAPE →
      ∃ key c, c ≠ ESCAPE ∧
        run s (renderEntries env es) =
          { state := waitfieldDelim, key := key, lastCh := c, rbuf := [],
            options := s.options.setAll es, err := s.err } := by
  induction es with
  | nil =>
    intro s _ h0 hb h
    refine ⟨s.key, s.lastCh, h, ?_⟩
    cases s
    simp_all [renderEntries, run_nil, GoMap.setAll_nil]
  | cons e es ih =>
    intro s hes h0 hb h
    obtain ⟨k, v⟩ := e
    obtain ⟨hk, hkd, b, hv, hgb⟩ := hes (k, v) (List.mem_cons_self _ _)
    simp only at hv hk hkd
    subst hv
    rw [renderEntries_cons_str, run_record s k b _ h0 hb h hk hkd hgb]
    obtain ⟨key, c, hc, e⟩ := ih
      { state := waitfieldDelim, key := [], lastCh := delimOpt, rbuf := [],
        options := s.options.set k (.str b), err := s.err }
      (fun e he => hes e (List.mem_cons_of_mem _ he)) rfl rfl (show delimOpt ≠ ESCAPE by decide)
    exact ⟨key, c, hc, by rw [e]; rfl⟩

/-- `Parse` of the rendering of readable entries, when the rendering holds no line
continuation and is within the size limit, returns the map built from the entries. -/
theorem Parse_renderEntries (env : Env) (o : Options) (es : List (List Char × Value))
    (hes : ∀ e ∈ es, Readable e)
    (hlc : rplLineEscape (renderEntries env es) = renderEntries env es)
    (hlen : goLen (renderEntries env es) ≤ maxLen) :
    Parse o (renderEntries env es) = .ok ({ o with options := GoMap.setAll [] es }, none) := by
  rw [Parse_of_le o _ (by rw [hlc]; exact hlen), hlc]
  obtain ⟨key, c, _, e⟩ := run_renderEntries env es initState hes rfl rfl
    (show CR ≠ ESCAPE by decide)
  rw [e]
  simp [finish, initState, waitfieldDelim, waitoptDelim]

theorem get?_setAll_strEntries (ps : List (List Char × List Char)) :
    ∀ (m : GoMap) (k : List Char),
      (m.setAll (strEntries ps)).get? k =
        match lastBinding ps k with
        | some w => some (.str w)
        | none => m.get? k := by
  induction ps with
  | nil => intro m k; rfl
  | cons kv ps ih =>
    intro m k
    obtain ⟨k', v⟩ := kv
    have e : m.setAll (strEntries ((k', v) :: ps)) = (m.set k' (.str v)).setAll (strEntries ps) :=
      rfl
    rw [e, ih, lastBinding]
    cases lastBinding ps k with
    | some w => rfl
    | none =>
      simp only [GoMap.get?_set]
      split_ifs <;> rfl

theorem recordText_eq_render (env : Env) (ps : List (List Char × List Char))
    (h : ∀ kv ∈ ps, ∀ c ∈ kv.2, c ≠ delimField ∧ c ≠ delimOpt) :
    recordText ps = renderEntries env (strEntries ps) := by
  induction ps with
  | nil => simp [recordText, strEntries, renderEntries]
  | cons kv ps ih =>
    obtain ⟨k, v⟩ := kv
    have e : strEntries ((k, v) :: ps) = (k, .str v) :: strEntries ps := rfl
    rw [e, renderEntries_cons_str, recordText, ← ih (fun kv hkv => h kv (List.mem_cons_of_mem _ hkv)),
      rplDelimiter_of_no_delim v (h (k, v) (List.mem_cons_self _ _))]

theorem not_mem_recordText (ps : List (List Char × List Char))
    (h : ∀ kv ∈ ps, (∀ c ∈ kv.1, plain c) ∧ (∀ c ∈ kv.2, plain c)) :
    ESCAPE ∉ recordText ps := by
  induction ps with
  | nil => simp [recordText]
  | cons kv ps ih =>
    obtain ⟨k, v⟩ := kv
    have hkv := h (k, v) (List.mem_cons_self _ _)
    have ih' := ih (fun kv hkv => h kv (List.mem_cons_of_mem _ hkv))
    simp only [recordText, List.mem_append, List.mem_cons, not_or]
    refine ⟨fun hm => (hkv.1 _ hm).2.2 rfl, by decide, fun hm => (hkv.2 _ hm).2.2 rfl, by decide,
      ih'⟩

/-- If the loop has read `pre` without error and breaks on the next rune, `Parse` returns
what the post-loop code makes of the state at the break. -/
theorem Parse_of_break (o : Options) (p pre post : List Char) (ch : Char) (s s' : LoopState)
    (hlen : goLen (rplLineEscape p) ≤ maxLen) (hsplit : rplLineEscape p = pre ++ ch :: post)
    (hpre : parseLoop (goLen (rplLineEscape p)) initState pre = some s) (hok : s.err = none)
    (hbrk : stepU s ch = .brk s') : Parse o p = .ok (finish o s') := by
  have hle : pre.length ≤ goLen (rplLineEscape p) := by
    have := length_le_goLen (rplLineEscape p)
    rw [hsplit, List.length_append] at this
    rw [hsplit]; omega
  rw [parseLoop_init _ _ hle] at hpre
  simp only [Option.some.injEq] at hpre
  rw [Parse_of_le o p hlen, hsplit, run_append pre _ initState (by rw [hpre]; exact hok), hpre,
    run_cons_brk hbrk]

/-- The state in which the loop leaves a non-empty input that it reads to the end. -/
theorem Parse_scan_eq_run {p : List Char} {s : LoopState}
    (hscan : parseLoop (goLen (rplLineEscape p)) initState (rplLineEscape p) = some s) :
    s = run initState (rplLineEscape p) := by
  rw [parseLoop_init _ _ (length_le_goLen _)] at hscan
  exact (Option.some.inj hscan).symm

/-! ## Dotted paths -/

theorem splitDot_ne_nil (l : List Char) : splitDot l ≠ [] := by
  cases l with
  | nil => simp [splitDot]
  | cons c rest =>
    unfold splitDot
    split_ifs
    · simp
    · split <;> simp

theorem splitDot_append (a b : List Char) :
    splitDot (a ++ '.' :: b) = splitDot a ++ splitDot b := by
  induction a with
  | nil => simp [splitDot]
  | cons c a ih =>
    by_cases hc : c = '.'
    · simp [splitDot, hc, ih]
    · have e1 : ∀ l, splitDot (c :: l) =
          match splitDot l with
          | [] => [[c]]
          | h :: t => (c :: h) :: t := fun l => by simp [splitDot, hc]
      rw [List.cons_append, e1, e1, ih]
      cases h : splitDot a with
      | nil => exact absurd h (splitDot_ne_nil a)
      | cons x xs => rfl

theorem splitDot_singleton {l x : List Char} (h : splitDot l = [x]) : x = l := by
  induction l generalizing x with
  | nil => simpa [splitDot] using h.symm
  | cons c rest ih =>
    by_cases hc : c = '.'
    · simp only [splitDot, hc, if_true, List.cons.injEq] at h
      exact absurd h.2 (splitDot_ne_nil rest)
    · simp only [splitDot, hc, if_false] at h
      cases hr : splitDot rest with
      | nil => exact absurd hr (splitDot_ne_nil rest)
      | cons y ys =>
        rw [hr] at h
        simp only [List.cons.injEq] at h
        obtain ⟨rfl, rfl⟩ := h
        rw [ih hr]

/-- `getContainer` is the walk along the items of the key. -/
theorem getContainer_eq (o : Options) (key : List Char) :
    o.getContainer key = getContainerLoop o.options (splitDot key) := by
  unfold Options.getContainer
  simp only
  split_ifs with h
  · cases hs : splitDot key with
    | nil => exact absurd hs (splitDot_ne_nil key)
    | cons x xs =>
      cases xs with
      | nil => rw [splitDot_singleton hs]; rfl
      | cons y ys => rw [hs] at h; simp at h
  · rfl

theorem GetObject_eq_look (o : Options) (key : List Char) :
    o.GetObject key = look o.options (splitDot key) := by
  unfold Options.GetObject look
  rw [getContainer_eq]

theorem look_nil (items : List (List Char)) : look [] items = none := by
  match items with
  | [] => rfl
  | [x] => rfl
  | x :: y :: rest => rfl

/-- A read along `as ++ bs` is the read along `bs` in the map found along `as`. -/
theorem look_append (as bs : List (List Char)) (ha : as ≠ []) (hb : bs ≠ []) :
    ∀ (m : GoMap), look m (as ++ bs) =
      match look m as with
      | some (.map m') => look m' bs
      | _ => none := by
  induction as with
  | nil => exact absurd rfl ha
  | cons a as ih =>
    intro m
    cases bs with
    | nil => exact absurd rfl hb
    | cons b bs =>
      cases as with
      | nil =>
        have e1 : look m [a] = m.get? a := rfl
        rw [e1]
        simp only [List.cons_append, List.nil_append, look, getContainerLoop]
        cases hv : m.get? a with
        | none => rfl
        | some v => cases v <;> rfl
      | cons a' as' =>
        have e1 : look m (a :: a' :: as' ++ b :: bs) =
            match m.get? a with
            | some (.map m') => look m' (a' :: as' ++ b :: bs)
            | _ => none := by
          simp only [List.cons_append, look, getContainerLoop]
          cases hv : m.get? a with
          | none => rfl
          | some v => cases v <;> rfl
        have e2 : look m (a :: a' :: as') =
            match m.get? a with
            | some (.map m') => look m' (a' :: as')
            | _ => none := by
          simp only [look, getContainerLoop]
          cases hv : m.get? a with
          | none => rfl
          | some v => cases v <;> rfl
        rw [e1, e2]
        cases hv : m.get? a with
        | none => rfl
        | some v =>
          cases v with
          | map m' => exact ih (by simp) m'
          | _ => rfl

theorem GetString_eq (env : Env) (o : Options) (key d : List Char) :
    o.GetString env key d =
      match look o.options (splitDot key) with
      | none => d
      | some val => asText env val := by
  unfold Options.GetString look
  rw [getContainer_eq]

theorem Get_eq (env : Env) (o : Options) (key : List Char) :
    o.Get env key =
      match look o.options (splitDot key) with
      | none => New
      | some val =>
        match o.deferred env val with
        | some relOpt => relOpt
        | none =>
          match val with
          | .map vMap => { filePath := [], options := vMap }
          | _ => New := by
  unfold Options.Get look
  rw [getContainer_eq]

theorem Get_of_look_none (env : Env) (o : Options) (key : List Char)
    (h : look o.options (splitDot key) = none) : o.Get env key = New := by
  rw [Get_eq, h]

theorem Get_New (env : Env) (key : List Char) : New.Get env key = New :=
  Get_of_look_none env New key (look_nil _)

theorem GetString_New (env : Env) (key d : List Char) : New.GetString env key d = d := by
  rw [GetString_eq]
  have : look New.options (splitDot key) = none := look_nil _
  rw [this]

theorem deferredAt_New (env : Env) (key : List Char) : New.deferredAt env key = none := by
  unfold Options.deferredAt
  rw [GetObject_eq_look]
  have : look New.options (splitDot key) = none := look_nil _
  rw [this]

/-! ## Line continuations -/

theorem hasLineCont_cons (c : Char) (l : List Char) :
    hasLineCont (c :: l) = (decide (opensLineCont c l) || hasLineCont l) := by
  cases l with
  | nil => simp [hasLineCont, opensLineCont]
  | cons d rest => simp [hasLineCont, opensLineCont]

theorem hasLineCont_cons_false {c : Char} {l : List Char} :
    hasLineCont (c :: l) = false ↔ ¬ opensLineCont c l ∧ hasLineCont l = false := by
  rw [hasLineCont_cons]; simp

theorem hasLineCont_append_false {a b : List Char} :
    hasLineCont (a ++ b) = false ↔
      hasLineCont a = false ∧ hasLineCont b = false ∧
        ¬ (a.getLast? = some ESCAPE ∧ (b.head? = some CR ∨ b.head? = some LF)) := by
  induction a with
  | nil => simp [hasLineCont]
  | cons c a ih =>
    rw [List.cons_append, hasLineCont_cons_false, hasLineCont_cons_false, ih]
    cases a with
    | nil =>
      simp only [List.nil_append, opensLineCont, List.head?_nil, List.getLast?_singleton,
        Option.some.injEq, hasLineCont]
      have h1 : ¬ ((none : Option Char) = some CR ∨ (none : Option Char) = some LF) := by simp
      tauto
    | cons d a' =>
      have e1 : (c :: d :: a').getLast? = (d :: a').getLast? := by simp [List.getLast?_cons_cons]
      have e2 : (d :: a' ++ b).head? = (d :: a').head? := by simp
      rw [e1]
      unfold opensLineCont
      rw [e2]
      tauto

theorem rplLineEscape_cons_of_not_opens (c : Char) (l : List Char) (h : ¬ opensLineCont c l) :
    rplLineEscape (c :: l) = c :: rplLineEscape l := by
  unfold opensLineCont at h
  match l with
  | [] => simp [rplLineEscape]
  | [d] =>
    simp only [List.head?_cons, Option.some.injEq] at h
    simp [rplLineEscape, h]
  | d :: e :: rest =>
    simp only [List.head?_cons, Option.some.injEq] at h
    have h1 : ¬ (c = ESCAPE ∧ d = CR ∧ e = LF) := fun hh => h ⟨hh.1, Or.inl hh.2.1⟩
    simp [rplLineEscape, h, h1]

/-- The removal of line continuations leaves a text without line continuation unchanged. -/
theorem rplLineEscape_of_noLineCont (l : List Char) (h : hasLineCont l = false) :
    rplLineEscape l = l := by
  induction l with
  | nil => rfl
  | cons c l ih =>
    rw [hasLineCont_cons_false] at h
    rw [rplLineEscape_cons_of_not_opens c l h.1, ih h.2]

theorem head?_rplDelimiter_CRLF (l : List Char) :
    ((rplDelimiter l).head? = some CR ∨ (rplDelimiter l).head? = some LF) ↔
      (l.head? = some CR ∨ l.head? = some LF) := by
  cases l with
  | nil => simp [rplDelimiter]
  | cons c rest =>
    by_cases hc : c = delimOpt ∨ c = delimField
    · have h1 : c ≠ CR := by rcases hc with rfl | rfl <;> decide
      have h2 : c ≠ LF := by rcases hc with rfl | rfl <;> decide
      have h3 : ESCAPE ≠ CR := by decide
      have h4 : ESCAPE ≠ LF := by decide
      simp [rplDelimiter, hc, h1, h2, h3, h4]
    · simp [rplDelimiter, hc]

/-- Escaping the delimiters neither creates nor removes a line continuation. -/
theorem hasLineCont_rplDelimiter (l : List Char) :
    hasLineCont (rplDelimiter l) = hasLineCont l := by
  induction l with
  | nil => rfl
  | cons c rest ih =>
    by_cases hc : c = delimOpt ∨ c = delimField
    · have h0 : c ≠ ESCAPE := by rcases hc with rfl | rfl <;> decide
      have h1 : ¬ opensLineCont ESCAPE (c :: rplDelimiter rest) := by
        unfold opensLineCont
        simp only [List.head?_cons, Option.some.injEq]
        rintro ⟨_, h | h⟩
        · rcases hc with rfl | rfl <;> exact absurd h (by decide)
        · rcases hc with rfl | rfl <;> exact absurd h (by decide)
      have h2 : ∀ l, ¬ opensLineCont c l := fun l h => h0 h.1
      simp only [rplDelimiter, hc, if_true, hasLineCont_cons, h1, h2, decide_False,
        Bool.false_or, ih]
    · have e : opensLineCont c (rplDelimiter rest) ↔ opensLineCont c rest := by
        unfold opensLineCont
        rw [head?_rplDelimiter_CRLF]
      simp only [rplDelimiter, hc, if_false, hasLineCont_cons, ih, e]

theorem hasLineCont_snoc {b : List Char} {c : Char} (hb : hasLineCont b = false)
    (h : ¬ (b.getLast? = some ESCAPE ∧ (c = CR ∨ c = LF))) : hasLineCont (b ++ [c]) = false := by
  rw [hasLineCont_append_false]
  refine ⟨hb, rfl, ?_⟩
  simpa using h

theorem hasLineCont_snoc_pair {b : List Char} {c : Char} (hb : hasLineCont b = false)
    (h : ¬ (c = CR ∨ c = LF)) : hasLineCont (b ++ [ESCAPE, c]) = false := by
  rw [hasLineCont_append_false]
  refine ⟨hb, ?_, ?_⟩
  · simpa [hasLineCont] using h
  · have h3 : ESCAPE ≠ CR := by decide
    have h4 : ESCAPE ≠ LF := by decide
    simp [h3, h4]

theorem InvLC_initState : InvLC CR initState :=
  ⟨rfl, fun h => absurd h (by simp [initState]), fun h => absurd h (by decide), rfl,
    fun _ h => absurd h (List.not_mem_nil _)⟩

theorem InvLC_step {prev ch : Char} {s s' : LoopState} (hI : Inv s) (hL : InvLC prev s)
    (hno : ¬ (prev = ESCAPE ∧ (ch = CR ∨ ch = LF))) (h : stepU s ch = .next s') :
    InvLC ch s' := by
  have hc := stepU_case s ch
  rw [h] at hc
  obtain ⟨hbuf, hlast, hpend, hkey, hopts⟩ := hL
  cases hc with
  | other hs => exact absurd hI.inSt hs
  | escDelim hs hl hd =>
    have h0 : ch ≠ ESCAPE := by rcases hd with rfl | rfl <;> decide
    have h1 : ¬ (ch = CR ∨ ch = LF) := by rcases hd with rfl | rfl <;> decide
    exact ⟨hasLineCont_snoc hbuf (fun hh => h1 hh.2), fun hh => by simpa using hh,
      fun hh => hh, hkey, hopts⟩
  | escEsc hs hl hd =>
    exact ⟨hasLineCont_snoc_pair hbuf (by decide), fun _ => hd,
      fun hh => absurd hh (show ¬ CR = ESCAPE by decide), hkey, hopts⟩
  | escPlain hs hl hd =>
    have h1 : ¬ (ch = CR ∨ ch = LF) := fun hh => hno ⟨hpend hl, hh⟩
    exact ⟨hasLineCont_snoc_pair hbuf h1, fun hh => by simpa using hh, fun hh => hh, hkey, hopts⟩
  | bslash hs hl hd => exact ⟨hbuf, fun _ => hd, fun _ => hd, hkey, hopts⟩
  | plain hs hl hd =>
    exact ⟨hasLineCont_snoc hbuf (fun hh => hno ⟨hlast hh.1, hh.2⟩), fun hh => by simpa using hh,
      fun hh => hh, hkey, hopts⟩
  | fieldKey h0 hl hd hb =>
    exact ⟨rfl, fun hh => absurd hh (by simp),
      fun hh => absurd hh (show ¬ delimField = ESCAPE by decide), hbuf, hopts⟩
  | valueDone h0 hl hd hb =>
    refine ⟨rfl, fun hh => absurd hh (by simp),
      fun hh => absurd hh (show ¬ delimOpt = ESCAPE by decide), rfl, ?_⟩
    intro e he
    rcases GoMap.mem_set.mp he with rfl | ⟨hm, _⟩
    · exact ⟨hkey, fun b hb' => by cases hb'; exact hbuf⟩
    · exact hopts e hm

theorem InvLC_run (l : List Char) :
    ∀ {prev : Char} {s : LoopState}, Inv s → InvLC prev s → hasLineCont (prev :: l) = false →
      (run s l).err = none → ∃ prev', InvLC prev' (run s l) := by
  induction l with
  | nil => intro prev s _ hL _ _; exact ⟨prev, hL⟩
  | cons ch rest ih =>
    intro prev s hI hL hlc he
    rw [hasLineCont_cons_false] at hlc
    have hno : ¬ (prev = ESCAPE ∧ (ch = CR ∨ ch = LF)) := by
      have := hlc.1
      unfold opensLineCont at this
      simpa using this
    cases hst : stepU s ch with
    | fault => exact absurd hst (stepU_ne_fault s ch)
    | brk s' => rw [run_cons_brk hst] at he; exact absurd he (stepU_brk_err hst)
    | next s' =>
      rw [run_cons_next hst] at he ⊢
      exact ih (Inv_step hI hst) (InvLC_step hI hL hno hst) hlc.2 he

theorem finish_noLineCont (o : Options) {prev : Char} {s : LoopState} (hL : InvLC prev s) :
    NoLineContMap (finish o s).1.options := by
  unfold finish
  split
  · intro e he; exact absurd he (List.not_mem_nil _)
  · split_ifs
    · intro e he
      rcases GoMap.mem_set.mp he with rfl | ⟨hm, _⟩
      · exact ⟨hL.key, fun b hb' => by cases hb'; exact hL.buf⟩
      · exact hL.opts e hm
    · exact hL.opts

/-- What a successful `Parse` of an input without line continuation leaves: a good map
without line continuations. -/
theorem Parse_noLineCont {o o' : Options} {p : List Char} (hlc : hasLineCont p = false)
    (h : Parse o p = .ok (o', none)) : NoLineContMap o'.options := by
  by_cases hlen : goLen (rplLineEscape p) ≤ maxLen
  · rw [Parse_of_le o p hlen, rplLineEscape_of_noLineCont p hlc] at h
    simp only [Except.ok.injEq] at h
    have he : (run initState p).err = none := by
      by_contra hne
      unfold finish at h
      split at h
      · cases h
      · rename_i heq; exact hne heq
    have hlc' : hasLineCont (CR :: p) = false := by
      rw [hasLineCont_cons_false]
      exact ⟨fun hh => absurd hh.1 (by decide), hlc⟩
    obtain ⟨prev', hL⟩ := InvLC_run p Inv_initState InvLC_initState hlc' he
    have := finish_noLineCont o hL
    rw [h] at this
    exact this
  · rw [Parse_of_gt o p (Nat.lt_of_not_le hlen)] at h
    cases h

theorem hasLineCont_renderEntries (env : Env) (es : List (List Char × Value))
    (hes : ∀ e ∈ es, Readable e) (hlc : NoLineContMap es) :
    hasLineCont (renderEntries env es) = false := by
  induction es with
  | nil => rfl
  | cons e es ih =>
    obtain ⟨k, v⟩ := e
    obtain ⟨_, _, b, hv, _⟩ := hes (k, v) (List.mem_cons_self _ _)
    simp only at hv
    subst hv
    have hkb := hlc (k, .str b) (List.mem_cons_self _ _)
    have ih' := ih (fun e he => hes e (List.mem_cons_of_mem _ he))
      (fun e he => hlc e (List.mem_cons_of_mem _ he))
    have h1 : ¬ opensLineCont delimOpt (renderEntries env es) :=
      fun hh => absurd hh.1 (by decide)
    have h2 : hasLineCont (delimOpt :: renderEntries env es) = false :=
      hasLineCont_cons_false.mpr ⟨h1, ih'⟩
    have h3 : hasLineCont (rplDelimiter b ++ delimOpt :: renderEntries env es) = false := by
      rw [hasLineCont_append_false]
      refine ⟨by rw [hasLineCont_rplDelimiter]; exact hkb.2 b rfl, h2, ?_⟩
      rintro ⟨_, h | h⟩
      · exact absurd (Option.some.inj (by simpa using h)) (show delimOpt ≠ CR by decide)
      · exact absurd (Option.some.inj (by simpa using h)) (show delimOpt ≠ LF by decide)
    have h4 : hasLineCont (delimField :: (rplDelimiter b ++ delimOpt :: renderEntries env es))
        = false :=
      hasLineCont_cons_false.mpr ⟨fun hh => absurd hh.1 (by decide), h3⟩
    rw [renderEntries_cons_str, hasLineCont_append_false]
    refine ⟨hkb.1, h4, ?_⟩
    rintro ⟨_, h | h⟩
    · exact absurd (Option.some.inj (by simpa using h)) (show delimField ≠ CR by decide)
    · exact absurd (Option.some.inj (by simpa using h)) (show delimField ≠ LF by decide)

/-- Writing entries with pairwise distinct keys into a map, then reading a key, finds the
entry with that key, or else what the map held. -/
theorem GoMap.get?_setAll_of_nodup (es : List (List Char × Value)) (k : List Char) :
    ∀ (m : GoMap), (GoMap.keys es).Nodup →
      (m.setAll es).get? k =
        match GoMap.get? es k with
        | some v => some v
        | none => m.get? k := by
  induction es with
  | nil => intro m _; rfl
  | cons e es ih =>
    intro m hnd
    obtain ⟨k', v⟩ := e
    have hk : k' ∉ GoMap.keys es ∧ (GoMap.keys es).Nodup := by
      simpa [GoMap.keys] using hnd
    rw [GoMap.setAll_cons, ih _ hk.2, GoMap.get?_set]
    by_cases hkk : k' = k
    · subst hkk
      have hn : GoMap.get? es k' = none := (GoMap.get?_eq_none_iff es k').mpr hk.1
      simp [GoMap.get?, hn]
    · simp [GoMap.get?, hkk]

/-- `Parse` of `k=` followed by `n + 1` letters `a`, within the size limit, stores them. -/
theorem Parse_key_replicate (n : Nat) (h : n + 3 ≤ maxLen) :
    Parse New ('k' :: delimField :: List.replicate (n + 1) 'a')
      = .ok (⟨[], [(['k'], .str (List.replicate (n + 1) 'a'))]⟩, none) := by
  have hrep : ESCAPE ∉ List.replicate (n + 1) 'a' :=
    fun h => absurd (List.eq_of_mem_replicate h) (by decide)
  have hwf : wellEscaped (List.replicate (n + 1) 'a') = true :=
    wellEscaped_of_no_esc _ (fun c hc => by rw [List.eq_of_mem_replicate hc]; decide)
  have hnd : rplDelimiter (List.replicate (n + 1) 'a') = List.replicate (n + 1) 'a' :=
    rplDelimiter_of_no_delim _ (fun c hc => by rw [List.eq_of_mem_replicate hc]; decide)
  have hesc : ESCAPE ∉ 'k' :: delimField :: List.replicate (n + 1) 'a' := by
    simp only [List.mem_cons, not_or]
    exact ⟨by decide, by decide, hrep⟩
  have hl : goLen ('k' :: delimField :: List.replicate (n + 1) 'a') = n + 3 := by
    rw [goLen_cons, goLen_cons, goLen_replicate _ 'a' (by decide)]
    have e1 : Char.utf8Size 'k' = 1 := by decide
    have e2 : delimField.utf8Size = 1 := by decide
    omega
  rw [Parse_of_le New _ (by rw [rplLineEscape_of_not_mem _ hesc, hl]; exact h),
    rplLineEscape_of_not_mem _ hesc]
  rw [run_cons_next (stepU_plain initState 'k' (Or.inl rfl) (show CR ≠ ESCAPE by decide)
    (by decide))]
  have e2 := stepU_field_field
    { initState with rbuf := initState.rbuf ++ ['k'], lastCh := 'k' } rfl
    (show 'k' ≠ ESCAPE by decide)
  rw [if_neg (by simp [initState])] at e2
  rw [run_cons_next e2]
  obtain ⟨c, _, e⟩ := run_raw (List.replicate (n + 1) 'a')
    { state := waitoptDelim, key := initState.rbuf ++ ['k'], lastCh := delimField, rbuf := [],
      options := initState.options, err := initState.err }
    [] hwf (Or.inr rfl) (show delimField ≠ ESCAPE by decide)
  rw [hnd, List.append_nil] at e
  rw [e]
  simp [finish, run_nil, initState, waitfieldDelim, waitoptDelim, New, GoMap.set, GoMap.erase,
    goLen]
  decide

theorem hasLineCont_of_usesControlEscape (l : List Char) (h : usesControlEscape l = false) :
    hasLineCont l = false := by
  induction l using usesControlEscape.induct with
  | case1 => rfl
  | case2 c => rfl
  | case3 c d rest ih =>
    simp only [usesControlEscape, Bool.or_eq_false_iff, decide_eq_false_iff_not] at h
    simp only [hasLineCont, Bool.or_eq_false_iff, decide_eq_false_iff_not]
    exact ⟨fun hh => h.1 ⟨hh.1, by tauto⟩, ih h.2⟩

theorem usesControlEscape_of_not_mem (l : List Char) (h : ESCAPE ∉ l) :
    usesControlEscape l = false := by
  induction l using usesControlEscape.induct with
  | case1 => rfl
  | case2 c => rfl
  | case3 c d rest ih =>
    simp only [List.mem_cons, not_or] at h ih
    simp only [usesControlEscape, Bool.or_eq_false_iff, decide_eq_false_iff_not]
    exact ⟨fun hh => h.1 hh.1.symm, ih h.2⟩

/-! ## Reads and writes along a path -/

theorem look_singleton (m : GoMap) (key : List Char) : look m [key] = m.get? key := rfl

theorem look_cons_cons (m : GoMap) (key next : List Char) (rest : List (List Char)) :
    look m (key :: next :: rest) =
      match m.get? key with
      | some (.map m') => look m' (next :: rest)
      | _ => none := by
  simp only [look, getContainerLoop]
  cases hv : m.get? key with
  | none => rfl
  | some v => cases v <;> rfl

/-- Where the path to a value leads through a missing item or through a value that is not a
map, nothing is found. -/
theorem look_of_prefix_not_map (m : GoMap) (pre suf : List (List Char)) (hpre : pre ≠ [])
    (hsuf : suf ≠ []) (h : ∀ m', look m pre ≠ some (.map m')) : look m (pre ++ suf) = none := by
  rw [look_append pre suf hpre hsuf]
  cases hv : look m pre with
  | none => rfl
  | some v =>
    cases v with
    | map m' => exact absurd hv (h m')
    | _ => rfl

/-- Where a read along `pre ++ suf` finds a value, the read along `pre` finds a map. -/
theorem look_prefix_of_some (m : GoMap) (pre suf : List (List Char)) (hpre : pre ≠ [])
    (hsuf : suf ≠ []) {v : Value} (h : look m (pre ++ suf) = some v) :
    ∃ m', look m pre = some (.map m') := by
  by_contra hne
  push_neg at hne
  rw [look_of_prefix_not_map m pre suf hpre hsuf hne] at h
  cases h

/-- What a completed write along a path returns and leaves: the value found before at the
path, and a map in which the path leads to the written value. -/
theorem setLoop_spec (val : Value) (items : List (List Char)) (hne : items ≠ []) :
    ∀ (m m' : GoMap) (ov : Option Value), setLoop val m items = .ok (m', ov) →
      ov = look m items ∧ look m' items = some val := by
  induction items with
  | nil => exact absurd rfl hne
  | cons key rest ih =>
    intro m m' ov h
    cases rest with
    | nil =>
      simp only [setLoop, Except.ok.injEq, Prod.mk.injEq] at h
      obtain ⟨rfl, rfl⟩ := h
      exact ⟨rfl, by rw [look_singleton, GoMap.get?_set, if_pos rfl]⟩
    | cons next rest' =>
      rw [look_cons_cons, look_cons_cons]
      simp only [setLoop] at h
      cases hv : m.get? key with
      | none =>
        rw [hv] at h
        simp only at h
        cases hs : setLoop val [] (next :: rest') with
        | error f => rw [hs] at h; cases h
        | ok r =>
          obtain ⟨c, ov'⟩ := r
          rw [hs] at h
          simp only [Except.ok.injEq, Prod.mk.injEq] at h
          obtain ⟨rfl, rfl⟩ := h
          obtain ⟨h1, h2⟩ := ih (by simp) [] c ov' hs
          rw [look_nil] at h1
          refine ⟨h1, ?_⟩
          rw [GoMap.get?_set, if_pos rfl]
          exact h2
      | some v =>
        rw [hv] at h
        cases v with
        | map m0 =>
          simp only at h
          cases hs : setLoop val m0 (next :: rest') with
          | error f => rw [hs] at h; cases h
          | ok r =>
            obtain ⟨c, ov'⟩ := r
            rw [hs] at h
            simp only [Except.ok.injEq, Prod.mk.injEq] at h
            obtain ⟨rfl, rfl⟩ := h
            obtain ⟨h1, h2⟩ := ih (by simp) m0 c ov' hs
            refine ⟨h1, ?_⟩
            rw [GoMap.get?_set, if_pos rfl]
            exact h2
        | _ => cases h

/-- The map and the previous value that a completed `Set` writes and finds. -/
theorem Set_written {o o' : Options} {key : List Char} {val r : Value}
    (h : o.Set key val = .ok (o', r)) :
    look o'.options (splitDot key) = some val ∧
      r = (match look o.options (splitDot key) with
        | some ov => ov
        | none => .null) := by
  unfold Options.Set at h
  simp only at h
  have hw : ∀ (w : Except Fatal (GoMap × Option Value)),
      (match w with
        | .ok (options, some ov) => Except.ok ({ o with options := options }, ov)
        | .ok (options, none) => Except.ok ({ o with options := options }, Value.null)
        | .error f => Except.error f) = .ok (o', r) →
      ∃ m' ov, w = .ok (m', ov) ∧ o'.options = m' ∧
        r = (match ov with
          | some ov => ov
          | none => .null) := by
    intro w hw
    match w, hw with
    | .ok (options, some ov), hw =>
      simp only [Except.ok.injEq, Prod.mk.injEq] at hw
      exact ⟨options, some ov, rfl, by rw [← hw.1], hw.2.symm⟩
    | .ok (options, none), hw =>
      simp only [Except.ok.injEq, Prod.mk.injEq] at hw
      exact ⟨options, none, rfl, by rw [← hw.1], hw.2.symm⟩
  obtain ⟨m', ov, hw', ho, hr⟩ := hw _ h
  have hspec : ov = look o.options (splitDot key) ∧ look m' (splitDot key) = some val := by
    split_ifs at hw' with hl
    · simp only [Except.ok.injEq, Prod.mk.injEq] at hw'
      obtain ⟨rfl, rfl⟩ := hw'
      cases hs : splitDot key with
      | nil => exact absurd hs (splitDot_ne_nil key)
      | cons x xs =>
        cases xs with
        | nil =>
          rw [splitDot_singleton hs]
          exact ⟨rfl, by rw [look_singleton, GoMap.get?_set, if_pos rfl]⟩
        | cons y ys => rw [hs] at hl; simp at hl
    · exact setLoop_spec val _ (splitDot_ne_nil key) _ _ _ hw'
  rw [ho, hr, hspec.1]
  exact ⟨hspec.2, rfl⟩

theorem Exists_eq_look (o : Options) (key : List Char) :
    o.Exists key = (look o.options (splitDot key)).isSome := by
  unfold Options.Exists look
  rw [getContainer_eq]

/-- Write then read, for a `Set` that completes: the path then leads to the written value,
it exists, and every proper prefix of it leads to a map. -/
theorem Set_then_read {o o' : Options} {key : List Char} {val r : Value}
    (h : o.Set key val = .ok (o', r)) :
    o'.GetObject key = some val ∧ o'.Exists key = true ∧
      ∀ pre suf, splitDot key = pre ++ suf → pre ≠ [] → suf ≠ [] →
        ∃ m, look o'.options pre = some (.map m) := by
  have hw := (Set_written h).1
  refine ⟨by rw [GetObject_eq_look]; exact hw, by rw [Exists_eq_look, hw]; rfl, ?_⟩
  intro pre suf hsplit hpre hsuf
  rw [hsplit] at hw
  exact look_prefix_of_some _ pre suf hpre hsuf hw

/-! ## Typed getters -/

theorem rplEscape_cons_ne (c : Char) (l : List Char) (hc : c ≠ ESCAPE) :
    rplEscape (c :: l) = c :: rplEscape l := by
  match l with
  | [] => simp [rplEscape]
  | d :: rest => simp [rplEscape, hc]

theorem rplEscape_of_not_mem (l : List Char) (h : ESCAPE ∉ l) : rplEscape l = l := by
  induction l with
  | nil => rfl
  | cons c l ih =>
    simp only [List.mem_cons, not_or] at h
    rw [rplEscape_cons_ne _ _ (Ne.symm h.1), ih h.2]

theorem GetInt64_eq (env : Env) (conv : Conv) (o : Options) (key : List Char) (d : Int) :
    o.GetInt64 env conv key d =
      match look o.options (splitDot key) with
      | none => d
      | some (.float v) => conv.floatToInt64 v
      | some (.num _ v) => wrapSigned 64 v
      | some val =>
        match conv.parseInt (asText env val) with
        | none => d
        | some vi => vi := by
  unfold Options.GetInt64 look
  rw [getContainer_eq]

theorem GetInt_eq (env : Env) (conv : Conv) (o : Options) (key : List Char) (d : Int) :
    o.GetInt env conv key d =
      match look o.options (splitDot key) with
      | none => d
      | some (.float v) => conv.floatToInt v
      | some (.num _ v) => wrapSigned conv.intBits v
      | some val =>
        match conv.atoi (asText env val) with
        | none => d
        | some vi => vi := by
  unfold Options.GetInt look
  rw [getContainer_eq]

theorem GetBool_eq (env : Env) (conv : Conv) (o : Options) (key : List Char) (d : Bool) :
    o.GetBool env conv key d =
      match look o.options (splitDot key) with
      | none => d
      | some (.bool vBool) => vBool
      | some val =>
        match conv.parseBool (asText env val) with
        | none => d
        | some vb => vb := by
  unfold Options.GetBool look
  rw [getContainer_eq]

theorem GetDuration_eq (env : Env) (conv : Conv) (o : Options) (key : List Char) (d : Int) :
    o.GetDuration env conv key d =
      match look o.options (splitDot key) with
      | none => d
      | some (.float v) => conv.floatToDuration v
      | some (.num _ v) => wrapSigned 64 v
      | some val =>
        match conv.parseDuration (asText env val) with
        | none => d
        | some dur => dur := by
  unfold Options.GetDuration look
  rw [getContainer_eq]

/-! ## Configurator -/

theorem callsTo_nil (c : Nat) : callsTo c [] = [] := rfl

theorem callsTo_broadcast (env : Env) (c : Nat) (S : Options) (items : List configurableItem) :
    callsTo c (broadcast env S items) =
      (items.filter (fun item => decide (item.conf = c))).map
        (fun item => (S.Get env item.section_, false)) := by
  induction items with
  | nil => rfl
  | cons item items ih =>
    have e : callsTo c (broadcast env S (item :: items)) =
        (if item.conf = c then [(S.Get env item.section_, false)] else []) ++
          callsTo c (broadcast env S items) := by
      simp only [callsTo, broadcast, List.map_cons, List.filterMap_cons]
      split_ifs <;> rfl
    rw [e, ih]
    by_cases h : item.conf = c <;> simp [List.filter_cons, h]

theorem filter_conf_of_nodup (items : List configurableItem)
    (hnd : (items.map configurableItem.conf).Nodup) (item : configurableItem)
    (hm : item ∈ items) :
    items.filter (fun it => decide (it.conf = item.conf)) = [item] := by
  induction items with
  | nil => cases hm
  | cons x xs ih =>
    simp only [List.map_cons, List.nodup_cons, List.mem_map, not_exists, not_and] at hnd
    rcases List.mem_cons.mp hm with rfl | hm'
    · have hnone : xs.filter (fun it => decide (it.conf = item.conf)) = [] := by
        rw [List.filter_eq_nil_iff]
        intro y hy
        simpa using hnd.1 y hy
      simp [List.filter_cons, hnone]
    · have hx : ¬ x.conf = item.conf := fun e => hnd.1 item hm' e.symm
      simp [List.filter_cons, hx, ih hnd.2 hm']

/-- In a broadcast over a registry without repeated identities, each registered
`Configurable` receives exactly one call: the sub-tree of its section, not first. -/
theorem callsTo_broadcast_of_nodup (env : Env) (S : Options) (items : List configurableItem)
    (hnd : (items.map configurableItem.conf).Nodup) (item : configurableItem)
    (hm : item ∈ items) :
    callsTo item.conf (broadcast env S items) = [(S.Get env item.section_, false)] := by
  rw [callsTo_broadcast, filter_conf_of_nodup items hnd item hm]
  rfl

theorem findConf_ok {unc : Nat → Nat → Bool} {c : Nat} {items : List configurableItem}
    {b : Bool} (h : Configurator.findConf unc c items = .ok b) :
    (b = true ↔ items.filter (fun item => decide (item.conf = c)) ≠ []) ∧
      (b = true → unc c c = false) := by
  induction items with
  | nil =>
    simp only [Configurator.findConf, Except.ok.injEq] at h
    subst h
    simp
  | cons v rest ih =>
    simp only [Configurator.findConf] at h
    split_ifs at h with hu hv
    · simp only [Except.ok.injEq] at h
      subst h
      refine ⟨by simp [List.filter_cons, hv], fun _ => ?_⟩
      rw [hv] at hu
      simpa using hu
    · obtain ⟨h1, h2⟩ := ih h
      refine ⟨?_, h2⟩
      rw [h1]
      simp [List.filter_cons, hv]

theorem findConf_append_of_false {unc : Nat → Nat → Bool} {c : Nat}
    {items : List configurableItem} (h : Configurator.findConf unc c items = .ok false)
    (l : List configurableItem) :
    Configurator.findConf unc c (items ++ l) = Configurator.findConf unc c l := by
  induction items with
  | nil => rfl
  | cons v rest ih =>
    simp only [Configurator.findConf] at h
    split_ifs at h with hu hv
    · cases h
    · simp only [List.cons_append, Configurator.findConf, hu, hv, if_false]
      exact ih h

theorem findConf_append_of_ne_false {unc : Nat → Nat → Bool} {c : Nat}
    {items : List configurableItem} (h : Configurator.findConf unc c items ≠ .ok false)
    (l : List configurableItem) :
    Configurator.findConf unc c (items ++ l) = Configurator.findConf unc c items := by
  induction items with
  | nil => exact absurd rfl h
  | cons v rest ih =>
    simp only [List.cons_append, Configurator.findConf] at h ⊢
    split_ifs with hu hv
    · rfl
    · rfl
    · simp only [hu, hv, if_false] at h
      exact ih h

theorem Register_of_registered (unc : Nat → Nat → Bool) (section_ : List Char) (c : Nat)
    (cfg cfg' : Configurator) (evs : List Event)
    (hr : cfg.Register unc section_ c = .ok (cfg', evs)) (h : entriesOf c cfg ≠ []) :
    cfg' = cfg ∧ evs = [] ∧ Configurator.findConf unc c cfg.items = .ok true := by
  unfold Configurator.Register at hr
  cases hf : Configurator.findConf unc c cfg.items with
  | error f => rw [hf] at hr; cases hr
  | ok b =>
    rw [hf] at hr
    cases b with
    | true =>
      simp only [Except.ok.injEq, Prod.mk.injEq] at hr
      exact ⟨hr.1.symm, hr.2.symm, rfl⟩
    | false =>
      have := (findConf_ok hf).1
      exact absurd (this.mpr h) (by simp)

theorem Register_of_new (unc : Nat → Nat → Bool) (section_ : List Char) (c : Nat)
    (cfg cfg' : Configurator) (evs : List Event)
    (hr : cfg.Register unc section_ c = .ok (cfg', evs)) (h : entriesOf c cfg = []) :
    cfg' = { cfg with items := cfg.items ++ [{ section_ := section_, conf := c }] } ∧
      evs = (match cfg.lastCfg with
        | some lastCfg => [Event.configure c lastCfg true]
        | none => []) ∧
      Configurator.findConf unc c cfg.items = .ok false := by
  unfold Configurator.Register at hr
  cases hf : Configurator.findConf unc c cfg.items with
  | error f => rw [hf] at hr; cases hr
  | ok b =>
    rw [hf] at hr
    cases b with
    | true =>
      have := (findConf_ok hf).1
      exact absurd h (this.mp rfl)
    | false =>
      simp only at hr
      cases hl : cfg.lastCfg with
      | none =>
        rw [hl] at hr
        simp only [Except.ok.injEq, Prod.mk.injEq] at hr
        exact ⟨hr.1.symm, hr.2.symm, rfl⟩
      | some S =>
        rw [hl] at hr
        simp only [Except.ok.injEq, Prod.mk.injEq] at hr
        exact ⟨hr.1.symm, hr.2.symm, rfl⟩

theorem entriesOf_Register (unc : Nat → Nat → Bool) (section_ : List Char) (c c' : Nat)
    (cfg cfg' : Configurator) (evs : List Event)
    (hr : cfg.Register unc section_ c' = .ok (cfg', evs)) :
    entriesOf c cfg' =
      if c' = c ∧ entriesOf c cfg = [] then [{ section_ := section_, conf := c }]
      else entriesOf c cfg := by
  by_cases h : entriesOf c' cfg = []
  · rw [(Register_of_new unc section_ c' cfg cfg' evs hr h).1]
    by_cases hc : c' = c
    · subst hc
      rw [if_pos ⟨rfl, h⟩]
      unfold entriesOf at h ⊢
      simp [List.filter_append, h]
    · have : ¬ (c' = c ∧ entriesOf c cfg = []) := fun hh => hc hh.1
      rw [if_neg this]
      unfold entriesOf
      simp [List.filter_append, hc]
  · rw [(Register_of_registered unc section_ c' cfg cfg' evs hr h).1]
    have : ¬ (c' = c ∧ entriesOf c cfg = []) := fun hh => h (hh.1 ▸ hh.2)
    rw [if_neg this]

theorem registered_Register_nodup (unc : Nat → Nat → Bool) (section_ : List Char) (c : Nat)
    (cfg cfg' : Configurator) (evs : List Event)
    (hr : cfg.Register unc section_ c = .ok (cfg', evs))
    (hnd : (registered cfg).Nodup) : (registered cfg').Nodup := by
  by_cases h : entriesOf c cfg = []
  · rw [(Register_of_new unc section_ c cfg cfg' evs hr h).1]
    unfold registered at hnd ⊢
    simp only [List.map_append, List.map_cons, List.map_nil]
    rw [List.nodup_append]
    refine ⟨hnd, List.nodup_singleton _, ?_⟩
    intro x hx hx'
    rw [List.mem_singleton] at hx'
    subst hx'
    obtain ⟨item, hitem, rfl⟩ := List.mem_map.mp hx
    unfold entriesOf at h
    rw [List.filter_eq_nil_iff] at h
    have hne := h item hitem
    simp at hne
  · rw [(Register_of_registered unc section_ c cfg cfg' evs hr h).1]; exact hnd

/-- A completed `Register` keeps the registry or appends one item to it. -/
theorem Register_items (unc : Nat → Nat → Bool) (section_ : List Char) (c : Nat)
    (cfg cfg' : Configurator) (evs : List Event)
    (hr : cfg.Register unc section_ c = .ok (cfg', evs)) :
    ∃ extra, cfg'.items = cfg.items ++ extra := by
  by_cases h : entriesOf c cfg = []
  · rw [(Register_of_new unc section_ c cfg cfg' evs hr h).1]
    exact ⟨_, rfl⟩
  · rw [(Register_of_registered unc section_ c cfg cfg' evs hr h).1]
    exact ⟨[], (List.append_nil _).symm⟩

/-- Every operation other than `Register` leaves the registry as it is. -/
theorem exec_items (unc : Nat → Nat → Bool) (env : Env)
    (equalTo : Options → Option Options → Bool) (op : CfgOp)
    (cfg cfg' : Configurator) (evs : List Event)
    (h : op.exec unc env equalTo cfg = .ok (cfg', evs)) :
    (∃ section_ c, op = .register section_ c ∧
        cfg.Register unc section_ c = .ok (cfg', evs)) ∨
      cfg'.items = cfg.items := by
  cases op with
  | register section_ c =>
    left
    exact ⟨section_, c, rfl, h⟩
  | load reconfigure res =>
    right
    simp only [CfgOp.exec, Except.ok.injEq, Prod.mk.injEq] at h
    rw [← h.1]
    unfold Configurator.Load
    cases cfg.conn with
    | none => rfl
    | some k =>
      cases res with
      | error e => rfl
      | ok newCfg => simp only; split_ifs <;> rfl
  | sourceChanged res =>
    right
    simp only [CfgOp.exec] at h
    unfold Configurator.sourceChanged at h
    cases hc : cfg.conn with
    | none => rw [hc] at h; cases h
    | some k =>
      rw [hc] at h
      cases res with
      | error e =>
        simp only [Except.ok.injEq, Prod.mk.injEq] at h
        rw [← h.1]
      | ok newCfg =>
        cases newCfg with
        | none =>
          simp only [Except.ok.injEq, Prod.mk.injEq] at h
          rw [← h.1]
        | some n =>
          simp only at h
          split_ifs at h <;>
          · simp only [Except.ok.injEq, Prod.mk.injEq] at h
            rw [← h.1]
  | configure =>
    right
    simp only [CfgOp.exec, Except.ok.injEq, Prod.mk.injEq] at h
    rw [← h.1]
  | store res =>
    right
    simp only [CfgOp.exec, Except.ok.injEq, Prod.mk.injEq] at h
    rw [← h.1]
  | close res =>
    right
    simp only [CfgOp.exec, Except.ok.injEq, Prod.mk.injEq] at h
    rw [← h.1]
    unfold Configurator.Close
    cases cfg.conn <;> rfl
  | get key =>
    right
    simp only [CfgOp.exec, Except.ok.injEq, Prod.mk.injEq] at h
    rw [← h.1]
  | valid =>
    right
    simp only [CfgOp.exec, Except.ok.injEq, Prod.mk.injEq] at h
    rw [← h.1]

theorem exec_nodup (unc : Nat → Nat → Bool) (env : Env)
    (equalTo : Options → Option Options → Bool) (op : CfgOp)
    (cfg cfg' : Configurator) (evs : List Event)
    (h : op.exec unc env equalTo cfg = .ok (cfg', evs))
    (hnd : (registered cfg).Nodup) : (registered cfg').Nodup := by
  rcases exec_items unc env equalTo op cfg cfg' evs h with ⟨s, c, _, hr⟩ | hi
  · exact registered_Register_nodup unc s c cfg cfg' evs hr hnd
  · unfold registered at hnd ⊢; rw [hi]; exact hnd

theorem exec_entriesOf (unc : Nat → Nat → Bool) (env : Env)
    (equalTo : Options → Option Options → Bool) (op : CfgOp)
    (cfg cfg' : Configurator) (evs : List Event)
    (h : op.exec unc env equalTo cfg = .ok (cfg', evs))
    (c : Nat) (hc : entriesOf c cfg ≠ []) : entriesOf c cfg' = entriesOf c cfg := by
  rcases exec_items unc env equalTo op cfg cfg' evs h with ⟨s, c', _, hr⟩ | hi
  · rw [entriesOf_Register unc s c c' cfg cfg' evs hr]
    have : ¬ (c' = c ∧ entriesOf c cfg = []) := fun hh => hc hh.2
    rw [if_neg this]
  · unfold entriesOf; rw [hi]

theorem exec_items_append (unc : Nat → Nat → Bool) (env : Env)
    (equalTo : Options → Option Options → Bool) (op : CfgOp)
    (cfg cfg' : Configurator) (evs : List Event)
    (h : op.exec unc env equalTo cfg = .ok (cfg', evs)) :
    ∃ extra, cfg'.items = cfg.items ++ extra := by
  rcases exec_items unc env equalTo op cfg cfg' evs h with ⟨s, c, _, hr⟩ | hi
  · exact Register_items unc s c cfg cfg' evs hr
  · exact ⟨[], by rw [hi, List.append_nil]⟩

/-- An induction principle for the states reached by a sequence of operations. -/
theorem execAll_induct (unc : Nat → Nat → Bool) (env : Env)
    (equalTo : Options → Option Options → Bool) (P : Configurator → Configurator → Prop)
    (hrefl : ∀ cfg, P cfg cfg)
    (hstep : ∀ (op : CfgOp) (cfg cfg1 : Configurator) (evs1 : List Event) (cfg2 : Configurator),
      op.exec unc env equalTo cfg = .ok (cfg1, evs1) → P cfg1 cfg2 → P cfg cfg2)
    (ops : List CfgOp) :
    ∀ (cfg cfg' : Configurator) (evs : List Event),
      execAll unc env equalTo ops cfg = .ok (cfg', evs) → P cfg cfg' := by
  induction ops with
  | nil =>
    intro cfg cfg' evs h
    simp only [execAll, Except.ok.injEq, Prod.mk.injEq] at h
    rw [← h.1]; exact hrefl cfg
  | cons op ops ih =>
    intro cfg cfg' evs h
    simp only [execAll] at h
    cases h1 : op.exec unc env equalTo cfg with
    | error f => rw [h1] at h; cases h
    | ok r1 =>
      obtain ⟨cfg1, evs1⟩ := r1
      rw [h1] at h
      simp only at h
      cases h2 : execAll unc env equalTo ops cfg1 with
      | error f => rw [h2] at h; cases h
      | ok r2 =>
        obtain ⟨cfg2, evs2⟩ := r2
        rw [h2] at h
        simp only [Except.ok.injEq, Prod.mk.injEq] at h
        rw [← h.1]
        exact hstep op cfg cfg1 evs1 cfg2 h1 (ih cfg1 cfg2 evs2 h2)

theorem execAll_nodup (unc : Nat → Nat → Bool) (env : Env)
    (equalTo : Options → Option Options → Bool) (ops : List CfgOp)
    (cfg cfg' : Configurator) (evs : List Event)
    (h : execAll unc env equalTo ops cfg = .ok (cfg', evs)) :
    (registered cfg).Nodup → (registered cfg').Nodup :=
  execAll_induct unc env equalTo (fun a b => (registered a).Nodup → (registered b).Nodup)
    (fun _ h => h)
    (fun op a a1 evs1 _ h1 ih hnd => ih (exec_nodup unc env equalTo op a a1 evs1 h1 hnd))
    ops cfg cfg' evs h

theorem execAll_entriesOf (unc : Nat → Nat → Bool) (env : Env)
    (equalTo : Options → Option Options → Bool) (ops : List CfgOp) (c : Nat)
    (cfg cfg' : Configurator) (evs : List Event)
    (h : execAll unc env equalTo ops cfg = .ok (cfg', evs)) :
    entriesOf c cfg ≠ [] → entriesOf c cfg' = entriesOf c cfg :=
  execAll_induct unc env equalTo
    (fun a b => entriesOf c a ≠ [] → entriesOf c b = entriesOf c a)
    (fun _ _ => rfl)
    (fun op a a1 evs1 b h1 ih hc => by
      have e1 := exec_entriesOf unc env equalTo op a a1 evs1 h1 c hc
      rw [ih (by rw [e1]; exact hc), e1])
    ops cfg cfg' evs h

theorem execAll_items_append (unc : Nat → Nat → Bool) (env : Env)
    (equalTo : Options → Option Options → Bool) (ops : List CfgOp)
    (cfg cfg' : Configurator) (evs : List Event)
    (h : execAll unc env equalTo ops cfg = .ok (cfg', evs)) :
    ∃ extra, cfg'.items = cfg.items ++ extra :=
  execAll_induct unc env equalTo (fun a b => ∃ extra, b.items = a.items ++ extra)
    (fun _ => ⟨[], (List.append_nil _).symm⟩)
    (fun op a a1 evs1 b h1 ih => by
      obtain ⟨e1, h1'⟩ := exec_items_append unc env equalTo op a a1 evs1 h1
      obtain ⟨e2, h2'⟩ := ih
      exact ⟨e1 ++ e2, by rw [h2', h1', List.append_assoc]⟩)
    ops cfg cfg' evs h

/-- After a completed `Register` of `c`, the duplicate check for `c` ends at the entry of
`c`: it finds it, unless comparing `c` with itself panics. -/
theorem findConf_after_Register (unc : Nat → Nat → Bool) (section_ : List Char) (c : Nat)
    (cfg cfg' : Configurator) (evs : List Event)
    (hr : cfg.Register unc section_ c = .ok (cfg', evs)) :
    Configurator.findConf unc c cfg'.items =
      if unc c c = true then .error .uncomparable else .ok true := by
  by_cases h : entriesOf c cfg = []
  · obtain ⟨e1, _, hf⟩ := Register_of_new unc section_ c cfg cfg' evs hr h
    rw [e1]
    show Configurator.findConf unc c (cfg.items ++ _) = _
    rw [findConf_append_of_false hf]
    simp only [Configurator.findConf, if_true]
  · obtain ⟨e1, _, hf⟩ := Register_of_registered unc section_ c cfg cfg' evs hr h
    rw [e1, hf, (findConf_ok hf).2 rfl]
    rfl


/-! ## Line continuations inside a text -/

theorem rplLineEscape_esc_LF (t : List Char) :
    rplLineEscape (ESCAPE :: LF :: t) = rplLineEscape t := by
  match t with
  | [] => simp [rplLineEscape]
  | e :: rest => simp [rplLineEscape, show LF ≠ CR by decide]

theorem rplLineEscape_esc_CR_LF (t : List Char) :
    rplLineEscape (ESCAPE :: CR :: LF :: t) = rplLineEscape t := by
  simp [rplLineEscape]

theorem rplLineEscape_esc_CR (t : List Char) (h : t.head? ≠ some LF) :
    rplLineEscape (ESCAPE :: CR :: t) = rplLineEscape t := by
  match t with
  | [] => simp [rplLineEscape]
  | e :: rest =>
    have he : e ≠ LF := fun h' => h (by rw [h']; rfl)
    simp [rplLineEscape, he]

/-- A tail without backslash that does not begin with CR or LF is copied by the replacer,
whatever stands before it. -/
theorem rplLineEscape_append_tail (b : List Char) (hb : ESCAPE ∉ b)
    (hh : b.head? ≠ some CR ∧ b.head? ≠ some LF) :
    ∀ (a : List Char), rplLineEscape (a ++ b) = rplLineEscape a ++ b
  | [] => by simpa [rplLineEscape] using rplLineEscape_of_not_mem b hb
  | [c] => by
    have hno : ¬ opensLineCont c b := fun h => by
      rcases h.2 with h' | h'
      · exact hh.1 h'
      · exact hh.2 h'
    rw [List.singleton_append, rplLineEscape_cons_of_not_opens c b hno,
      rplLineEscape_of_not_mem b hb]
    simp [rplLineEscape]
  | c :: d :: rest => by
    by_cases ho : c = ESCAPE ∧ (d = CR ∨ d = LF)
    · obtain ⟨rfl, hd⟩ := ho
      rcases hd with rfl | rfl
      · match rest with
        | [] =>
          have e1 : rplLineEscape [ESCAPE, CR] = [] := by simp [rplLineEscape]
          rw [e1]
          show rplLineEscape (ESCAPE :: CR :: b) = [] ++ b
          rw [rplLineEscape_esc_CR b hh.2, rplLineEscape_of_not_mem b hb]; rfl
        | e :: rest' =>
          by_cases he : e = LF
          · subst he
            show rplLineEscape (ESCAPE :: CR :: LF :: (rest' ++ b)) = _
            rw [rplLineEscape_esc_CR_LF, rplLineEscape_esc_CR_LF]
            exact rplLineEscape_append_tail b hb hh rest'
          · have h1 : (e :: rest').head? ≠ some LF := by simpa using he
            have h2 : (e :: (rest' ++ b)).head? ≠ some LF := by simpa using he
            show rplLineEscape (ESCAPE :: CR :: (e :: (rest' ++ b))) = _
            rw [rplLineEscape_esc_CR _ h2, rplLineEscape_esc_CR _ h1]
            exact rplLineEscape_append_tail b hb hh (e :: rest')
      · show rplLineEscape (ESCAPE :: LF :: (rest ++ b)) = _
        rw [rplLineEscape_esc_LF, rplLineEscape_esc_LF]
        exact rplLineEscape_append_tail b hb hh rest
    · have h1 : ¬ opensLineCont c (d :: rest) := fun h => ho ⟨h.1, by simpa using h.2⟩
      have h2 : ¬ opensLineCont c (d :: (rest ++ b)) := fun h => ho ⟨h.1, by simpa using h.2⟩
      show rplLineEscape (c :: (d :: (rest ++ b))) = _
      rw [rplLineEscape_cons_of_not_opens _ _ h2, rplLineEscape_cons_of_not_opens _ _ h1]
      have := rplLineEscape_append_tail b hb hh (d :: rest)
      rw [List.cons_append] at this
      rw [this, List.cons_append]
termination_by a => a.length
decreasing_by all_goals simp_wf <;> omega

/-- An inserted line continuation is deleted without trace, unless the text before it ends
in a backslash, or in a backslash and CR, that the text after it would complete. -/
theorem rplLineEscape_insert (x : List Char) (hx : ∀ t, rplLineEscape (x ++ t) = rplLineEscape t)
    (hxh : x.head? = some ESCAPE) (s2 : List Char) :
    ∀ (n : Nat) (s1 : List Char), s1.length ≤ n →
      (s1.getLast? = some ESCAPE → s2.head? ≠ some CR ∧ s2.head? ≠ some LF) →
      ([ESCAPE, CR] <:+ s1 → s2.head? ≠ some LF) →
      rplLineEscape (s1 ++ (x ++ s2)) = rplLineEscape (s1 ++ s2) := by
  have hxs : (x ++ s2).head? = some ESCAPE := by
    cases x with
    | nil => cases hxh
    | cons y ys => simpa using hxh
  intro n
  induction n with
  | zero =>
    intro s1 hlen _ _
    have : s1 = [] := List.length_eq_zero.mp (Nat.le_zero.mp hlen)
    subst this
    exact hx s2
  | succ n ih =>
    intro s1 hlen hA hB
    have tA : ∀ (pre l : List Char), s1 = pre ++ l →
        (l.getLast? = some ESCAPE → s2.head? ≠ some CR ∧ s2.head? ≠ some LF) ∧
        ([ESCAPE, CR] <:+ l → s2.head? ≠ some LF) := by
      intro pre l hl
      constructor
      · intro h
        apply hA
        have hne : l ≠ [] := fun h0 => by rw [h0] at h; cases h
        rw [hl, List.getLast?_append_of_ne_nil _ hne]; exact h
      · intro h
        apply hB
        rw [hl]; exact h.trans (List.suffix_append pre l)
    match s1, hlen, hA, hB, tA with
    | [], _, _, _, _ => exact hx s2
    | [c], _, hA, _, _ =>
      have h1 : ¬ opensLineCont c (x ++ s2) := fun h => by
        have h2 := h.2
        rw [hxs] at h2
        rcases h2 with h' | h' <;> exact absurd (Option.some.inj h') (by decide)
      have h2 : ¬ opensLineCont c s2 := fun h => by
        have := hA (by rw [h.1]; rfl)
        rcases h.2 with h' | h'
        · exact this.1 h'
        · exact this.2 h'
      rw [List.singleton_append, List.singleton_append, rplLineEscape_cons_of_not_opens _ _ h1,
        rplLineEscape_cons_of_not_opens _ _ h2, hx]
    | c :: d :: rest, hlen, _, hB, tA =>
      simp only [List.length_cons] at hlen
      by_cases ho : c = ESCAPE ∧ (d = CR ∨ d = LF)
      · obtain ⟨rfl, hd⟩ := ho
        rcases hd with rfl | rfl
        · cases rest with
          | nil =>
            have h1 : (x ++ s2).head? ≠ some LF := by
              rw [hxs]; exact fun h => absurd (Option.some.inj h) (by decide)
            show rplLineEscape (ESCAPE :: CR :: (x ++ s2)) = rplLineEscape (ESCAPE :: CR :: s2)
            rw [rplLineEscape_esc_CR _ h1, rplLineEscape_esc_CR _ (hB (List.suffix_refl _)), hx]
          | cons e rest' =>
            simp only [List.length_cons] at hlen
            by_cases he : e = LF
            · subst he
              show rplLineEscape (ESCAPE :: CR :: LF :: (rest' ++ (x ++ s2))) =
                rplLineEscape (ESCAPE :: CR :: LF :: (rest' ++ s2))
              rw [rplLineEscape_esc_CR_LF, rplLineEscape_esc_CR_LF]
              have := tA [ESCAPE, CR, LF] rest' rfl
              exact ih rest' (by omega) this.1 this.2
            · have h1 : (e :: (rest' ++ s2)).head? ≠ some LF := by simpa using he
              have h2 : (e :: (rest' ++ (x ++ s2))).head? ≠ some LF := by simpa using he
              show rplLineEscape (ESCAPE :: CR :: (e :: (rest' ++ (x ++ s2)))) =
                rplLineEscape (ESCAPE :: CR :: (e :: (rest' ++ s2)))
              rw [rplLineEscape_esc_CR _ h2, rplLineEscape_esc_CR _ h1]
              have := tA [ESCAPE, CR] (e :: rest') rfl
              exact ih (e :: rest') (by simp only [List.length_cons]; omega) this.1 this.2
        · show rplLineEscape (ESCAPE :: LF :: (rest ++ (x ++ s2))) =
            rplLineEscape (ESCAPE :: LF :: (rest ++ s2))
          rw [rplLineEscape_esc_LF, rplLineEscape_esc_LF]
          have := tA [ESCAPE, LF] rest rfl
          exact ih rest (by omega) this.1 this.2
      · have h1 : ¬ opensLineCont c (d :: (rest ++ s2)) :=
          fun h => ho ⟨h.1, by simpa using h.2⟩
        have h2 : ¬ opensLineCont c (d :: (rest ++ (x ++ s2))) :=
          fun h => ho ⟨h.1, by simpa using h.2⟩
        show rplLineEscape (c :: (d :: (rest ++ (x ++ s2)))) =
          rplLineEscape (c :: (d :: (rest ++ s2)))
        rw [rplLineEscape_cons_of_not_opens _ _ h2, rplLineEscape_cons_of_not_opens _ _ h1]
        have := tA [c] (d :: rest) rfl
        have ih' := ih (d :: rest) (by simp only [List.length_cons]; omega) this.1 this.2
        rw [List.cons_append, List.cons_append] at ih'
        rw [ih']

/-! ## Room in the buffer -/

theorem stepU_brk_room {s s' : LoopState} {ch : Char} (h : stepU s ch = .brk s') :
    s'.rbuf.length + pend s' ≤ s.rbuf.length + pend s := by
  have hc := stepU_case s ch
  rw [h] at hc
  unfold pend
  cases hc <;> simp_all

theorem run_room (l : List Char) :
    ∀ (s : LoopState),
      (run s l).rbuf.length + pend (run s l) ≤ s.rbuf.length + pend s + l.length := by
  induction l with
  | nil => intro s; simp [run]
  | cons ch rest ih =>
    intro s
    cases hst : stepU s ch with
    | fault => exact absurd hst (stepU_ne_fault s ch)
    | brk s' =>
      rw [run_cons_brk hst]
      have := stepU_brk_room hst
      omega
    | next s' =>
      rw [run_cons_next hst]
      have h1 := stepU_next_room hst
      have h2 := ih s'
      simp only [List.length_cons]
      omega

/-! ## Texts without backslash -/

theorem hasLineCont_of_not_mem (l : List Char) (h : ESCAPE ∉ l) : hasLineCont l = false :=
  hasLineCont_of_usesControlEscape l (usesControlEscape_of_not_mem l h)

theorem rplEscape_append_of_not_mem (l m : List Char) (h : ESCAPE ∉ l) :
    rplEscape (l ++ m) = l ++ rplEscape m := by
  induction l with
  | nil => rfl
  | cons c l ih =>
    simp only [List.mem_cons, not_or] at h
    rw [List.cons_append, rplEscape_cons_ne _ _ (Ne.symm h.1), ih h.2, List.cons_append]

/-- Plain text read in the key state is accumulated and changes neither the mapping nor the
state. -/
theorem run_plain (t : List Char) (ht : ∀ c ∈ t, plain c) (s : LoopState) (hs : inState s)
    (h : s.lastCh ≠ ESCAPE) :
    ∃ c', run s t = { s with rbuf := s.rbuf ++ t, lastCh := c' } := by
  have hw : wellEscaped t = true := wellEscaped_of_no_esc t (fun c hc => (ht c hc).2.2)
  have hd : rplDelimiter t = t :=
    rplDelimiter_of_no_delim t (fun c hc => ⟨(ht c hc).1, (ht c hc).2.1⟩)
  obtain ⟨c', _, e⟩ := run_raw t s [] hw hs h
  rw [hd, List.append_nil, run_nil] at e
  exact ⟨c', e⟩

/-! ## The driver registry -/

theorem DriverFor_isSome_iff (drivers : DriverMap) (name : List Char) :
    (DriverFor drivers name).isSome ↔ name ∈ drivers.map Prod.fst := by
  induction drivers with
  | nil => simp [DriverFor]
  | cons e rest ih =>
    obtain ⟨k, d⟩ := e
    by_cases hk : k = name
    · simp [DriverFor, hk]
    · have hk' : ¬ name = k := fun h => hk h.symm
      simp [DriverFor, hk, hk', ih]

theorem mem_Drivers (drivers : DriverMap) (name : List Char) :
    name ∈ Drivers drivers ↔ name ∈ drivers.map Prod.fst := by
  unfold Drivers
  exact (List.perm_insertionSort _ _).mem_iff

theorem DriverFor_cons_ne (drivers : DriverMap) (k name : List Char) (d : Nat) (h : k ≠ name) :
    DriverFor ((k, d) :: drivers) name = DriverFor drivers name := by
  simp [DriverFor, h]

/-- Registration keeps every name once. -/
theorem Register_nodup {drivers drivers' : DriverMap} {name : List Char} {driver : Option Nat}
    (h : Register drivers name driver = .ok drivers') (hnd : (drivers.map Prod.fst).Nodup) :
    (drivers'.map Prod.fst).Nodup := by
  unfold Register at h
  cases driver with
  | none => cases h
  | some d =>
    simp only at h
    split_ifs at h with hd
    cases h
    rw [DriverFor_isSome_iff] at hd
    rw [List.map_cons, List.nodup_cons]
    exact ⟨hd, hnd⟩

/-- A record whose key and value are both written with escaped delimiters is read back as
the binding of the key to the value. -/
theorem run_record_escaped (s : LoopState) (k b rest : List Char)
    (h0 : s.state = waitfieldDelim) (hbuf : s.rbuf = []) (h : s.lastCh ≠ ESCAPE)
    (hk : GoodStr k) (hb : GoodStr b) :
    run s (rplDelimiter k ++ delimField :: (rplDelimiter b ++ delimOpt :: rest)) =
      run { state := waitfieldDelim, key := [], lastCh := delimOpt, rbuf := [],
            options := s.options.set k (.str b), err := s.err } rest := by
  obtain ⟨c1, hc1, e1⟩ := run_raw k s (delimField :: (rplDelimiter b ++ delimOpt :: rest)) hk.1
    (Or.inl h0) h
  rw [e1, hbuf, List.nil_append]
  have e2 := stepU_field_field { s with rbuf := k, lastCh := c1 } h0 hc1
  rw [if_neg (show ¬ k = [] from hk.2)] at e2
  rw [run_cons_next e2]
  obtain ⟨c2, hc2, e3⟩ := run_raw b
    { s with key := k, rbuf := [], state := waitoptDelim, lastCh := delimField }
    (delimOpt :: rest) hb.1 (Or.inr rfl) (show delimField ≠ ESCAPE by decide)
  rw [e3]
  have e4 := stepU_value_opt
    { s with key := k, rbuf := [] ++ b, state := waitoptDelim, lastCh := c2 } rfl hc2
  rw [if_neg (show ¬ ([] ++ b = []) by simpa using hb.2)] at e4
  rw [run_cons_next e4]
  simp

/-! ## Fields with escapes -/

theorem dropDelimiterEscapes_cons_ne (c : Char) (l : List Char) (hc : c ≠ ESCAPE) :
    dropDelimiterEscapes (c :: l) = c :: dropDelimiterEscapes l := by
  cases l with
  | nil => simp [dropDelimiterEscapes]
  | cons d rest => simp [dropDelimiterEscapes, hc]

/-- What a field denotes is well escaped, and escaping its delimiters gives the field back. -/
theorem rawField_spec (l : List Char) (h : rawField l = true) :
    rplDelimiter (dropDelimiterEscapes l) = l ∧ wellEscaped (dropDelimiterEscapes l) = true ∧
      (l ≠ [] → dropDelimiterEscapes l ≠ []) := by
  induction l using rawField.induct with
  | case1 => exact ⟨rfl, rfl, fun h => absurd rfl h⟩
  | case2 c =>
    simp only [rawField, decide_eq_true_eq] at h
    have h1 : ¬ (c = delimOpt ∨ c = delimField) := by tauto
    refine ⟨by simp [dropDelimiterEscapes, rplDelimiter, h1], ?_, by simp [dropDelimiterEscapes]⟩
    simp [dropDelimiterEscapes, wellEscaped, h.1]
  | case3 d rest ih =>
    simp only [rawField, if_true] at h
    obtain ⟨ih1, ih2, _⟩ := ih h
    by_cases hd : d = delimField ∨ d = delimOpt
    · have hd' : d = delimOpt ∨ d = delimField := by tauto
      have hde : d ≠ ESCAPE := by rcases hd with rfl | rfl <;> decide
      refine ⟨?_, ?_, by simp [dropDelimiterEscapes, hd]⟩
      · simp [dropDelimiterEscapes, hd, rplDelimiter, hd', ih1]
      · simp only [dropDelimiterEscapes, if_true, hd]
        rw [wellEscaped_cons_ne _ _ hde]; exact ih2
    · have hd' : ¬ (d = delimOpt ∨ d = delimField) := by tauto
      have he : ¬ (ESCAPE = delimOpt ∨ ESCAPE = delimField) := by decide
      refine ⟨?_, ?_, by simp [dropDelimiterEscapes, hd]⟩
      · simp [dropDelimiterEscapes, hd, rplDelimiter, hd', he, ih1]
      · simp only [dropDelimiterEscapes, if_true, hd, if_false]
        rw [wellEscaped_esc_cons, ih2]
        have : d ≠ delimField ∧ d ≠ delimOpt := by tauto
        simp [this]
  | case4 c d rest hc ih =>
    simp only [rawField, hc, if_false, Bool.and_eq_true, decide_eq_true_eq] at h
    obtain ⟨ih1, ih2, _⟩ := ih h.2
    have h1 : ¬ (c = delimOpt ∨ c = delimField) := by tauto
    rw [dropDelimiterEscapes_cons_ne _ _ hc]
    refine ⟨?_, ?_, by simp⟩
    · simp only [rplDelimiter, h1, if_false, ih1]
    · rw [wellEscaped_cons_ne _ _ hc]; exact ih2

/-- Records whose fields carry escapes are read back as the records that the fields
denote. -/
theorem run_recordText_raw (rs : List (List Char × List Char)) :
    ∀ (s : LoopState),
      (∀ kv ∈ rs, kv.1 ≠ [] ∧ rawField kv.1 = true ∧ kv.2 ≠ [] ∧ rawField kv.2 = true) →
      s.state = waitfieldDelim → s.rbuf = [] → s.lastCh ≠ ESCAPE →
      ∃ key c, c ≠ ESCAPE ∧
        run s (recordText rs) =
          { state := waitfieldDelim, key := key, lastCh := c, rbuf := [],
            options := s.options.setAll (strEntries (storedRecords rs)), err := s.err } := by
  induction rs with
  | nil =>
    intro s _ h0 hb h
    refine ⟨s.key, s.lastCh, h, ?_⟩
    cases s
    simp_all [recordText, run_nil, GoMap.setAll_nil, storedRecords, strEntries]
  | cons kv rs ih =>
    intro s hrs h0 hb h
    obtain ⟨k, v⟩ := kv
    obtain ⟨hk0, hk, hv0, hv⟩ := hrs (k, v) (List.mem_cons_self _ _)
    obtain ⟨ek, wk, nk⟩ := rawField_spec k hk
    obtain ⟨ev, wv, nv⟩ := rawField_spec v hv
    have e1 : recordText ((k, v) :: rs)
        = rplDelimiter (dropDelimiterEscapes k) ++
            delimField :: (rplDelimiter (dropDelimiterEscapes v) ++ delimOpt :: recordText rs) := by
      rw [ek, ev]; rfl
    rw [e1, run_record_escaped s _ _ _ h0 hb h ⟨wk, nk hk0⟩ ⟨wv, nv hv0⟩]
    obtain ⟨key, c, hc, e⟩ := ih
      { state := waitfieldDelim, key := [], lastCh := delimOpt, rbuf := [],
        options := s.options.set (dropDelimiterEscapes k) (.str (dropDelimiterEscapes v)),
        err := s.err }
      (fun e he => hrs e (List.mem_cons_of_mem _ he)) rfl rfl (show delimOpt ≠ ESCAPE by decide)
    exact ⟨key, c, hc, by rw [e]; rfl⟩

theorem splitDot_of_not_mem (l : List Char) (h : '.' ∉ l) : splitDot l = [l] := by
  induction l with
  | nil => rfl
  | cons c rest ih =>
    simp only [List.mem_cons, not_or] at h
    have hc : c ≠ '.' := fun h' => h.1 h'.symm
    simp [splitDot, hc, ih h.2]

/-! ## Bytes and runes -/

theorem char_range (c : Char) :
    c.toNat < 0xD800 ∨ (0xDFFF < c.toNat ∧ c.toNat < 0x110000) := c.valid

theorem Char.eq_of_toNat_eq {c d : Char} (h : c.toNat = d.toNat) : c = d := by
  rw [← Char.ofNat_toNat c, ← Char.ofNat_toNat d, h]

/-- The runtime decodes the encoding of a rune to that rune. -/
theorem decodeRune_encodeRune (c : Char) (rest : Bytes) :
    decodeRune (encodeRune c ++ rest) = (c, (encodeRune c).length) := by
  have hv := char_range c
  have hof : ∀ n, n = c.toNat → Char.ofNat n = c := fun n h => by
    rw [h]; exact Char.ofNat_toNat c
  unfold encodeRune
  split_ifs with h1 h2 h3
  · simp only [List.cons_append, List.nil_append, decodeRune, h1, if_true, List.length_singleton]
    rw [hof _ rfl]
  · have e : (0xC0 + c.toNat / 0x40) % 0x20 * 0x40 + (0x80 + c.toNat % 0x40) % 0x40
        = c.toNat := by omega
    simp only [List.cons_append, List.nil_append, decodeRune]
    rw [if_neg (by omega), if_pos (by omega), if_pos ⟨by unfold isCont; omega, by omega⟩,
      hof _ e]
    rfl
  · have e : (0xE0 + c.toNat / 0x1000) % 0x10 * 0x1000
        + (0x80 + c.toNat / 0x40 % 0x40) % 0x40 * 0x40
        + (0x80 + c.toNat % 0x40) % 0x40 = c.toNat := by omega
    simp only [List.cons_append, List.nil_append, decodeRune]
    rw [if_neg (by omega), if_neg (by omega), if_pos (by omega),
      if_pos ⟨by unfold isCont; omega, by unfold isCont; omega, by omega, by omega⟩, hof _ e]
    rfl
  · have e : (0xF0 + c.toNat / 0x40000) % 8 * 0x40000
        + (0x80 + c.toNat / 0x1000 % 0x40) % 0x40 * 0x1000
        + (0x80 + c.toNat / 0x40 % 0x40) % 0x40 * 0x40
        + (0x80 + c.toNat % 0x40) % 0x40 = c.toNat := by omega
    simp only [List.cons_append, List.nil_append, decodeRune]
    rw [if_neg (by omega), if_neg (by omega), if_neg (by omega), if_pos (by omega),
      if_pos ⟨by unfold isCont; omega, by unfold isCont; omega, by unfold isCont; omega,
        by omega, by omega⟩, hof _ e]
    rfl

theorem length_encodeRune (c : Char) : (encodeRune c).length = c.utf8Size := by
  have h1 : ∀ (n : Nat) (hn : n < UInt32.size), c.val ≤ UInt32.ofNatCore n hn ↔ c.toNat ≤ n := by
    intro n hn
    rw [UInt32.le_def, BitVec.le_def]
    exact Iff.rfl
  unfold Char.utf8Size encodeRune
  simp only [h1]
  split_ifs <;> first | rfl | omega

theorem encodeRune_ne_nil (c : Char) : encodeRune c ≠ [] := by
  unfold encodeRune
  split_ifs <;> simp

theorem utf8_nil : utf8 [] = [] := rfl

theorem utf8_cons (c : Char) (s : List Char) : utf8 (c :: s) = encodeRune c ++ utf8 s := by
  simp [utf8]

theorem utf8_append (a b : List Char) : utf8 (a ++ b) = utf8 a ++ utf8 b := by
  simp [utf8]

theorem length_utf8 (s : List Char) : (utf8 s).length = goLen s := by
  induction s with
  | nil => rfl
  | cons c s ih => rw [utf8_cons, List.length_append, ih, length_encodeRune, goLen_cons]

theorem rangeRunes_nil (fuel : Nat) : rangeRunes fuel [] = [] := by
  cases fuel <;> rfl

theorem rangeRunes_utf8 (s : List Char) :
    ∀ (fuel : Nat) (rest : Bytes), s.length ≤ fuel →
      rangeRunes fuel (utf8 s ++ rest) = s ++ rangeRunes (fuel - s.length) rest := by
  induction s with
  | nil => intro fuel rest _; rfl
  | cons c s ih =>
    intro fuel rest hf
    rw [utf8_cons]
    obtain ⟨b, bs, hb⟩ := List.exists_cons_of_ne_nil (encodeRune_ne_nil c)
    simp only [List.length_cons] at hf
    obtain ⟨fuel', rfl⟩ : ∃ f, fuel = f + 1 := ⟨fuel - 1, by omega⟩
    have hd := decodeRune_encodeRune c (utf8 s ++ rest)
    rw [List.append_assoc]
    have e : encodeRune c ++ (utf8 s ++ rest) = b :: (bs ++ (utf8 s ++ rest)) := by
      rw [hb]; rfl
    have e2 : List.drop (encodeRune c).length (b :: (bs ++ (utf8 s ++ rest)))
        = utf8 s ++ rest := by
      rw [← e, List.drop_left]
    rw [e] at hd ⊢
    simp only [rangeRunes, hd, e2]
    rw [ih fuel' rest (by omega)]
    simp

/-- Ranging over the bytes of a text yields the text. -/
theorem decodeRunes_utf8 (s : List Char) : decodeRunes (utf8 s) = s := by
  have h := rangeRunes_utf8 s (utf8 s).length []
    (by rw [length_utf8]; exact length_le_goLen s)
  rw [List.append_nil, rangeRunes_nil, List.append_nil] at h
  exact h

theorem encodeRune_ESCAPE : encodeRune ESCAPE = [0x5C] := by decide

theorem encodeRune_CR : encodeRune CR = [0x0D] := by decide

theorem encodeRune_LF : encodeRune LF = [0x0A] := by decide

theorem encodeRune_delimField : encodeRune delimField = [0x3D] := by decide

theorem encodeRune_delimOpt : encodeRune delimOpt = [0x3B] := by decide

/-- A byte below 0x80 occurs in the encoding of a rune only as the whole encoding of the
rune with that number. -/
theorem mem_encodeRune_ascii {c : Char} {x : Nat} (hx : x < 0x80) (h : x ∈ encodeRune c) :
    c.toNat = x := by
  unfold encodeRune at h
  split_ifs at h with h1 h2 h3
  · rw [List.mem_singleton] at h
    exact h.symm
  · simp only [List.mem_cons, List.mem_singleton, List.not_mem_nil, or_false] at h
    omega
  · simp only [List.mem_cons, List.mem_singleton, List.not_mem_nil, or_false] at h
    omega
  · simp only [List.mem_cons, List.mem_singleton, List.not_mem_nil, or_false] at h
    omega

theorem not_mem_encodeRune {c d : Char} (hd : d.toNat < 0x80) (h : c ≠ d) :
    d.toNat ∉ encodeRune c :=
  fun hm => h (Char.eq_of_toNat_eq (mem_encodeRune_ascii hd hm))

theorem head?_utf8_ne (l : List Char) (rest : Bytes) (d : Char) (hd : d.toNat < 0x80)
    (h : l.head? ≠ some d) (hr : l = [] → rest.head? ≠ some d.toNat) :
    (utf8 l ++ rest).head? ≠ some d.toNat := by
  cases l with
  | nil => exact hr rfl
  | cons c l =>
    have hc : c ≠ d := fun e => h (by rw [e]; rfl)
    rw [utf8_cons]
    obtain ⟨b, bs, hb⟩ := List.exists_cons_of_ne_nil (encodeRune_ne_nil c)
    rw [hb]
    simp only [List.cons_append, List.head?_cons, ne_eq, Option.some.injEq]
    intro e
    exact not_mem_encodeRune hd hc (by rw [hb, e]; exact List.mem_cons_self _ _)

theorem rplLineEscapeBytes_cons_ne (c : Nat) (l : Bytes) (hc : c ≠ 0x5C) :
    rplLineEscapeBytes (c :: l) = c :: rplLineEscapeBytes l := by
  match l with
  | [] => simp [rplLineEscapeBytes]
  | [d] => simp [rplLineEscapeBytes, hc]
  | d :: e :: rest => simp [rplLineEscapeBytes, hc]

theorem rplLineEscapeBytes_append_of_not_mem (l m : Bytes) (h : 0x5C ∉ l) :
    rplLineEscapeBytes (l ++ m) = l ++ rplLineEscapeBytes m := by
  induction l with
  | nil => rfl
  | cons c l ih =>
    simp only [List.mem_cons, not_or] at h
    rw [List.cons_append, rplLineEscapeBytes_cons_ne _ _ (Ne.symm h.1), ih h.2, List.cons_append]

theorem rplLineEscapeBytes_esc_LF (t : Bytes) :
    rplLineEscapeBytes (0x5C :: 0x0A :: t) = rplLineEscapeBytes t := by
  match t with
  | [] => simp [rplLineEscapeBytes]
  | e :: rest => simp [rplLineEscapeBytes]

theorem rplLineEscapeBytes_esc_CR_LF (t : Bytes) :
    rplLineEscapeBytes (0x5C :: 0x0D :: 0x0A :: t) = rplLineEscapeBytes t := by
  simp [rplLineEscapeBytes]

theorem rplLineEscapeBytes_esc_CR (t : Bytes) (h : t.head? ≠ some 0x0A) :
    rplLineEscapeBytes (0x5C :: 0x0D :: t) = rplLineEscapeBytes t := by
  match t with
  | [] => simp [rplLineEscapeBytes]
  | e :: rest =>
    have he : e ≠ 0x0A := fun h' => h (by rw [h']; rfl)
    simp [rplLineEscapeBytes, he]

theorem rplLineEscapeBytes_esc_other (t : Bytes) (h1 : t.head? ≠ some 0x0D)
    (h2 : t.head? ≠ some 0x0A) :
    rplLineEscapeBytes (0x5C :: t) = 0x5C :: rplLineEscapeBytes t := by
  match t with
  | [] => simp [rplLineEscapeBytes]
  | [d] =>
    have hd1 : d ≠ 0x0D := fun h' => h1 (by rw [h']; rfl)
    have hd2 : d ≠ 0x0A := fun h' => h2 (by rw [h']; rfl)
    simp [rplLineEscapeBytes, hd1, hd2]
  | d :: e :: rest =>
    have hd1 : d ≠ 0x0D := fun h' => h1 (by rw [h']; rfl)
    have hd2 : d ≠ 0x0A := fun h' => h2 (by rw [h']; rfl)
    simp [rplLineEscapeBytes, hd1, hd2]

/-- On a well-formed string, deleting the line continuations on the bytes is deleting them
on the text. -/
theorem rplLineEscapeBytes_utf8 :
    ∀ (n : Nat) (s : List Char), s.length ≤ n →
      rplLineEscapeBytes (utf8 s) = utf8 (rplLineEscape s) := by
  intro n
  induction n with
  | zero =>
    intro s hlen
    have : s = [] := List.length_eq_zero.mp (Nat.le_zero.mp hlen)
    subst this; rfl
  | succ n ih =>
    intro s hlen
    cases s with
    | nil => rfl
    | cons c rest =>
      simp only [List.length_cons] at hlen
      by_cases hc : c = ESCAPE
      swap
      · rw [rplLineEscape_cons_ne _ _ hc, utf8_cons, utf8_cons,
          rplLineEscapeBytes_append_of_not_mem _ _
            (not_mem_encodeRune (show ESCAPE.toNat < 0x80 by decide) hc),
          ih rest (by omega)]
      · subst hc
        rw [utf8_cons, encodeRune_ESCAPE]
        show rplLineEscapeBytes (0x5C :: utf8 rest) = _
        cases rest with
        | nil => rfl
        | cons d rest' =>
          simp only [List.length_cons] at hlen
          by_cases hLF : d = LF
          · subst hLF
            rw [utf8_cons, encodeRune_LF]
            show rplLineEscapeBytes (0x5C :: 0x0A :: utf8 rest') = _
            rw [rplLineEscapeBytes_esc_LF, rplLineEscape_esc_LF, ih rest' (by omega)]
          by_cases hCR : d = CR
          · subst hCR
            rw [utf8_cons, encodeRune_CR]
            show rplLineEscapeBytes (0x5C :: 0x0D :: utf8 rest') = _
            cases rest' with
            | nil => rfl
            | cons e rest'' =>
              simp only [List.length_cons] at hlen
              by_cases he : e = LF
              · subst he
                rw [utf8_cons, encodeRune_LF]
                show rplLineEscapeBytes (0x5C :: 0x0D :: 0x0A :: utf8 rest'') = _
                rw [rplLineEscapeBytes_esc_CR_LF, rplLineEscape_esc_CR_LF, ih rest'' (by omega)]
              · have h1 : (e :: rest'').head? ≠ some LF := by simpa using he
                have h2 := head?_utf8_ne (e :: rest'') [] LF (by decide) h1
                  (fun h => by cases h)
                rw [List.append_nil] at h2
                rw [rplLineEscapeBytes_esc_CR _ h2, rplLineEscape_esc_CR _ h1,
                  ih (e :: rest'') (by simp only [List.length_cons]; omega)]
          · have h1 : (d :: rest').head? ≠ some CR := by simpa using hCR
            have h2 : (d :: rest').head? ≠ some LF := by simpa using hLF
            have b1 := head?_utf8_ne (d :: rest') [] CR (by decide) h1 (fun h => by cases h)
            have b2 := head?_utf8_ne (d :: rest') [] LF (by decide) h2 (fun h => by cases h)
            rw [List.append_nil] at b1 b2
            have hno : ¬ opensLineCont ESCAPE (d :: rest') := fun h => by
              rcases h.2 with h' | h'
              · exact h1 h'
              · exact h2 h'
            rw [rplLineEscapeBytes_esc_other _ b1 b2, rplLineEscape_cons_of_not_opens _ _ hno,
              ih (d :: rest') (by simp only [List.length_cons]; omega), utf8_cons,
              encodeRune_ESCAPE]
            rfl

/-- On the bytes of a text, `Parse` is `Parse` on the text. -/
theorem ParseBytes_utf8 (o : Options) (s : List Char) : ParseBytes o (utf8 s) = Parse o s := by
  unfold ParseBytes Parse
  simp only [rplLineEscapeBytes_utf8 s.length s (Nat.le_refl _), length_utf8, decodeRunes_utf8]

theorem rplDelimiterBytes_append_of_not_mem (l m : Bytes) (h1 : 0x3B ∉ l) (h2 : 0x3D ∉ l) :
    rplDelimiterBytes (l ++ m) = l ++ rplDelimiterBytes m := by
  induction l with
  | nil => rfl
  | cons c l ih =>
    simp only [List.mem_cons, not_or] at h1 h2
    have hc : ¬ (c = 0x3B ∨ c = 0x3D) := fun h => by
      rcases h with h | h
      · exact h1.1 h.symm
      · exact h2.1 h.symm
    rw [List.cons_append]
    simp only [rplDelimiterBytes, hc, if_false]
    rw [ih h1.2 h2.2, List.cons_append]

/-- On a well-formed string, escaping the delimiters on the bytes is escaping them on the
text. -/
theorem rplDelimiterBytes_utf8 (s : List Char) :
    rplDelimiterBytes (utf8 s) = utf8 (rplDelimiter s) := by
  induction s with
  | nil => rfl
  | cons c s ih =>
    rw [utf8_cons]
    by_cases h1 : c = delimOpt
    · subst h1
      rw [encodeRune_delimOpt]
      simp only [rplDelimiter, true_or, if_true, utf8_cons, encodeRune_ESCAPE,
        encodeRune_delimOpt]
      simp [rplDelimiterBytes, ih]
    by_cases h2 : c = delimField
    · subst h2
      rw [encodeRune_delimField]
      simp only [rplDelimiter, or_true, if_true, utf8_cons, encodeRune_ESCAPE,
        encodeRune_delimField]
      simp [rplDelimiterBytes, ih]
    · have hc : ¬ (c = delimOpt ∨ c = delimField) := by tauto
      simp only [rplDelimiter, hc, if_false, utf8_cons]
      rw [rplDelimiterBytes_append_of_not_mem _ _
        (not_mem_encodeRune (show delimOpt.toNat < 0x80 by decide) h1)
        (not_mem_encodeRune (show delimField.toNat < 0x80 by decide) h2), ih]

theorem recordBytes_encodeRecords (ps : List (List Char × List Char)) :
    recordBytes (encodeRecords ps) = utf8 (recordText ps) := by
  induction ps with
  | nil => rfl
  | cons kv ps ih =>
    obtain ⟨k, v⟩ := kv
    show utf8 k ++ 0x3D :: (utf8 v ++ 0x3B :: recordBytes (encodeRecords ps)) = _
    rw [ih]
    simp only [recordText, utf8_append, utf8_cons, encodeRune_delimField, encodeRune_delimOpt]
    simp

theorem StringBytes_encodeRecords (es : List (List Char × List Char)) :
    StringBytes (encodeRecords es) = utf8 (flatText es) := by
  induction es with
  | nil => rfl
  | cons kv es ih =>
    obtain ⟨k, v⟩ := kv
    show utf8 k ++ 0x3D :: (rplDelimiterBytes (utf8 v) ++ 0x3B :: StringBytes (encodeRecords es))
      = _
    rw [ih, rplDelimiterBytes_utf8]
    simp only [flatText, List.flatMap_cons, utf8_append, utf8_cons, encodeRune_delimField,
      encodeRune_delimOpt, utf8_nil]
    simp

/-! ## Maps as references -/

theorem MapObj.entry_erase (m : MapObj) (key k : List Char) :
    (m.erase key).get? k = if key = k then none else m.get? k := by
  induction m with
  | nil => simp [MapObj.erase, MapObj.get?]
  | cons e m ih =>
    obtain ⟨k', v⟩ := e
    by_cases h : k' = key
    · subst h
      by_cases h2 : k' = k
      · subst h2
        simpa [MapObj.erase] using ih
      · simpa [MapObj.erase, MapObj.get?, h2] using ih
    · by_cases h2 : k' = k
      · subst h2
        have h3 : ¬ key = k' := fun e => h e.symm
        simp [MapObj.erase, MapObj.get?, h, h3]
      · simp [MapObj.erase, MapObj.get?, h, h2, ih]

theorem MapObj.entry_set (m : MapObj) (key : List Char) (val : Item) (k : List Char) :
    (m.set key val).get? k = if key = k then some val else m.get? k := by
  by_cases h : key = k <;> simp [MapObj.set, MapObj.get?, MapObj.entry_erase, h]

theorem Heap.read_of_eq {h h1 : Heap} {c : Nat} (e : h1[c]? = h[c]?) (k : List Char) :
    h1.read c k = h.read c k := by
  unfold Heap.read; rw [e]

theorem Heap.read_append_nil (h : Heap) (c : Nat) (k : List Char) :
    (h ++ [[]]).read c k = h.read c k := by
  unfold Heap.read
  by_cases hc : c < h.length
  · rw [List.getElem?_append_left hc]
  · have h1 : h[c]? = none := by simp; omega
    rw [h1]
    by_cases hc2 : c = h.length
    · subst hc2
      simp [MapObj.get?]
    · have h2 : (h ++ [[]])[c]? = none := by simp; omega
      rw [h2]

theorem Heap.write_ok {h h2 : Heap} {a : Nat} {k : List Char} {v : Item}
    (hw : h.write a k v = .ok h2) :
    ∃ m, h[a]? = some m ∧ h2 = h.set a (m.set k v) ∧ a < h.length := by
  unfold Heap.write at hw
  cases hm : h[a]? with
  | none => rw [hm] at hw; cases hw
  | some m =>
    rw [hm] at hw
    simp only [Except.ok.injEq] at hw
    exact ⟨m, rfl, hw.symm, (List.getElem?_eq_some_iff.mp hm).1⟩

theorem Heap.read_set (h : Heap) (a c : Nat) (m : MapObj) (k : List Char) (ha : a < h.length) :
    Heap.read (h.set a m) c k = if a = c then m.get? k else h.read c k := by
  unfold Heap.read
  rw [List.getElem?_set]
  by_cases hac : a = c
  · subst hac
    simp [ha]
  · simp [hac]

/-- A read along a path depends on the heap only through the reads of the maps reached. -/
theorem Heap.look_congr {h h1 : Heap} (qs : List (List Char)) :
    ∀ (b : Nat), (∀ p c, h.addr b p = some c → ∀ k, h1.read c k = h.read c k) →
      h1.look b qs = h.look b qs := by
  induction qs with
  | nil => intro _ _; rfl
  | cons q1 qs ih =>
    intro b hb
    have hr : h1.read b q1 = h.read b q1 := hb [] b rfl q1
    cases qs with
    | nil => exact hr
    | cons q2 qs' =>
      simp only [Heap.look, hr]
      cases hv : h.read b q1 with
      | none => rfl
      | some v =>
        cases v with
        | map m =>
          simp only
          exact ih m (fun p c hp k => hb (q1 :: p) c (by simp only [Heap.addr, hv]; exact hp) k)
        | _ => rfl

theorem Heap.Tree_child {h : Heap} {a b : Nat} {key : List Char} (ht : h.Tree a)
    (hr : h.read a key = some (.map b)) : h.Tree b := by
  have hadd : ∀ p, h.addr a (key :: p) = h.addr b p := fun p => by simp only [Heap.addr, hr]
  refine ⟨fun p q c hp hq => ?_, fun p c hp => ht.2 (key :: p) c (by rw [hadd]; exact hp)⟩
  have := ht.1 (key :: p) (key :: q) c (by rw [hadd]; exact hp) (by rw [hadd]; exact hq)
  exact (List.cons.inj this).2

theorem Heap.Tree_no_cycle {h : Heap} {a b : Nat} {key : List Char} (ht : h.Tree a)
    (hr : h.read a key = some (.map b)) (p : List (List Char)) : h.addr b p ≠ some a := by
  intro hp
  have h1 : h.addr a (key :: p) = some a := by simp only [Heap.addr, hr]; exact hp
  have := ht.1 (key :: p) [] a h1 rfl
  cases this

theorem Heap.Tree_siblings {h : Heap} {a b d : Nat} {k1 k2 : List Char} (ht : h.Tree a)
    (h1 : h.read a k1 = some (.map b)) (h2 : h.read a k2 = some (.map d)) (hne : k1 ≠ k2)
    (p q : List (List Char)) (c : Nat) (hq : h.addr d q = some c) : h.addr b p ≠ some c := by
  intro hp
  have e1 : h.addr a (k1 :: p) = some c := by simp only [Heap.addr, h1]; exact hp
  have e2 : h.addr a (k2 :: q) = some c := by simp only [Heap.addr, h2]; exact hq
  exact hne (List.cons.inj (ht.1 _ _ c e1 e2)).1

/-- A write along a path changes only maps that are reached from the map where it starts,
and maps that it makes. -/
theorem Heap.setLoop_outside (val : Item) (ps : List (List Char)) :
    ∀ (h : Heap) (a : Nat) (h1 : Heap) (ov : Option Item),
      Heap.setLoop val h a ps = .ok (h1, ov) →
      h.length ≤ h1.length ∧
        ∀ c, c < h.length → (∀ p, h.addr a p ≠ some c) → h1[c]? = h[c]? := by
  induction ps with
  | nil =>
    intro h a h1 ov hs
    simp only [Heap.setLoop, Except.ok.injEq, Prod.mk.injEq] at hs
    rw [← hs.1]
    exact ⟨Nat.le_refl _, fun _ _ _ => rfl⟩
  | cons key rest ih =>
    intro h a h1 ov hs
    cases rest with
    | nil =>
      simp only [Heap.setLoop] at hs
      cases hw : h.write a key val with
      | error f => rw [hw] at hs; cases hs
      | ok h2 =>
        rw [hw] at hs
        simp only [Except.ok.injEq, Prod.mk.injEq] at hs
        obtain ⟨m, _, e2, _⟩ := Heap.write_ok hw
        rw [← hs.1, e2]
        refine ⟨by rw [List.length_set], fun c _ hc => ?_⟩
        have hac : a ≠ c := fun e => hc [] (by rw [e]; rfl)
        rw [List.getElem?_set_ne hac]
    | cons next rest' =>
      simp only [Heap.setLoop] at hs
      cases hv : h.read a key with
      | none =>
        rw [hv] at hs
        simp only at hs
        cases hw : h.write a key (.map h.length) with
        | error f => rw [hw] at hs; cases hs
        | ok h2 =>
          rw [hw] at hs
          simp only at hs
          obtain ⟨m, _, e2, _⟩ := Heap.write_ok hw
          have hl2 : h2.length = h.length := by rw [e2, List.length_set]
          obtain ⟨i1, i2⟩ := ih (h2 ++ [[]]) h.length h1 ov hs
          rw [List.length_append, hl2] at i1 i2
          refine ⟨by simp at i1; omega, fun c hc hcp => ?_⟩
          have hac : a ≠ c := fun e => hcp [] (by rw [e]; rfl)
          have hfresh : ∀ p, (h2 ++ [[]]).addr h.length p ≠ some c := by
            intro p
            cases p with
            | nil =>
              simp only [Heap.addr, ne_eq, Option.some.injEq]
              omega
            | cons k p' =>
              have hr : (h2 ++ [[]]).read h.length k = none := by
                rw [Heap.read_append_nil]
                unfold Heap.read
                have : h2[h.length]? = none := by simp; omega
                rw [this]
              simp [Heap.addr, hr]
          rw [i2 c (by simp; omega) hfresh, List.getElem?_append_left (by omega), e2,
            List.getElem?_set_ne hac]
      | some v =>
        rw [hv] at hs
        cases v with
        | map b =>
          simp only at hs
          obtain ⟨i1, i2⟩ := ih h b h1 ov hs
          refine ⟨i1, fun c hc hcp => i2 c hc (fun p hp => hcp (key :: p) ?_)⟩
          simp only [Heap.addr, hv]; exact hp
        | str s => cases hs
        | scalar n => cases hs
        | null => cases hs

theorem Heap.look_of_empty (h : Heap) (a : Nat) (hm : ∀ k, h.read a k = none)
    (qs : List (List Char)) : h.look a qs = none := by
  match qs with
  | [] => rfl
  | [q] => exact hm q
  | q :: q2 :: rest => simp only [Heap.look, hm]

theorem Heap.addr_of_empty (h : Heap) (a : Nat) (hm : ∀ k, h.read a k = none)
    (p : List (List Char)) (c : Nat) (hp : h.addr a p = some c) : p = [] ∧ c = a := by
  cases p with
  | nil =>
    simp only [Heap.addr, Option.some.injEq] at hp
    exact ⟨rfl, hp.symm⟩
  | cons k p' => simp [Heap.addr, hm] at hp

theorem Heap.read_fresh (h2 : Heap) (k : List Char) :
    (h2 ++ [[]]).read h2.length k = none := by
  rw [Heap.read_append_nil]
  unfold Heap.read
  have : h2[h2.length]? = none := by simp
  rw [this]

/-- A write along one path on the heap leaves the read along every path such that neither is
a prefix of the other, when the maps reached from the start form a tree. -/
theorem Heap.setLoop_frame (val : Item) (ps : List (List Char)) :
    ∀ (qs : List (List Char)) (h : Heap) (a : Nat) (h1 : Heap) (ov : Option Item),
      ps ≠ [] → qs ≠ [] → ¬ ps <+: qs → ¬ qs <+: ps → h.Tree a →
      Heap.setLoop val h a ps = .ok (h1, ov) → h1.look a qs = h.look a qs := by
  induction ps with
  | nil => intro _ _ _ _ _ h; exact absurd rfl h
  | cons key rest ih =>
    intro qs h a h1 ov _ hq hpq hqp ht hs
    obtain ⟨q1, qs', rfl⟩ := List.exists_cons_of_ne_nil hq
    have ha : a < h.length := ht.2 [] a rfl
    -- a read below a sibling key, when the maps reached from it are left alone
    have hsib : ∀ (d : Nat), h.read a q1 = some (.map d) →
        (∀ c, c < h.length → c ≠ a → (∀ p, h.addr d p = some c → True) →
          (∃ p, h.addr d p = some c) → h1[c]? = h[c]?) →
        ∀ qs'', h1.look d qs'' = h.look d qs'' := by
      intro d hd hun qs''
      apply Heap.look_congr
      intro p c hp k
      have hc : c < h.length := (Heap.Tree_child ht hd).2 p c hp
      have hca : c ≠ a := fun e => Heap.Tree_no_cycle ht hd p (e ▸ hp)
      exact Heap.read_of_eq (hun c hc hca (fun _ _ => trivial) ⟨p, hp⟩) k
    cases rest with
    | nil =>
      have hne : key ≠ q1 := fun e => hpq (by rw [e]; exact List.prefix_append [q1] qs')
      simp only [Heap.setLoop] at hs
      cases hw : h.write a key val with
      | error f => rw [hw] at hs; cases hs
      | ok h2 =>
        rw [hw] at hs
        simp only [Except.ok.injEq, Prod.mk.injEq] at hs
        obtain ⟨m, hm, e2, _⟩ := Heap.write_ok hw
        have e1 : h1 = h.set a (m.set key val) := by rw [← hs.1, e2]
        have hr : h1.read a q1 = h.read a q1 := by
          rw [e1, Heap.read_set h a a _ q1 ha, if_pos rfl, MapObj.entry_set, if_neg hne]
          unfold Heap.read; rw [hm]
        cases qs' with
        | nil => exact hr
        | cons q2 qs'' =>
          simp only [Heap.look, hr]
          cases hv : h.read a q1 with
          | none => rfl
          | some v =>
            cases v with
            | map d =>
              simp only
              exact hsib d hv (fun c _ hca _ _ => by
                rw [e1, List.getElem?_set_ne (fun e => hca e.symm)]) _
            | _ => rfl
    | cons next rest' =>
      simp only [Heap.setLoop] at hs
      cases hv : h.read a key with
      | none =>
        rw [hv] at hs
        simp only at hs
        cases hw : h.write a key (.map h.length) with
        | error f => rw [hw] at hs; cases hs
        | ok h2 =>
          rw [hw] at hs
          simp only at hs
          obtain ⟨m, hm, e2, _⟩ := Heap.write_ok hw
          have hl2 : h2.length = h.length := by rw [e2, List.length_set]
          have hempty : ∀ k, (h2 ++ [[]]).read h.length k = none := by
            intro k; rw [← hl2]; exact Heap.read_fresh h2 k
          obtain ⟨_, j2⟩ := Heap.setLoop_outside val (next :: rest') (h2 ++ [[]]) h.length h1 ov hs
          have hold : ∀ c, c < h.length → h1[c]? = h2[c]? := by
            intro c hc
            rw [j2 c (by simp; omega) (fun p hp => by
              have := (Heap.addr_of_empty _ _ hempty p c hp).2
              omega), List.getElem?_append_left (by omega)]
          have hra : ∀ k, h1.read a k = (m.set key (.map h.length)).get? k := by
            intro k
            rw [Heap.read_of_eq (hold a ha) k, e2, Heap.read_set h a a _ k ha, if_pos rfl]
          by_cases hk : key = q1
          · subst hk
            rw [List.cons_prefix_cons] at hpq hqp
            have hpq' : ¬ (next :: rest') <+: qs' := fun h' => hpq ⟨rfl, h'⟩
            have hqp' : ¬ qs' <+: (next :: rest') := fun h' => hqp ⟨rfl, h'⟩
            have hqs : qs' ≠ [] := fun h' => hqp' (h' ▸ List.nil_prefix)
            obtain ⟨q2, qs'', rfl⟩ := List.exists_cons_of_ne_nil hqs
            have htree : Heap.Tree (h2 ++ [[]]) h.length := by
              refine ⟨fun p q c hp hq' => ?_, fun p c hp => ?_⟩
              · rw [(Heap.addr_of_empty _ _ hempty p c hp).1,
                  (Heap.addr_of_empty _ _ hempty q c hq').1]
              · rw [(Heap.addr_of_empty _ _ hempty p c hp).2]; simp; omega
            have hin := ih (q2 :: qs'') (h2 ++ [[]]) h.length h1 ov (by simp) hqs hpq' hqp'
              htree hs
            simp only [Heap.look, hv, hra, MapObj.entry_set, if_true]
            rw [hin]
            exact Heap.look_of_empty _ _ hempty _
          · have hr : h1.read a q1 = h.read a q1 := by
              rw [hra, MapObj.entry_set, if_neg hk]
              unfold Heap.read; rw [hm]
            cases qs' with
            | nil => exact hr
            | cons q2 qs'' =>
              simp only [Heap.look, hr]
              cases hv1 : h.read a q1 with
              | none => rfl
              | some v =>
                cases v with
                | map d =>
                  simp only
                  exact hsib d hv1 (fun c hc hca _ _ => by
                    rw [hold c hc, e2, List.getElem?_set_ne (fun e => hca e.symm)]) _
                | _ => rfl
      | some v =>
        rw [hv] at hs
        cases v with
        | map b =>
          simp only at hs
          obtain ⟨_, i2⟩ := Heap.setLoop_outside val (next :: rest') h b h1 ov hs
          have hau : h1[a]? = h[a]? := i2 a ha (Heap.Tree_no_cycle ht hv)
          by_cases hk : key = q1
          · subst hk
            rw [List.cons_prefix_cons] at hpq hqp
            have hpq' : ¬ (next :: rest') <+: qs' := fun h' => hpq ⟨rfl, h'⟩
            have hqp' : ¬ qs' <+: (next :: rest') := fun h' => hqp ⟨rfl, h'⟩
            have hqs : qs' ≠ [] := fun h' => hqp' (h' ▸ List.nil_prefix)
            obtain ⟨q2, qs'', rfl⟩ := List.exists_cons_of_ne_nil hqs
            have hin := ih (q2 :: qs'') h b h1 ov (by simp) hqs hpq' hqp'
              (Heap.Tree_child ht hv) hs
            simp only [Heap.look, Heap.read_of_eq hau, hv]
            exact hin
          · have hr : h1.read a q1 = h.read a q1 := Heap.read_of_eq hau q1
            cases qs' with
            | nil => exact hr
            | cons q2 qs'' =>
              simp only [Heap.look, hr]
              cases hv1 : h.read a q1 with
              | none => rfl
              | some v =>
                cases v with
                | map d =>
                  simp only
                  apply Heap.look_congr
                  intro p c hp k
                  have hc : c < h.length := (Heap.Tree_child ht hv1).2 p c hp
                  exact Heap.read_of_eq
                    (i2 c hc (fun p' => Heap.Tree_siblings ht hv hv1 hk p' p c hp)) k
                | _ => rfl
        | str s => cases hs
        | scalar n => cases hs
        | null => cases hs

theorem Node.getContainerLoop_read (h : Heap) (ps : List (List Char)) :
    ∀ (a : Nat), ps ≠ [] →
      (h ++ [[]]).read (Node.getContainerLoop (h ++ [[]]) h.length a ps).1
          (Node.getContainerLoop (h ++ [[]]) h.length a ps).2 = h.look a ps := by
  induction ps with
  | nil => intro _ hp; exact absurd rfl hp
  | cons key rest ih =>
    intro a _
    cases rest with
    | nil =>
      simp only [Node.getContainerLoop, Heap.look]
      exact Heap.read_append_nil h a key
    | cons next rest' =>
      simp only [Node.getContainerLoop, Heap.look, Heap.read_append_nil h a key]
      cases hv : h.read a key with
      | none => exact Heap.read_fresh h next
      | some v =>
        cases v with
        | map m => exact ih m (by simp)
        | str s => exact Heap.read_fresh h next
        | scalar n => exact Heap.read_fresh h next
        | null => exact Heap.read_fresh h next

theorem Node.getContainer_heap (h : Heap) (o : Node) (key : List Char) :
    (Node.getContainer h o key).1 = if (splitDot key).length ≤ 1 then h else h ++ [[]] := by
  unfold Node.getContainer
  simp only
  split_ifs <;> rfl

theorem Node.getContainer_prefix (h : Heap) (o : Node) (key : List Char) :
    h <+: (Node.getContainer h o key).1 := by
  rw [Node.getContainer_heap]
  split_ifs
  · exact List.prefix_refl h
  · exact List.prefix_append h _

theorem Node.GetObject_look (h : Heap) (o : Node) (key : List Char) :
    (Node.GetObject h o key).2 = h.look o.options (splitDot key) := by
  unfold Node.GetObject Node.getContainer
  simp only
  by_cases hl : (splitDot key).length ≤ 1
  · rw [if_pos hl]
    simp only
    cases hs : splitDot key with
    | nil => exact absurd hs (splitDot_ne_nil key)
    | cons x rest =>
      cases rest with
      | nil =>
        rw [splitDot_singleton hs]
        rfl
      | cons y rest' =>
        rw [hs] at hl
        simp at hl
  · rw [if_neg hl]
    exact Node.getContainerLoop_read h (splitDot key) o.options (splitDot_ne_nil key)

theorem Node.newContainerLoop_setLoop (val : Item) (ps : List (List Char)) :
    ∀ (h : Heap) (a : Nat) (h1 : Heap) (c : Nat) (k : List Char) (h2 : Heap), ps ≠ [] →
      Node.newContainerLoop h a ps = .ok (h1, c, k) → h1.write c k val = .ok h2 →
      Heap.setLoop val h a ps = .ok (h2, h1.read c k) := by
  induction ps with
  | nil => intro _ _ _ _ _ _ hp; exact absurd rfl hp
  | cons key rest ih =>
    intro h a h1 c k h2 _ hn hw
    cases rest with
    | nil =>
      simp only [Node.newContainerLoop, Except.ok.injEq, Prod.mk.injEq] at hn
      obtain ⟨rfl, rfl, rfl⟩ := hn
      simp only [Heap.setLoop, hw]
    | cons next rest' =>
      simp only [Node.newContainerLoop, Heap.alloc] at hn
      simp only [Heap.setLoop]
      cases hv : h.read a key with
      | none =>
        rw [hv] at hn
        simp only at hn ⊢
        cases hw1 : h.write a key (.map h.length) with
        | error f => rw [hw1] at hn; cases hn
        | ok h3 =>
          rw [hw1] at hn
          simp only at hn ⊢
          exact ih _ _ h1 c k h2 (by simp) hn hw
      | some v =>
        rw [hv] at hn
        cases v with
        | map m =>
          simp only at hn ⊢
          exact ih _ _ h1 c k h2 (by simp) hn hw
        | str s => cases hn
        | scalar n => cases hn
        | null => cases hn

theorem Node.Set_eq_setLoop {h h1 : Heap} {o : Node} {key : List Char} {val r : Item}
    (hs : Node.Set h o key val = .ok (h1, r)) :
    ∃ ov, Heap.setLoop val h o.options (splitDot key) = .ok (h1, ov) := by
  unfold Node.Set at hs
  cases hn : Node.newContainer h o key with
  | error f => rw [hn] at hs; cases hs
  | ok res =>
    obtain ⟨g, c, k⟩ := res
    rw [hn] at hs
    simp only at hs
    cases hw : g.write c k val with
    | error f => rw [hw] at hs; cases hs
    | ok h2 =>
      rw [hw] at hs
      simp only [Except.ok.injEq, Prod.mk.injEq] at hs
      obtain ⟨rfl, _⟩ := hs
      unfold Node.newContainer at hn
      simp only at hn
      by_cases hl : (splitDot key).length ≤ 1
      · rw [if_pos hl] at hn
        simp only [Except.ok.injEq, Prod.mk.injEq] at hn
        obtain ⟨rfl, rfl, rfl⟩ := hn
        cases hsd : splitDot key with
        | nil => exact absurd hsd (splitDot_ne_nil key)
        | cons x rest =>
          cases rest with
          | nil =>
            rw [splitDot_singleton hsd]
            exact ⟨h.read o.options key, by simp only [Heap.setLoop, hw]⟩
          | cons y rest' =>
            rw [hsd] at hl
            simp at hl
      · rw [if_neg hl] at hn
        exact ⟨_, Node.newContainerLoop_setLoop val (splitDot key) h o.options g c k h2
          (splitDot_ne_nil key) hn hw⟩

theorem sampleHeap_addr (p : List (List Char)) (c : Nat) (hp : sampleHeap.addr 0 p = some c) :
    (p = [] ∧ c = 0) ∨ (p = [['a']] ∧ c = 1) ∨ (p = [['a'], ['b']] ∧ c = 2) := by
  have r0 : ∀ k, sampleHeap.read 0 k
      = if ['a'] = k then some (.map 1)
        else if ['s'] = k then some (.str "text".toList) else none := fun _ => rfl
  have r1 : ∀ k, sampleHeap.read 1 k = if ['b'] = k then some (.map 2) else none :=
    fun _ => rfl
  have r2 : ∀ k, sampleHeap.read 2 k = if ['c'] = k then some (.str ['1']) else none :=
    fun _ => rfl
  cases p with
  | nil =>
    simp only [Heap.addr, Option.some.injEq] at hp
    exact Or.inl ⟨rfl, hp.symm⟩
  | cons k p1 =>
    simp only [Heap.addr, r0] at hp
    by_cases hk : ['a'] = k
    · rw [if_pos hk] at hp
      simp only at hp
      cases p1 with
      | nil =>
        simp only [Heap.addr, Option.some.injEq] at hp
        exact Or.inr (Or.inl ⟨by rw [hk], hp.symm⟩)
      | cons k2 p2 =>
        simp only [Heap.addr, r1] at hp
        by_cases hk2 : ['b'] = k2
        · rw [if_pos hk2] at hp
          simp only at hp
          cases p2 with
          | nil =>
            simp only [Heap.addr, Option.some.injEq] at hp
            exact Or.inr (Or.inr ⟨by rw [hk, hk2], hp.symm⟩)
          | cons k3 p3 =>
            simp only [Heap.addr, r2] at hp
            split_ifs at hp
        · rw [if_neg hk2] at hp
          cases hp
    · rw [if_neg hk] at hp
      split_ifs at hp

theorem sampleHeap_tree : sampleHeap.Tree 0 := by
  refine ⟨fun p q c hp hq => ?_, fun p c hp => ?_⟩
  · rcases sampleHeap_addr p c hp with ⟨rfl, rfl⟩ | ⟨rfl, rfl⟩ | ⟨rfl, rfl⟩ <;>
      rcases sampleHeap_addr q _ hq with ⟨rfl, h⟩ | ⟨rfl, h⟩ | ⟨rfl, h⟩ <;>
        first
          | rfl
          | exact absurd h (by decide)
  · rcases sampleHeap_addr p c hp with ⟨_, rfl⟩ | ⟨_, rfl⟩ | ⟨_, rfl⟩ <;> decide

theorem Heap.look_below_value (h : Heap) (pre : List (List Char)) :
    ∀ (a : Nat) (suf : List (List Char)), pre ≠ [] → suf ≠ [] →
      (∀ m, h.look a pre ≠ some (.map m)) → h.look a (pre ++ suf) = none := by
  induction pre with
  | nil => intro _ _ hp; exact absurd rfl hp
  | cons key rest ih =>
    intro a suf _ hsuf hnm
    obtain ⟨s1, suf', rfl⟩ := List.exists_cons_of_ne_nil hsuf
    cases rest with
    | nil =>
      simp only [Heap.look] at hnm
      show Heap.look h a (key :: s1 :: suf') = none
      rw [Heap.look]
      cases hv : h.read a key with
      | none => rfl
      | some v =>
        cases v with
        | map m => exact absurd hv (hnm m)
        | _ => rfl
    | cons next rest' =>
      simp only [Heap.look] at hnm
      simp only [List.cons_append, Heap.look]
      cases hv : h.read a key with
      | none => rfl
      | some v =>
        cases v with
        | map m =>
          simp only
          rw [hv] at hnm
          exact ih m (s1 :: suf') (by simp) (by simp) hnm
        | _ => rfl

theorem Node.GetObject_heap (h : Heap) (o : Node) (key : List Char) :
    (Node.GetObject h o key).1 = (Node.getContainer h o key).1 := rfl

theorem Node.Get_cases (env : HeapEnv) (h : Heap) (o : Node) (p : List Char) :
    Node.Get env h o p =
      match (Node.GetObject h o p).2 with
      | none => Node.New (Node.GetObject h o p).1
      | some val =>
        match o.deferred env (Node.GetObject h o p).1 val with
        | some loaded => loaded
        | none =>
          match val with
          | .map vMap => ((Node.GetObject h o p).1, { filePath := [], options := vMap })
          | _ => Node.New (Node.GetObject h o p).1 := rfl

theorem Node.deferred_some {env : HeapEnv} {h : Heap} {o : Node} {val : Item}
    {loaded : Heap × Node} (hd : o.deferred env h val = some loaded) :
    ∃ vstr objs n, val = .str vstr ∧ vstr.head? = some '@' ∧
      env.fromFile (o.getPath env vstr) h.length = some (objs, n) ∧ loaded = (h ++ objs, n) := by
  cases val with
  | str vstr =>
    simp only [Node.deferred] at hd
    by_cases hat : vstr.head? = some '@'
    · rw [if_pos hat] at hd
      cases hf : env.fromFile (o.getPath env vstr) h.length with
      | none => rw [hf] at hd; cases hd
      | some r =>
        obtain ⟨objs, n⟩ := r
        rw [hf] at hd
        simp only [Option.some.injEq] at hd
        exact ⟨vstr, objs, n, rfl, hat, hf, hd.symm⟩
    · rw [if_neg hat] at hd
      cases hd
  | scalar n => cases hd
  | null => cases hd
  | map a => cases hd

theorem Node.New_prefix (h : Heap) : h <+: (Node.New h).1 := List.prefix_append h _

theorem Node.Get_prefix (env : HeapEnv) (h : Heap) (o : Node) (p : List Char) :
    h <+: (Node.Get env h o p).1 := by
  have h0 : h <+: (Node.GetObject h o p).1 := Node.getContainer_prefix h o p
  rw [Node.Get_cases]
  cases (Node.GetObject h o p).2 with
  | none => exact h0.trans (Node.New_prefix _)
  | some val =>
    simp only
    cases hd : o.deferred env (Node.GetObject h o p).1 val with
    | some loaded =>
      obtain ⟨_, objs, n, _, _, _, rfl⟩ := Node.deferred_some hd
      exact h0.trans (List.prefix_append _ _)
    | none =>
      cases val with
      | map vMap => exact h0
      | str s => exact h0.trans (Node.New_prefix _)
      | scalar n => exact h0.trans (Node.New_prefix _)
      | null => exact h0.trans (Node.New_prefix _)

theorem Node.IsEmpty_New (h : Heap) : Node.IsEmpty (Node.New h).1 (Node.New h).2 = true := by
  simp [Node.IsEmpty, Node.New, Heap.alloc]

theorem Node.read_of_IsEmpty {h : Heap} {o : Node} (he : Node.IsEmpty h o = true)
    (k : List Char) : h.read o.options k = none := by
  unfold Node.IsEmpty at he
  unfold Heap.read
  cases hm : h[o.options]? with
  | none => rfl
  | some m =>
    rw [hm] at he
    simp only [beq_iff_eq, List.length_eq_zero] at he
    rw [he]
    rfl

theorem Node.IsEmpty_append_nil {h : Heap} {o : Node} (he : Node.IsEmpty h o = true) :
    Node.IsEmpty (h ++ [[]]) o = true := by
  unfold Node.IsEmpty at he ⊢
  by_cases hlt : o.options < h.length
  · rw [List.getElem?_append_left hlt]
    exact he
  · rw [List.getElem?_append_right (Nat.le_of_not_lt hlt)]
    cases o.options - h.length with
    | zero => rfl
    | succ n => rfl
/-! # The claims -/

/-! ## C1: well-formed records -/

/-- Counterexample to claim C1 as stated. First, one record whose key is `maxLen` letters
`k` and whose value is `v` satisfies the claim's conditions, yet `Parse` of its text panics
on the size check instead of returning. Second, the record with key `k` and the four value
bytes `c`, `a`, `f`, 0xE9, which hold none of `=`, `;` and backslash, has the text
`k=caf\xe9;`; `Parse` returns no error and stores under `k` the text `caf` followed by
U+FFFD, whose bytes differ from the value of the record. -/
theorem Parse_recordText_oversize :
    (PlainRecords [(List.replicate maxLen 'k', ['v'])] ∧
      ParseBytes New (recordBytes (encodeRecords [(List.replicate maxLen 'k', ['v'])]))
        = .error (.sizeLimit (maxLen + 3) maxLen)) ∧
    (recordBytes [([0x6B], [0x63, 0x61, 0x66, 0xE9])]
        = [0x6B, 0x3D, 0x63, 0x61, 0x66, 0xE9, 0x3B] ∧
      ParseBytes New (recordBytes [([0x6B], [0x63, 0x61, 0x66, 0xE9])])
        = .ok (⟨[], [(['k'], .str ['c', 'a', 'f', RuneError])]⟩, none) ∧
      utf8 ['c', 'a', 'f', RuneError] = [0x63, 0x61, 0x66, 0xEF, 0xBF, 0xBD] ∧
      utf8 ['c', 'a', 'f', RuneError] ≠ [0x63, 0x61, 0x66, 0xE9]) := by
  refine ⟨?_, rfl, rfl, by decide, by decide⟩
  have hk : ∀ c ∈ List.replicate maxLen 'k', plain c := by
    intro c hc
    rw [List.eq_of_mem_replicate hc]; decide
  have hps : PlainRecords [(List.replicate maxLen 'k', ['v'])] := by
    intro kv hkv
    rw [List.mem_singleton] at hkv
    subst hkv
    refine ⟨?_, by simp, hk, ?_⟩
    · intro h
      have := congrArg List.length h
      rw [List.length_replicate] at this
      exact absurd this (by decide)
    · intro c hc
      rw [List.mem_singleton] at hc
      subst hc; decide
  refine ⟨hps, ?_⟩
  have hesc : ESCAPE ∉ recordText [(List.replicate maxLen 'k', ['v'])] :=
    not_mem_recordText _ (fun kv hkv => ⟨(hps kv hkv).2.2.1, (hps kv hkv).2.2.2⟩)
  have hl : goLen (recordText [(List.replicate maxLen 'k', ['v'])]) = maxLen + 3 := by
    simp only [recordText, goLen_append, goLen_cons, goLen_nil,
      goLen_replicate maxLen 'k' (by decide)]
    have e1 : delimField.utf8Size = 1 := by decide
    have e2 : delimOpt.utf8Size = 1 := by decide
    have e3 : Char.utf8Size 'v' = 1 := by decide
    omega
  have := Parse_of_gt New (recordText [(List.replicate maxLen 'k', ['v'])])
    (by rw [rplLineEscape_of_not_mem _ hesc, hl]; omega)
  rw [rplLineEscape_of_not_mem _ hesc, hl] at this
  rw [recordBytes_encodeRecords, ParseBytes_utf8]
  exact this

/-- Claim C1, amended by the size limit and by well-formedness: for every sequence of
records whose keys and values are texts, that is well-formed UTF-8, non-empty and without
`=`, `;` and backslash, and whose text `k_1=v_1;...;k_n=v_n;` is at most `maxLen` bytes
long, `Parse` of the bytes of that text returns no error, whatever the node held before, and
leaves a mapping without repeated keys that binds every key to the string of the last record
with that key and binds nothing else. -/
theorem Parse_recordText (o : Options) (ps : List (List Char × List Char))
    (hps : PlainRecords ps) (hlen : (recordBytes (encodeRecords ps)).length ≤ maxLen) :
    ∃ o', ParseBytes o (recordBytes (encodeRecords ps)) = .ok (o', none) ∧
      o'.options.keys.Nodup ∧
      ∀ k, o'.options.get? k = (lastBinding ps k).map Value.str := by
  rw [recordBytes_encodeRecords, length_utf8] at hlen
  rw [recordBytes_encodeRecords, ParseBytes_utf8]
  have env : Env := ⟨fun _ => [], id, fun a _ => a, fun _ => none⟩
  have hr : recordText ps = renderEntries env (strEntries ps) :=
    recordText_eq_render env ps (fun kv hkv c hc =>
      ⟨((hps kv hkv).2.2.2 c hc).1, ((hps kv hkv).2.2.2 c hc).2.1⟩)
  have hesc : ESCAPE ∉ recordText ps :=
    not_mem_recordText ps (fun kv hkv => ⟨(hps kv hkv).2.2.1, (hps kv hkv).2.2.2⟩)
  have hread : ∀ e ∈ strEntries ps, Readable e := by
    intro e he
    obtain ⟨kv, hkv, rfl⟩ := List.mem_map.mp he
    obtain ⟨h1, h2, h3, h4⟩ := hps kv hkv
    exact ⟨⟨wellEscaped_of_no_esc _ (fun c hc => (h3 c hc).2.2), h1⟩,
      fun c hc => ⟨(h3 c hc).1, (h3 c hc).2.1⟩,
      kv.2, rfl, wellEscaped_of_no_esc _ (fun c hc => (h4 c hc).2.2), h2⟩
  have hP := Parse_renderEntries env o (strEntries ps) hread
    (by rw [← hr]; exact rplLineEscape_of_not_mem _ hesc) (by rw [← hr]; exact hlen)
  rw [← hr] at hP
  refine ⟨_, hP, GoMap.nodup_setAll _ List.nodup_nil, ?_⟩
  intro k
  show (GoMap.setAll [] (strEntries ps)).get? k = _
  rw [get?_setAll_strEntries]
  cases lastBinding ps k <;> rfl

/-- Witness for C1: the records `(key, value)`, `(pass, abcd123s)` have the text
`key=value;pass=abcd123s;`, which parses to the map of the two pairs. -/
theorem Parse_recordText_witness :
    recordBytes (encodeRecords
        [("key".toList, "value".toList), ("pass".toList, "abcd123s".toList)])
        = utf8 "key=value;pass=abcd123s;".toList ∧
      ∃ o', ParseBytes New (recordBytes (encodeRecords
          [("key".toList, "value".toList), ("pass".toList, "abcd123s".toList)]))
            = .ok (o', none) ∧
        o'.options.keys.Nodup ∧
        ∀ k, o'.options.get? k =
          (lastBinding [("key".toList, "value".toList), ("pass".toList, "abcd123s".toList)] k).map
            Value.str :=
  ⟨by decide,
    Parse_recordText New [("key".toList, "value".toList), ("pass".toList, "abcd123s".toList)]
      (by unfold PlainRecords; decide) (by decide)⟩

/-! ## C2: round trip through the text form -/

/-- Counterexample to claim C2 as stated. First, `a\=b=c;` uses no control-character escape
and parses to the node with the one key `a=b`; `String()` of that node is `a=b=c;`, because
keys are not escaped, and `Parse` of it returns an error. Second, `k=` followed by
`maxLen - 2` letters `a` uses no escape and parses; `String()` of the node appends the
terminator `;`, which makes the text `maxLen + 1` bytes long, and `Parse` of it panics. -/
theorem Parse_String_roundtrip_fails :
    (usesControlEscape inputEscapedKey = false ∧
      Parse New inputEscapedKey = .ok (⟨[], [("a=b".toList, .str ['c'])]⟩, none) ∧
      Options.String envNoFiles ⟨[], [("a=b".toList, .str ['c'])]⟩ = "a=b=c;".toList ∧
      Parse New "a=b=c;".toList = .ok (New, some (.unescaped '='))) ∧
    (usesControlEscape ('k' :: delimField :: List.replicate (maxLen - 3 + 1) 'a') = false ∧
      Parse New ('k' :: delimField :: List.replicate (maxLen - 3 + 1) 'a')
        = .ok (⟨[], [(['k'], .str (List.replicate (maxLen - 3 + 1) 'a'))]⟩, none) ∧
      Parse New (Options.String envNoFiles
          ⟨[], [(['k'], .str (List.replicate (maxLen - 3 + 1) 'a'))]⟩)
        = .error (.sizeLimit (maxLen + 1) maxLen)) := by
  refine ⟨⟨by decide, rfl, rfl, rfl⟩, ?_, Parse_key_replicate (maxLen - 3) (by decide), ?_⟩
  · apply usesControlEscape_of_not_mem
    simp only [List.mem_cons, not_or]
    exact ⟨by decide, by decide, fun h => absurd (List.eq_of_mem_replicate h) (by decide)⟩
  · have hnd : rplDelimiter (List.replicate (maxLen - 3 + 1) 'a')
        = List.replicate (maxLen - 3 + 1) 'a' :=
      rplDelimiter_of_no_delim _ (fun c hc => by rw [List.eq_of_mem_replicate hc]; decide)
    have e : Options.String envNoFiles
          ⟨[], [(['k'], .str (List.replicate (maxLen - 3 + 1) 'a'))]⟩
        = 'k' :: delimField :: (List.replicate (maxLen - 3 + 1) 'a' ++ [delimOpt]) := by
      unfold Options.String
      rw [renderEntries_cons_str, hnd]
      rfl
    rw [e]
    have hesc : ESCAPE ∉ 'k' :: delimField :: (List.replicate (maxLen - 3 + 1) 'a' ++ [delimOpt]) := by
      simp only [List.mem_cons, List.mem_append, List.mem_singleton, not_or]
      exact ⟨by decide, by decide,
        fun h => absurd (List.eq_of_mem_replicate h) (by decide), by decide⟩
    have hl : goLen ('k' :: delimField :: (List.replicate (maxLen - 3 + 1) 'a' ++ [delimOpt]))
        = maxLen + 1 := by
      rw [goLen_cons, goLen_cons, goLen_append, goLen_replicate _ 'a' (by decide)]
      have e1 : Char.utf8Size 'k' = 1 := by decide
      have e2 : delimField.utf8Size = 1 := by decide
      have e3 : goLen [delimOpt] = 1 := by decide
      have e4 : 3 ≤ maxLen := by decide
      omega
    have := Parse_of_gt New _ (by rw [rplLineEscape_of_not_mem _ hesc, hl]; omega)
    rw [rplLineEscape_of_not_mem _ hesc, hl] at this
    exact this

/-- Claim C2, amended: for every input `s` that uses no control-character escape and on
which `Parse` succeeds giving the node `N`, if no key of `N` contains `=` or `;` and the
text `N.String()`, for the order `es` in which the entries of `N` are rendered, is at most
`maxLen` bytes long, then `Parse` of that text succeeds too, whatever the receiving node
held, and yields a mapping that reads every key exactly as `N` does. -/
theorem Parse_String_roundtrip (env : Env) (o o2 N : Options) (s : List Char)
    (es : List (List Char × Value)) (hs : usesControlEscape s = false)
    (hparse : Parse o s = .ok (N, none))
    (hkeys : ∀ k ∈ N.options.keys, ∀ c ∈ k, c ≠ delimField ∧ c ≠ delimOpt)
    (hperm : es.Perm N.options)
    (hlen : goLen (Options.String env { N with options := es }) ≤ maxLen) :
    ∃ N', Parse o2 (Options.String env { N with options := es }) = .ok (N', none) ∧
      N'.options.keys.Nodup ∧ ∀ k, N'.options.get? k = N.options.get? k := by
  have hlc := hasLineCont_of_usesControlEscape s hs
  have hgood : GoodMap N.options := Parse_good hparse
  have hnl : NoLineContMap N.options := Parse_noLineCont hlc hparse
  have hread : ∀ e ∈ es, Readable e := by
    intro e he
    have hm : e ∈ N.options := hperm.mem_iff.mp he
    obtain ⟨hk, hv⟩ := hgood.1 e hm
    exact ⟨hk, hkeys e.1 (List.mem_map_of_mem Prod.fst hm), hv⟩
  have hnl' : NoLineContMap es := fun e he => hnl e (hperm.mem_iff.mp he)
  have hnd : (GoMap.keys es).Nodup := (hperm.map Prod.fst).nodup_iff.mpr hgood.2
  have hrl : rplLineEscape (renderEntries env es) = renderEntries env es :=
    rplLineEscape_of_noLineCont _ (hasLineCont_renderEntries env es hread hnl')
  have hP := Parse_renderEntries env o2 es hread hrl hlen
  refine ⟨_, hP, GoMap.nodup_setAll es List.nodup_nil, ?_⟩
  intro k
  show (GoMap.setAll [] es).get? k = _
  rw [GoMap.get?_setAll_of_nodup es k [] hnd, ← GoMap.get?_eq_of_perm hnd hperm k]
  cases GoMap.get? es k <;> rfl

/-- Witness for C2: `a=1;b=x\;y` parses to `{b: "x;y", a: "1"}`; rendered in the other
order, `String()` gives `a=1;b=x\;y;`, which parses to a mapping that reads alike. -/
theorem Parse_String_roundtrip_witness :
    Options.String envNoFiles
        ⟨[], [(['a'], .str ['1']), (['b'], .str "x;y".toList)]⟩
        = "a=1;b=x".toList ++ ESCAPE :: ";y;".toList ∧
      ∃ N', Parse New (Options.String envNoFiles
            { (⟨[], [(['b'], .str "x;y".toList), (['a'], .str ['1'])]⟩ : Options) with
              options := [(['a'], .str ['1']), (['b'], .str "x;y".toList)] })
          = .ok (N', none) ∧
        N'.options.keys.Nodup ∧
        ∀ k, N'.options.get? k
          = (⟨[], [(['b'], .str "x;y".toList), (['a'], .str ['1'])]⟩ : Options).options.get? k :=
  ⟨rfl,
    Parse_String_roundtrip envNoFiles New New
      ⟨[], [(['b'], .str "x;y".toList), (['a'], .str ['1'])]⟩ inputTwoRecords
      [(['a'], .str ['1']), (['b'], .str "x;y".toList)]
      (by decide) rfl (by decide) (List.Perm.swap _ _ []) (by decide)⟩

/-! ## C3: error atomicity -/

/-- Claim C3 (error atomicity of `Parse`): for every input and every prior content of the
node, if `Parse` returns an error then the node's mapping is empty afterwards and `IsEmpty`
is true. -/
theorem Parse_error_atomic (o o' : Options) (p : List Char) (e : ParseError)
    (h : Parse o p = .ok (o', some e)) : o'.options = [] ∧ o'.IsEmpty = true := by
  unfold Parse at h
  simp only at h
  split_ifs at h
  split at h
  · cases h
  · rename_i s _
    simp only [Except.ok.injEq] at h
    unfold finish at h
    split at h
    · cases h; exact ⟨rfl, rfl⟩
    · split_ifs at h <;> cases h

/-- Witness for C3: a node holding `old=1` parses `a=b;;`; the first record is read, the
second `;` is an error, and nothing survives. -/
theorem Parse_error_atomic_witness :
    Parse ⟨[], [("old".toList, .str "1".toList)]⟩ "a=b;;".toList
        = .ok (⟨[], []⟩, some (.unescaped ';')) ∧
      ((⟨[], []⟩ : Options).options = [] ∧ (⟨[], []⟩ : Options).IsEmpty = true) :=
  ⟨rfl, Parse_error_atomic ⟨[], [("old".toList, .str "1".toList)]⟩ ⟨[], []⟩ "a=b;;".toList
    (.unescaped ';') rfl⟩

/-! ## C4: an escaped semicolon is not an error -/

/-- Counterexample to claim C4 as stated: on `key=value;pass=abc\;wrong` the call returns no
error, and the mapping afterwards holds two entries. -/
theorem Parse_inputEscapedSemicolon_not_error :
    Parse New inputEscapedSemicolon
        = .ok (⟨[], [("pass".toList, .str "abc;wrong".toList),
                     ("key".toList, .str "value".toList)]⟩, none) ∧
      ¬ ∃ o' e, Parse New inputEscapedSemicolon = .ok (o', some e) := by
  refine ⟨rfl, ?_⟩
  rintro ⟨o', e, h⟩
  have h2 : Parse New inputEscapedSemicolon
        = .ok (⟨[], [("pass".toList, .str "abc;wrong".toList),
                     ("key".toList, .str "value".toList)]⟩, none) := rfl
  rw [h2] at h
  cases h

/-- Claim C4, amended: whatever the node held, `Parse` of `key=value;pass=abc\;wrong`
returns no error; the backslash escapes the semicolon, and afterwards the mapping has
exactly the keys `key` and `pass`, bound to `value` and to `abc;wrong`. -/
theorem Parse_inputEscapedSemicolon (o : Options) :
    ∃ o', Parse o inputEscapedSemicolon = .ok (o', none) ∧
      o'.options.keys.Perm ["key".toList, "pass".toList] ∧
      o'.options.get? "key".toList = some (.str "value".toList) ∧
      o'.options.get? "pass".toList = some (.str "abc;wrong".toList) :=
  ⟨{ o with options := [("pass".toList, .str "abc;wrong".toList),
                         ("key".toList, .str "value".toList)] },
    rfl, (by show List.Perm ["pass".toList, "key".toList] _; decide), rfl, rfl⟩

/-! ## C5: the escape example -/

/-- Claim C5: whatever the node held, `Parse` of
`key=value;pass=abcd123s\;\ntest;kv=invalid` returns no error; afterwards the node has
exactly the keys `key`, `pass` and `kv`, and `GetString` returns `value` for `key`,
`abcd123s;` followed by a line feed and `test` for `pass`, and `invalid` for `kv`. -/
theorem Parse_inputEscapes (env : Env) (o : Options) (d : List Char) :
    ∃ o', Parse o inputEscapes = .ok (o', none) ∧
      o'.options.keys.Perm ["key".toList, "pass".toList, "kv".toList] ∧
      o'.GetString env "key".toList d = "value".toList ∧
      o'.GetString env "pass".toList d = "abcd123s;".toList ++ LF :: "test".toList ∧
      o'.GetString env "kv".toList d = "invalid".toList :=
  ⟨{ o with options := [("kv".toList, .str "invalid".toList),
                         ("pass".toList, .str ("abcd123s;".toList ++ ESCAPE :: "ntest".toList)),
                         ("key".toList, .str "value".toList)] },
    rfl, (by show List.Perm ["kv".toList, "pass".toList, "key".toList] _; decide),
    rfl, rfl, rfl⟩

/-! ## C6: unescaped delimiters in the wrong state -/

/-- Counterexample to claim C6 as stated: an input that starts with `;` and is longer than
`maxLen` makes `Parse` panic on the size check; no error is returned. -/
theorem Parse_leading_semicolon_oversize :
    Parse New (delimOpt :: List.replicate maxLen 'a')
      = .error (.sizeLimit (maxLen + 1) maxLen) := by
  have hesc : ESCAPE ∉ delimOpt :: List.replicate maxLen 'a' := by
    simp only [List.mem_cons, not_or]
    exact ⟨by decide, fun h => absurd (List.eq_of_mem_replicate h) (by decide)⟩
  have hl : goLen (delimOpt :: List.replicate maxLen 'a') = maxLen + 1 := by
    rw [goLen_cons, goLen_replicate maxLen 'a' (by decide)]
    have e2 : delimOpt.utf8Size = 1 := by decide
    omega
  have := Parse_of_gt New (delimOpt :: List.replicate maxLen 'a')
    (by rw [rplLineEscape_of_not_mem _ hesc, hl]; omega)
  rw [rplLineEscape_of_not_mem _ hesc, hl] at this
  exact this

/-- Claim C6, amended by the size limit: for every input that, after the removal of line
continuations, is at most `maxLen` bytes long, if the loop has read a prefix without error
and then meets an unescaped `;` while it accumulates a key, or an unescaped `=` while it
accumulates a value, `Parse` returns the error "unescaped character" and leaves the mapping
empty. -/
theorem Parse_unescaped_delimiter (o : Options) (p pre post : List Char) (ch : Char)
    (s : LoopState) (hlen : goLen (rplLineEscape p) ≤ maxLen)
    (hsplit : rplLineEscape p = pre ++ ch :: post)
    (hpre : parseLoop (goLen (rplLineEscape p)) initState pre = some s) (hok : s.err = none)
    (hne : s.lastCh ≠ ESCAPE)
    (hcase : (s.state = waitfieldDelim ∧ ch = delimOpt) ∨
      (s.state = waitoptDelim ∧ ch = delimField)) :
    Parse o p = .ok ({ o with options := [] }, some (.unescaped ch)) := by
  rcases hcase with ⟨h0, rfl⟩ | ⟨h0, rfl⟩
  · rw [Parse_of_break o p pre post _ s _ hlen hsplit hpre hok (stepU_field_opt s h0 hne)]
    rfl
  · rw [Parse_of_break o p pre post _ s _ hlen hsplit hpre hok (stepU_value_field s h0 hne)]
    rfl

/-- Witness for C6: in `a=b=c` the second `=` is met while the value of `a` is accumulated;
in `a=b;;` the second `;` is met while a key is accumulated, after one well-formed record. -/
theorem Parse_unescaped_delimiter_witness :
    Parse New "a=b=c".toList = .ok ({ New with options := [] }, some (.unescaped '=')) ∧
      Parse New "a=b;;".toList = .ok ({ New with options := [] }, some (.unescaped ';')) :=
  ⟨Parse_unescaped_delimiter New "a=b=c".toList "a=b".toList "c".toList '='
      { state := waitoptDelim, key := "a".toList, lastCh := 'b', rbuf := "b".toList,
        options := [], err := none }
      (by decide) (by decide) rfl rfl (by decide) (Or.inr ⟨rfl, rfl⟩),
    Parse_unescaped_delimiter New "a=b;;".toList "a=b;".toList [] ';'
      { state := waitfieldDelim, key := [], lastCh := ';', rbuf := [],
        options := [("a".toList, .str "b".toList)], err := none }
      (by decide) (by decide) rfl rfl (by decide) (Or.inl ⟨rfl, rfl⟩)⟩

/-! ## C7: empty fields -/

/-- Counterexample to claim C7 as stated: an input that starts with `=` and is longer than
`maxLen` makes `Parse` panic on the size check; no error is returned. -/
theorem Parse_leading_equals_oversize :
    Parse New (delimField :: List.replicate maxLen 'a')
      = .error (.sizeLimit (maxLen + 1) maxLen) := by
  have hesc : ESCAPE ∉ delimField :: List.replicate maxLen 'a' := by
    simp only [List.mem_cons, not_or]
    exact ⟨by decide, fun h => absurd (List.eq_of_mem_replicate h) (by decide)⟩
  have hl : goLen (delimField :: List.replicate maxLen 'a') = maxLen + 1 := by
    rw [goLen_cons, goLen_replicate maxLen 'a' (by decide)]
    have e2 : delimField.utf8Size = 1 := by decide
    omega
  have := Parse_of_gt New (delimField :: List.replicate maxLen 'a')
    (by rw [rplLineEscape_of_not_mem _ hesc, hl]; omega)
  rw [rplLineEscape_of_not_mem _ hesc, hl] at this
  exact this

/-- Claim C7, amended by the size limit: for every input that, after the removal of line
continuations, is at most `maxLen` bytes long, if the loop has read a prefix without error
and then meets an unescaped `=` with nothing accumulated for the key, or an unescaped `;`
with nothing accumulated for the value, `Parse` returns an error (empty key, or empty value
for the current key) and leaves the mapping empty. -/
theorem Parse_empty_field (o : Options) (p pre post : List Char) (ch : Char)
    (s : LoopState) (hlen : goLen (rplLineEscape p) ≤ maxLen)
    (hsplit : rplLineEscape p = pre ++ ch :: post)
    (hpre : parseLoop (goLen (rplLineEscape p)) initState pre = some s) (hok : s.err = none)
    (hne : s.lastCh ≠ ESCAPE) (hbuf : s.rbuf = [])
    (hcase : (s.state = waitfieldDelim ∧ ch = delimField) ∨
      (s.state = waitoptDelim ∧ ch = delimOpt)) :
    Parse o p = .ok ({ o with options := [] },
      some (if ch = delimField then .emptyKey else .emptyValue s.key)) := by
  rcases hcase with ⟨h0, rfl⟩ | ⟨h0, rfl⟩
  · have hb := stepU_field_field s h0 hne
    rw [if_pos hbuf] at hb
    rw [Parse_of_break o p pre post _ s _ hlen hsplit hpre hok hb]
    rfl
  · have hb := stepU_value_opt s h0 hne
    rw [if_pos hbuf] at hb
    rw [Parse_of_break o p pre post _ s _ hlen hsplit hpre hok hb]
    rfl

/-- Witness for C7: in `a=b;=c` the second `=` is met with no key accumulated, and in
`a=;x` the `;` is met with no value accumulated for `a`. -/
theorem Parse_empty_field_witness :
    Parse New "a=b;=c".toList = .ok ({ New with options := [] }, some .emptyKey) ∧
      Parse New "a=;x".toList = .ok ({ New with options := [] }, some (.emptyValue "a".toList)) :=
  ⟨Parse_empty_field New "a=b;=c".toList "a=b;".toList "c".toList '='
      { state := waitfieldDelim, key := [], lastCh := ';', rbuf := [],
        options := [("a".toList, .str "b".toList)], err := none }
      (by decide) (by decide) rfl rfl (by decide) rfl (Or.inl ⟨rfl, rfl⟩),
    Parse_empty_field New "a=;x".toList "a=".toList "x".toList ';'
      { state := waitoptDelim, key := "a".toList, lastCh := '=', rbuf := [],
        options := [], err := none }
      (by decide) (by decide) rfl rfl (by decide) rfl (Or.inr ⟨rfl, rfl⟩)⟩

/-! ## C8: the final unterminated record -/

/-- Counterexample to claim C8 as stated: `Parse` reads `k=` to its end without error and
ends in the value state with the key `k` captured, yet it returns a mapping that does not
bind `k`, because nothing was accumulated for the value. -/
theorem Parse_final_record_empty_value :
    parseLoop (goLen (rplLineEscape "k=".toList)) initState (rplLineEscape "k=".toList)
        = some { state := waitoptDelim, key := "k".toList, lastCh := '=', rbuf := [],
                 options := [], err := none } ∧
      Parse New "k=".toList = .ok (New, none) ∧
      New.options.get? "k".toList = none :=
  ⟨rfl, rfl, rfl⟩

/-- Claim C8, amended: for every input that `Parse` reads to its end without error and that
ends in the value state with a non-empty accumulated value, `Parse` returns no error and
the resulting mapping binds the captured key to the accumulated value text. -/
theorem Parse_final_record (o : Options) (p : List Char) (s : LoopState)
    (hlen : goLen (rplLineEscape p) ≤ maxLen)
    (hscan : parseLoop (goLen (rplLineEscape p)) initState (rplLineEscape p) = some s)
    (herr : s.err = none) (hst : s.state = waitoptDelim) (hval : s.rbuf ≠ []) :
    ∃ o', Parse o p = .ok (o', none) ∧ o'.options.get? s.key = some (.str s.rbuf) := by
  have hs := Parse_scan_eq_run hscan
  have hI : Inv s := by
    rw [hs] at herr ⊢
    exact Inv_run _ Inv_initState herr
  have hkey : 0 < goLen s.key := goLen_pos.mpr (hI.key hst).2
  refine ⟨{ o with options := s.options.set s.key (.str s.rbuf) }, ?_, ?_⟩
  · rw [Parse_of_le o p hlen, ← hs]
    unfold finish
    rw [herr]
    simp only
    rw [if_pos ⟨List.length_pos.mpr hval, hst, hkey⟩]
  · simp [GoMap.get?_set]

/-- Witness for C8: `key=value;pass=abcd123s;kv=xxxx` ends in the value state with key `kv`
and accumulated value `xxxx`. -/
theorem Parse_final_record_witness :
    ∃ o', Parse New "key=value;pass=abcd123s;kv=xxxx".toList = .ok (o', none) ∧
      o'.options.get? "kv".toList = some (.str "xxxx".toList) :=
  Parse_final_record New "key=value;pass=abcd123s;kv=xxxx".toList
    { state := waitoptDelim, key := "kv".toList, lastCh := 'x', rbuf := "xxxx".toList,
      options := [("pass".toList, .str "abcd123s".toList), ("key".toList, .str "value".toList)],
      err := none }
    (by decide) rfl rfl rfl (by decide)

/-! ## C9: size limits -/

/-- Counterexample to claim C9 as stated. First, an input longer than `maxLen` that shrinks
to `maxLen` bytes when its line continuation is removed does not make `Parse` panic.
Second, a value longer than `maxKVLen` in an input within `maxLen` does not make `Parse`
panic either: it is stored. -/
theorem Parse_size_limits_not_fatal :
    (maxLen < goLen (List.replicate maxLen 'a' ++ [ESCAPE, LF]) ∧
      Parse New (List.replicate maxLen 'a' ++ [ESCAPE, LF]) = .ok (New, none)) ∧
    (maxKVLen < goLen (List.replicate (maxKVLen + 1) 'a') ∧
      Parse New ('k' :: delimField :: List.replicate (maxKVLen + 1) 'a')
        = .ok (⟨[], [(['k'], .str (List.replicate (maxKVLen + 1) 'a'))]⟩, none)) := by
  have hrep : ∀ n, ESCAPE ∉ List.replicate n 'a' :=
    fun n h => absurd (List.eq_of_mem_replicate h) (by decide)
  have hwf : ∀ n, wellEscaped (List.replicate n 'a') = true :=
    fun n => wellEscaped_of_no_esc _ (fun c hc => by rw [List.eq_of_mem_replicate hc]; decide)
  have hnd : ∀ n, rplDelimiter (List.replicate n 'a') = List.replicate n 'a' :=
    fun n => rplDelimiter_of_no_delim _
      (fun c hc => by rw [List.eq_of_mem_replicate hc]; decide)
  refine ⟨⟨?_, ?_⟩, ?_, ?_⟩
  · rw [goLen_append, goLen_replicate maxLen 'a' (by decide)]
    have : goLen [ESCAPE, LF] = 2 := by decide
    omega
  · have e1 : rplLineEscape (List.replicate maxLen 'a' ++ [ESCAPE, LF])
        = List.replicate maxLen 'a' := by
      rw [rplLineEscape_append_of_not_mem _ _ (hrep maxLen)]
      have : rplLineEscape [ESCAPE, LF] = [] := by decide
      rw [this, List.append_nil]
    rw [Parse_of_le New _ (by rw [e1, goLen_replicate maxLen 'a' (by decide)]), e1]
    obtain ⟨c, _, e⟩ := run_raw (List.replicate maxLen 'a') initState [] (hwf maxLen)
      (Or.inl rfl) (show CR ≠ ESCAPE by decide)
    rw [hnd, List.append_nil] at e
    rw [e]
    simp [finish, run_nil, initState, waitfieldDelim, waitoptDelim, New]
  · rw [goLen_replicate _ 'a' (by decide)]; omega
  · exact Parse_key_replicate maxKVLen (by decide)

/-- Claim C9, amended: `Parse` ends in a panic, and not in a returned error or a success,
exactly when the input is longer than `maxLen` bytes after the removal of line
continuations; the length of a single key or value plays no part in it. -/
theorem Parse_panics_iff (o : Options) (p : List Char) :
    (∃ f, Parse o p = .error f) ↔ maxLen < goLen (rplLineEscape p) := by
  constructor
  · rintro ⟨f, hf⟩
    by_contra hle
    rw [Parse_of_le o p (Nat.le_of_not_lt hle)] at hf
    cases hf
  · intro h
    exact ⟨_, Parse_of_gt o p h⟩

/-! ## C10: dotted-path equivalence -/

/-- Claim C10 (dotted-path equivalence): for every tree `T` and all keys `a` and `b`, deferred
`@` file references aside (the value at `a` is not resolved as a file reference), the typed
read `T.Get(a).GetString(b, d)` equals `T.GetString(a + "." + b, d)` for every default `d`;
and when the value at the end of the path is not resolved as a file reference either,
`T.Get(a).Get(b)` and `T.Get(a + "." + b)` are nodes over the same mapping. -/
theorem Get_dotted_path (env : Env) (T : Options) (a b : List Char)
    (h1 : T.deferredAt env a = none) :
    (∀ d, (T.Get env a).GetString env b d = T.GetString env (a ++ '.' :: b) d) ∧
      ((T.Get env a).deferredAt env b = none → T.deferredAt env (a ++ '.' :: b) = none →
        (T.Get env a).Get env b = T.Get env (a ++ '.' :: b)) := by
  have hl := look_append (splitDot a) (splitDot b) (splitDot_ne_nil a) (splitDot_ne_nil b)
    T.options
  unfold Options.deferredAt at h1
  rw [GetObject_eq_look] at h1
  have hG := Get_eq env T a
  have hS : ∀ d, T.GetString env (a ++ '.' :: b) d =
      match look T.options (splitDot a ++ splitDot b) with
      | none => d
      | some val => asText env val := fun d => by rw [GetString_eq, splitDot_append]
  have hD : T.deferredAt env (a ++ '.' :: b) =
      match look T.options (splitDot a ++ splitDot b) with
      | none => none
      | some val => T.deferred env val := by
    unfold Options.deferredAt
    rw [GetObject_eq_look, splitDot_append]
  have hGab := Get_eq env T (a ++ '.' :: b)
  rw [splitDot_append] at hGab
  cases hv : look T.options (splitDot a) with
  | none =>
    rw [hv] at hG hl
    simp only at hG hl
    rw [hG]
    refine ⟨fun d => ?_, fun _ _ => ?_⟩
    · rw [GetString_New, hS, hl]
    · rw [Get_New, hGab, hl]
  | some v =>
    rw [hv] at hG hl h1
    simp only at hG hl h1
    rw [h1] at hG
    simp only at hG
    cases v with
    | map m' =>
      simp only at hG hl
      rw [hG]
      refine ⟨fun d => ?_, fun h2 h3 => ?_⟩
      · rw [GetString_eq, hS, hl]
      · unfold Options.deferredAt at h2
        rw [GetObject_eq_look] at h2
        rw [hD, hl] at h3
        rw [Get_eq, hGab, hl]
        cases hw : look m' (splitDot b) with
        | none => rfl
        | some w =>
          rw [hw] at h2 h3
          simp only at h2 h3
          simp only [hw, h2, h3]
    | _ =>
      simp only at hG hl
      rw [hG]
      refine ⟨fun d => ?_, fun _ _ => ?_⟩
      · rw [GetString_New, hS, hl]
      · rw [Get_New, hGab, hl]

/-- Witness for C10 on the tree `{a: {b: {c: "1"}}, s: "text"}`: `Get("a").Get("b")` and
`Get("a.b")` are both the node over `{c: "1"}`, and `Get("a.b").GetString("c", d)` is
`GetString("a.b.c", d)`. -/
theorem Get_dotted_path_witness :
    ((sampleTree.Get envNoFiles ['a']).Get envNoFiles ['b']
        = sampleTree.Get envNoFiles "a.b".toList) ∧
      (∀ d, (sampleTree.Get envNoFiles "a.b".toList).GetString envNoFiles ['c'] d
        = sampleTree.GetString envNoFiles "a.b.c".toList d) :=
  ⟨(Get_dotted_path envNoFiles sampleTree ['a'] ['b'] rfl).2 rfl rfl,
    (Get_dotted_path envNoFiles sampleTree "a.b".toList ['c'] rfl).1⟩

/-! ## C11: reads create nothing -/

/-- Counterexample to claim C11 as stated: in the tree `{r: "@inc.hjson"}` the value at `r`
is a string, not a container, yet where the file that it names loads, `Get("r")` returns the
loaded node, which is not empty. -/
theorem Get_deferred_not_empty :
    (Node.GetObject refHeap rootNode ['r']).2 = some (.str "@inc.hjson".toList) ∧
      Node.Get heapEnvOneFile refHeap rootNode ['r']
        = (refHeap ++ [[(['x'], .str ['1'])]],
            { filePath := "inc.hjson".toList, options := 1 }) ∧
      Node.IsEmpty (Node.Get heapEnvOneFile refHeap rootNode ['r']).1
        (Node.Get heapEnvOneFile refHeap rootNode ['r']).2 = false :=
  ⟨rfl, rfl, rfl⟩

/-- Claim C11, amended: the three reads return for every tree `T` and every path `p`, and
the maps after `Get(p)`, after `Exists(p)` and after `GetObject(p)` are the maps before the
call, each unchanged, followed by the maps that the call made; `Get(p)` returns a new empty
node whenever some item of `p` is absent or the value at an item is not a container, unless
the value at `p` itself is a string starting with `@` whose file loads, and then `Get(p)`
returns the loaded node; and on an empty tree `Get("x.y.z")` returns a new empty node and
the tree is still empty. -/
theorem Get_reads_only (env : HeapEnv) (h : Heap) (o : Node) (p : List Char) :
    (h <+: (Node.Get env h o p).1 ∧ h <+: (Node.Exists h o p).1 ∧
        h <+: (Node.GetObject h o p).1) ∧
      (∀ pre suf, splitDot p = pre ++ suf → pre ≠ [] →
        (∀ m, h.look o.options pre ≠ some (.map m)) →
        (∀ vstr, (Node.GetObject h o p).2 = some (.str vstr) → vstr.head? = some '@' →
          env.fromFile (o.getPath env vstr) (Node.GetObject h o p).1.length = none) →
          Node.Get env h o p = Node.New (Node.GetObject h o p).1 ∧
            Node.IsEmpty (Node.Get env h o p).1 (Node.Get env h o p).2 = true) ∧
      (∀ vstr objs loaded, (Node.GetObject h o p).2 = some (.str vstr) →
        vstr.head? = some '@' →
        env.fromFile (o.getPath env vstr) (Node.GetObject h o p).1.length
          = some (objs, loaded) →
          Node.Get env h o p = ((Node.GetObject h o p).1 ++ objs, loaded)) ∧
      (Node.IsEmpty h o = true →
        Node.Get env h o "x.y.z".toList = Node.New (h ++ [[]]) ∧
          Node.IsEmpty (Node.Get env h o "x.y.z".toList).1
            (Node.Get env h o "x.y.z".toList).2 = true ∧
          Node.IsEmpty (Node.Get env h o "x.y.z".toList).1 o = true) := by
  refine ⟨⟨Node.Get_prefix env h o p, Node.getContainer_prefix h o p,
    Node.getContainer_prefix h o p⟩, ?_, ?_, ?_⟩
  · intro pre suf hsplit hpre hnm hdef
    have hG : Node.Get env h o p = Node.New (Node.GetObject h o p).1 := by
      rw [Node.Get_cases]
      have hlook := Node.GetObject_look h o p
      cases hv : (Node.GetObject h o p).2 with
      | none => rfl
      | some v =>
        have hsuf : suf = [] := by
          by_contra hne
          rw [hlook, hsplit, Heap.look_below_value h pre o.options suf hpre hne hnm] at hv
          cases hv
        rw [hsuf, List.append_nil] at hsplit
        rw [hlook, hsplit] at hv
        cases v with
        | map m => exact absurd hv (hnm m)
        | str vstr =>
          have hd : o.deferred env (Node.GetObject h o p).1 (.str vstr) = none := by
            simp only [Node.deferred]
            by_cases hat : vstr.head? = some '@'
            · rw [if_pos hat, hdef vstr (by rw [hlook, hsplit, hv]) hat]
            · rw [if_neg hat]
          simp only [hd]
        | scalar n => rfl
        | null => rfl
    exact ⟨hG, by rw [hG]; exact Node.IsEmpty_New _⟩
  · intro vstr objs loaded hv hat hf
    rw [Node.Get_cases, hv]
    simp only [Node.deferred, if_pos hat, hf]
  · intro he
    have h1 : (Node.GetObject h o "x.y.z".toList).1 = h ++ [[]] := by
      rw [Node.GetObject_heap, Node.getContainer_heap]
      rfl
    have h2 : (Node.GetObject h o "x.y.z".toList).2 = none := by
      rw [Node.GetObject_look]
      exact Heap.look_of_empty h o.options (Node.read_of_IsEmpty he) _
    have hG : Node.Get env h o "x.y.z".toList = Node.New (h ++ [[]]) := by
      rw [Node.Get_cases, h2, h1]
    refine ⟨hG, by rw [hG]; exact Node.IsEmpty_New _, ?_⟩
    rw [hG]
    exact Node.IsEmpty_append_nil (Node.IsEmpty_append_nil he)

/-- Witness for C11: in `{a: {b: {c: "1"}}, s: "text"}` the value at `s` is a string, so
`Get("s.x")` is a new empty node; in `{r: "@inc.hjson"}`, where the file loads, `Get("r")`
is the loaded node; and in the empty tree `Get("x.y.z")` is a new empty node and the tree is
still empty. -/
theorem Get_reads_only_witness :
    (Node.Get heapEnvNoFiles sampleHeap rootNode "s.x".toList
          = Node.New (Node.GetObject sampleHeap rootNode "s.x".toList).1 ∧
        Node.IsEmpty (Node.Get heapEnvNoFiles sampleHeap rootNode "s.x".toList).1
          (Node.Get heapEnvNoFiles sampleHeap rootNode "s.x".toList).2 = true) ∧
      Node.Get heapEnvOneFile refHeap rootNode ['r']
        = ((Node.GetObject refHeap rootNode ['r']).1 ++ [[(['x'], .str ['1'])]],
            { filePath := "inc.hjson".toList, options := 1 }) ∧
      (Node.Get heapEnvNoFiles [[]] rootNode "x.y.z".toList = Node.New ([[]] ++ [[]]) ∧
        Node.IsEmpty (Node.Get heapEnvNoFiles [[]] rootNode "x.y.z".toList).1
          (Node.Get heapEnvNoFiles [[]] rootNode "x.y.z".toList).2 = true ∧
        Node.IsEmpty (Node.Get heapEnvNoFiles [[]] rootNode "x.y.z".toList).1 rootNode
          = true) :=
  ⟨(Get_reads_only heapEnvNoFiles sampleHeap rootNode "s.x".toList).2.1 [['s']] [['x']] rfl
      (by simp) (fun m hm => by cases hm) (fun _ _ _ => rfl),
    (Get_reads_only heapEnvOneFile refHeap rootNode ['r']).2.2.1 "@inc.hjson".toList
      [[(['x'], .str ['1'])]] { filePath := "inc.hjson".toList, options := 1 } rfl rfl rfl,
    (Get_reads_only heapEnvNoFiles [[]] rootNode "x.y.z".toList).2.2.2 rfl⟩

/-! ## C12: write then read -/

/-- Claim C12, at the input where the code fails it: in `{a: {b: {c: "1"}}, s: "text"}` the
prefix `s` of the path `s.x` holds a string; `Set("s.x", "v")` does not replace it by a
container and write the leaf, it panics on the write into a nil map. -/
theorem Set_through_string_panics :
    sampleTree.GetObject ['s'] = some (.str "text".toList) ∧
      sampleTree.Set "s.x".toList (.str ['v']) = .error .nilMapWrite :=
  ⟨rfl, rfl⟩

/-! ## C13: the previous value -/

/-- Counterexample to claim C13 as stated: in the tree `{a: nil}` the path `a` exists, and
`Set("a", "1")` returns nil all the same, because the value stored before was nil. -/
theorem Set_returns_nil_for_stored_nil :
    nullTree.Exists ['a'] = true ∧
      nullTree.Set ['a'] (.str ['1'])
        = .ok (⟨[], [(['a'], .str ['1'])]⟩, .null) :=
  ⟨rfl, rfl⟩

/-- Claim C13, amended: for every tree, path `p` and value `v` on which `Set(p, v)`
completes, the result is the value that was stored at `p` immediately before the call when
`p` existed, and it is nil if and only if `p` did not exist before the call or the value
stored at `p` was nil. -/
theorem Set_returns_previous (T T' : Options) (p : List Char) (v r : Value)
    (h : T.Set p v = .ok (T', r)) :
    (∀ ov, T.GetObject p = some ov → r = ov) ∧
      (r = .null ↔ T.GetObject p = none ∨ T.GetObject p = some .null) := by
  have hr := (Set_written h).2
  rw [GetObject_eq_look]
  cases hv : look T.options (splitDot p) with
  | none =>
    rw [hv] at hr
    exact ⟨fun ov h' => (by cases h'), fun _ => Or.inl rfl, fun _ => hr⟩
  | some ov =>
    rw [hv] at hr
    simp only at hr
    subst hr
    refine ⟨fun ov' h' => (Option.some.inj h').symm ▸ rfl, ?_, ?_⟩
    · intro h'; exact Or.inr (by rw [h'])
    · rintro (h' | h')
      · cases h'
      · exact Option.some.inj h'

/-- Witness for C13, after the test of the source: in `{log: {file: {name: ...}}}` the first
write of `log.http` returns nil, and the write of `log.file.name` returns the old name. -/
theorem Set_returns_previous_witness :
    ((∀ ov, logTree.GetObject "log.http".toList = some ov → Value.null = ov) ∧
        (Value.null = Value.null ↔ logTree.GetObject "log.http".toList = none ∨
          logTree.GetObject "log.http".toList = some .null)) ∧
      ((∀ ov, logTree.GetObject "log.file.name".toList = some ov →
          Value.str "./applog.log".toList = ov) ∧
        (Value.str "./applog.log".toList = Value.null ↔
          logTree.GetObject "log.file.name".toList = none ∨
            logTree.GetObject "log.file.name".toList = some .null)) :=
  ⟨Set_returns_previous logTree _ "log.http".toList (.str "http://google.com".toList) .null rfl,
    Set_returns_previous logTree _ "log.file.name".toList (.str "newlog.txt".toList)
      (.str "./applog.log".toList) rfl⟩

/-! ## C14: typed getters and their default -/

/-- Counterexample to claim C14 as stated: in the tree `{u: uint64(18446744073709551615)}`
the value is present and its textual rendering `18446744073709551615` does not parse as an
`int64`, yet `GetInt64("u", 5)` is not the default: the type switch converts the number, which
gives `-1`. -/
theorem GetInt64_converts_without_parsing :
    uintTree.GetObject ['u'] = some (.num .uint64 18446744073709551615) ∧
      asText envStd (.num .uint64 18446744073709551615) = "18446744073709551615".toList ∧
      convStd.parseInt (asText envStd (.num .uint64 18446744073709551615)) = none ∧
      uintTree.GetInt64 envStd convStd ['u'] 5 = -1 := by
  refine ⟨rfl, by decide, by decide, by decide⟩

/-- Claim C14, amended: for every tree, key and default `d`, `GetString`, `GetInt`,
`GetInt64`, `GetBool` and `GetDuration` return `d` when the key path is absent; `GetInt` and
`GetInt64`, for a value that is present and not of a numeric type, and `GetBool`, for a
value that is present and not a `bool`, return `d` when the textual rendering of the value
does not parse as the requested type and the parsed value when it does; in particular
`GetInt64` of a string without backslash that parses as the `int64` `i` is `i`. -/
theorem typed_getters_default (env : Env) (conv : Conv) (T : Options) (key : List Char) :
    (T.GetObject key = none →
      (∀ d, T.GetString env key d = d) ∧ (∀ d, T.GetInt env conv key d = d) ∧
        (∀ d, T.GetInt64 env conv key d = d) ∧ (∀ d, T.GetBool env conv key d = d) ∧
        (∀ d, T.GetDuration env conv key d = d)) ∧
    (∀ v, T.GetObject key = some v → isNumber v = false →
      (conv.atoi (asText env v) = none → ∀ d, T.GetInt env conv key d = d) ∧
        (∀ i, conv.atoi (asText env v) = some i → ∀ d, T.GetInt env conv key d = i) ∧
        (conv.parseInt (asText env v) = none → ∀ d, T.GetInt64 env conv key d = d) ∧
        (∀ i, conv.parseInt (asText env v) = some i → ∀ d, T.GetInt64 env conv key d = i)) ∧
    (∀ v, T.GetObject key = some v → isBool v = false →
      (conv.parseBool (asText env v) = none → ∀ d, T.GetBool env conv key d = d) ∧
        (∀ b, conv.parseBool (asText env v) = some b → ∀ d, T.GetBool env conv key d = b)) ∧
    (∀ s i, T.GetObject key = some (.str s) → ESCAPE ∉ s → conv.parseInt s = some i →
      ∀ d, T.GetInt64 env conv key d = i) := by
  simp only [GetObject_eq_look, GetString_eq, GetInt_eq, GetInt64_eq, GetBool_eq,
    GetDuration_eq]
  refine ⟨?_, ?_, ?_, ?_⟩
  · intro h
    simp only [h, implies_true, and_self]
  · intro v hv hn
    rw [hv]
    cases v <;> simp_all [isNumber]
  · intro v hv hn
    rw [hv]
    cases v <;> simp_all [isBool]
  · intro s i hv hs hp d
    rw [hv]
    simp only [asText, rplEscape_of_not_mem s hs, hp]

/-- Witness for C14, on `{vStr: "Ini string", vNum: "456789", vBool: "true"}` with decimal
parsing: `GetInt("vStr", 20)` is `20`, `GetInt64("vNum", 0)` is `456789`, and
`GetInt64("missing", 7)` is `7`. -/
theorem typed_getters_default_witness :
    textTree.GetInt envStd convStd "vStr".toList 20 = 20 ∧
      textTree.GetInt64 envStd convStd "vNum".toList 0 = 456789 ∧
      textTree.GetInt64 envStd convStd "missing".toList 7 = 7 :=
  ⟨((typed_getters_default envStd convStd textTree "vStr".toList).2.1
      (.str "Ini string".toList) rfl rfl).1 (by decide) 20,
    (typed_getters_default envStd convStd textTree "vNum".toList).2.2.2
      "456789".toList 456789 rfl (by decide) (by decide) 0,
    ((typed_getters_default envStd convStd textTree "missing".toList).1 rfl).2.2.1 7⟩

/-! ## C15: diff-gated broadcast -/

/-- Claim C15 (diff-gated broadcast): when `sourceChanged` reloads successfully, then if the
equality check finds the reloaded configuration equal to the current snapshot, no
`Configurable` is called and the configurator is left as it was; otherwise the snapshot
becomes the reloaded configuration and the calls made are, in registration order, one
`Configure` per registry entry with the sub-tree of the new snapshot for its section and
`first = false`, so that, the registry holding no identity twice, every registered
`Configurable` receives exactly one call. -/
theorem sourceChanged_diff_gated (env : Env) (equalTo : Options → Option Options → Bool)
    (cfg : Configurator) (k : Nat) (newCfg : Options) (hconn : cfg.conn = some k) :
    (equalTo newCfg cfg.lastCfg = true →
      cfg.sourceChanged env equalTo (.ok (some newCfg)) = .ok (cfg, [], none)) ∧
    (equalTo newCfg cfg.lastCfg = false →
      cfg.sourceChanged env equalTo (.ok (some newCfg)) =
          .ok ({ cfg with lastCfg := some newCfg },
            cfg.items.map (fun item =>
              Event.configure item.conf (newCfg.Get env item.section_) false),
            none) ∧
        ((registered cfg).Nodup → ∀ item ∈ cfg.items,
          callsTo item.conf (cfg.items.map (fun item =>
              Event.configure item.conf (newCfg.Get env item.section_) false))
            = [(newCfg.Get env item.section_, false)])) := by
  unfold Configurator.sourceChanged
  rw [hconn]
  refine ⟨fun h => by simp [h], fun h => ⟨by simp [h, broadcast], ?_⟩⟩
  intro hnd item hm
  exact callsTo_broadcast_of_nodup env newCfg cfg.items hnd item hm

/-- Witness for C15: with the registry `[(a, 7), (s, 8)]`, a reload that the check finds
different from the snapshot is delivered to 7 and then to 8; one that it finds equal is
delivered to nobody. -/
theorem sourceChanged_diff_gated_witness :
    servingConfigurator.sourceChanged envNoFiles (fun _ _ => false) (.ok (some logTree))
        = .ok ({ servingConfigurator with lastCfg := some logTree },
            [Event.configure 7 (logTree.Get envNoFiles ['a']) false,
              Event.configure 8 (logTree.Get envNoFiles ['s']) false], none) ∧
      servingConfigurator.sourceChanged envNoFiles (fun _ _ => true) (.ok (some logTree))
        = .ok (servingConfigurator, [], none) :=
  ⟨((sourceChanged_diff_gated envNoFiles (fun _ _ => false) servingConfigurator 1 logTree
      rfl).2 rfl).1,
    (sourceChanged_diff_gated envNoFiles (fun _ _ => true) servingConfigurator 1 logTree
      rfl).1 rfl⟩

/-! ## C16: idempotent registration -/

/-- Counterexample to claim C16 as stated. First, on a configurator without snapshot,
`Register(s1, c)` makes no `Configure` call at all at registration time. Second, where `c` is
already registered under `s0`, after `Register(s1, c)` and `Register(s2, c)` its one entry is
under `s0`, not under `s1`. Third, where comparing `c` with itself panics, as for a
`Configurable` whose dynamic type is not comparable, `Register(s1, c)` completes and
`Register(s2, c)` panics in the duplicate check. -/
theorem Register_without_snapshot_or_after_first :
    zeroConfigurator.Register (fun _ _ => false) ['a'] 7
        = .ok ({ zeroConfigurator with items := [{ section_ := ['a'], conf := 7 }] }, []) ∧
      (({ conn := none, lastCfg := none, items := [{ section_ := ['z'], conf := 7 }] }
            : Configurator).Register (fun _ _ => false) ['a'] 7
          = .ok ({ conn := none, lastCfg := none, items := [{ section_ := ['z'], conf := 7 }] },
              []) ∧
        ({ conn := none, lastCfg := none, items := [{ section_ := ['z'], conf := 7 }] }
            : Configurator).Register (fun _ _ => false) ['b'] 7
          = .ok ({ conn := none, lastCfg := none, items := [{ section_ := ['z'], conf := 7 }] },
              [])) ∧
      (boundConfigurator.Register (fun a b => a == 9 && b == 9) ['a'] 9
          = .ok ({ boundConfigurator with items := [{ section_ := ['a'], conf := 9 }] },
              [Event.configure 9 sampleTree true]) ∧
        ({ boundConfigurator with items := [{ section_ := ['a'], conf := 9 }] }
            : Configurator).Register (fun a b => a == 9 && b == 9) ['b'] 9
          = .error .uncomparable) :=
  ⟨rfl, ⟨rfl, rfl⟩, rfl, rfl⟩

/-- Claim C16, amended: in every state reached by operations from a configurator with an
empty registry, no identity occurs twice in the registry. For every state without repeated
identity, every `Configurable` `c` and sections `s1`, `s2`, if `Register(s1, c)` completes,
then after any later operations `Register(s2, c)` panics in the duplicate check when
comparing `c` with itself panics, and otherwise is a no-op that makes no call; in both cases
`c` has exactly one registry entry (under `s1` if `c` was not registered before, else the
entry that it had), the first `Register` made exactly one `Configure` call to `c` if `c` was
new and a snapshot was loaded and none otherwise, and every broadcast over the registry
makes exactly one call to `c`.
`Register(s, c)` completes whenever no comparison of a registered item with `c` panics. -/
theorem Register_idempotent (unc : Nat → Nat → Bool) (env : Env)
    (equalTo : Options → Option Options → Bool) :
    (∀ cfg0 ops cfg evs, cfg0.items = [] →
      execAll unc env equalTo ops cfg0 = .ok (cfg, evs) → (registered cfg).Nodup) ∧
    (∀ cfg s1 s2 c cfg1 evs1 ops cfg2 evs, (registered cfg).Nodup →
      cfg.Register unc s1 c = .ok (cfg1, evs1) →
      execAll unc env equalTo ops cfg1 = .ok (cfg2, evs) →
        (cfg2.Register unc s2 c =
          if unc c c = true then .error .uncomparable else .ok (cfg2, [])) ∧
        (∃ item, entriesOf c cfg2 = [item] ∧
          (entriesOf c cfg = [] → item = { section_ := s1, conf := c }) ∧
          (entriesOf c cfg ≠ [] → entriesOf c cfg = [item])) ∧
        (callsTo c evs1 =
          if entriesOf c cfg = [] then
            match cfg.lastCfg with
            | some S => [(S, true)]
            | none => []
          else []) ∧
        (∀ S, (callsTo c (broadcast env S cfg2.items)).length = 1)) ∧
    (∀ (cfg : Configurator) s c, (∀ item ∈ cfg.items, unc item.conf c = false) →
      ∃ r, cfg.Register unc s c = .ok r) := by
  refine ⟨?_, ?_, ?_⟩
  · intro cfg0 ops cfg evs h0 h
    exact execAll_nodup unc env equalTo ops cfg0 cfg evs h
      (by unfold registered; rw [h0]; simp)
  · intro cfg s1 s2 c cfg1 evs1 ops cfg2 evs hnd hr h
    have hnd1 : (registered cfg1).Nodup :=
      registered_Register_nodup unc s1 c cfg cfg1 evs1 hr hnd
    have hnd2 : (registered cfg2).Nodup := execAll_nodup unc env equalTo ops _ cfg2 evs h hnd1
    have he1 : entriesOf c cfg1 =
        if entriesOf c cfg = [] then [{ section_ := s1, conf := c }] else entriesOf c cfg := by
      rw [entriesOf_Register unc s1 c c cfg cfg1 evs1 hr]; simp
    have hne1 : entriesOf c cfg1 ≠ [] := by
      rw [he1]; split_ifs with hc
      · simp
      · exact hc
    have he2 : entriesOf c cfg2 = entriesOf c cfg1 :=
      execAll_entriesOf unc env equalTo ops c _ cfg2 evs h hne1
    have hne2 : entriesOf c cfg2 ≠ [] := by rw [he2]; exact hne1
    obtain ⟨item, hitem⟩ : ∃ item, item ∈ entriesOf c cfg2 :=
      List.exists_mem_of_ne_nil _ hne2
    have hmem : item ∈ cfg2.items ∧ item.conf = c := by
      unfold entriesOf at hitem
      simpa using hitem
    have hsingle : entriesOf c cfg2 = [item] := by
      have := filter_conf_of_nodup cfg2.items hnd2 item hmem.1
      rw [hmem.2] at this
      exact this
    -- the duplicate check of the second call ends where that of the first registration ends
    have hfind : Configurator.findConf unc c cfg2.items =
        if unc c c = true then .error .uncomparable else .ok true := by
      obtain ⟨extra, hx⟩ := execAll_items_append unc env equalTo ops cfg1 cfg2 evs h
      have h1 := findConf_after_Register unc s1 c cfg cfg1 evs1 hr
      rw [hx, findConf_append_of_ne_false (by rw [h1]; split_ifs <;> simp), h1]
    refine ⟨?_, ⟨item, hsingle, ?_, ?_⟩, ?_, ?_⟩
    · unfold Configurator.Register
      rw [hfind]
      split_ifs <;> rfl
    · intro hnew
      rw [he2, he1, if_pos hnew] at hsingle
      exact (List.cons.inj hsingle).1.symm
    · intro hold
      rw [he2, he1, if_neg hold] at hsingle
      exact hsingle
    · by_cases hnew : entriesOf c cfg = []
      · rw [(Register_of_new unc s1 c cfg cfg1 evs1 hr hnew).2.1, if_pos hnew]
        cases cfg.lastCfg with
        | none => rfl
        | some S => simp [callsTo]
      · rw [(Register_of_registered unc s1 c cfg cfg1 evs1 hr hnew).2.1, if_neg hnew]; rfl
    · intro S
      rw [callsTo_broadcast]
      have : cfg2.items.filter (fun it => decide (it.conf = c)) = [item] := hsingle
      rw [this]; rfl
  · intro cfg s c hall
    have hf : ∀ items : List configurableItem, (∀ item ∈ items, unc item.conf c = false) →
        ∃ b, Configurator.findConf unc c items = .ok b := by
      intro items
      induction items with
      | nil => intro _; exact ⟨false, rfl⟩
      | cons v rest ih =>
        intro hv
        simp only [Configurator.findConf, hv v (List.mem_cons_self _ _)]
        by_cases hc : v.conf = c
        · exact ⟨true, by simp [hc]⟩
        · obtain ⟨b, hb⟩ := ih (fun item hi => hv item (List.mem_cons_of_mem _ hi))
          exact ⟨b, by simp [hc, hb]⟩
    obtain ⟨b, hb⟩ := hf cfg.items hall
    unfold Configurator.Register
    rw [hb]
    cases b with
    | true => exact ⟨_, rfl⟩
    | false => cases cfg.lastCfg <;> exact ⟨_, rfl⟩

/-- Witness for C16: on a bound configurator with a snapshot and the entry `(s, 8)`,
`Register("a", 7)`, a reload, a registration of 5 and a broadcast leave the one entry
`(a, 7)`, and `Register("b", 7)` then is a no-op; the first registration made one call. -/
theorem Register_idempotent_witness :
    (({ servingConfigurator with
          items := [{ section_ := ['s'], conf := 8 }, { section_ := ['a'], conf := 7 },
            { section_ := ['q'], conf := 5 }],
          lastCfg := some logTree } : Configurator).Register (fun _ _ => false) ['b'] 7 =
        if (fun (_ _ : Nat) => false) 7 7 = true then .error .uncomparable
        else .ok ({ servingConfigurator with
          items := [{ section_ := ['s'], conf := 8 }, { section_ := ['a'], conf := 7 },
            { section_ := ['q'], conf := 5 }],
          lastCfg := some logTree }, [])) ∧
      (∃ item, entriesOf 7 { servingConfigurator with
          items := [{ section_ := ['s'], conf := 8 }, { section_ := ['a'], conf := 7 },
            { section_ := ['q'], conf := 5 }],
          lastCfg := some logTree } = [item] ∧
        (entriesOf 7 { servingConfigurator with items := [{ section_ := ['s'], conf := 8 }] }
            = [] → item = { section_ := ['a'], conf := 7 }) ∧
        (entriesOf 7 { servingConfigurator with items := [{ section_ := ['s'], conf := 8 }] }
            ≠ [] →
          entriesOf 7 { servingConfigurator with items := [{ section_ := ['s'], conf := 8 }] }
            = [item])) ∧
      (callsTo 7 [Event.configure 7 sampleTree true] =
        if entriesOf 7 { servingConfigurator with items := [{ section_ := ['s'], conf := 8 }] }
            = [] then
          match ({ servingConfigurator with items := [{ section_ := ['s'], conf := 8 }] }
              : Configurator).lastCfg with
          | some S => [(S, true)]
          | none => []
        else []) ∧
      (∀ S, (callsTo 7 (broadcast envNoFiles S
        ({ servingConfigurator with
          items := [{ section_ := ['s'], conf := 8 }, { section_ := ['a'], conf := 7 },
            { section_ := ['q'], conf := 5 }],
          lastCfg := some logTree } : Configurator).items)).length = 1) :=
  (Register_idempotent (fun _ _ => false) envNoFiles (fun _ _ => false)).2.1
    { servingConfigurator with items := [{ section_ := ['s'], conf := 8 }] } ['a'] ['b'] 7
    { servingConfigurator with
      items := [{ section_ := ['s'], conf := 8 }, { section_ := ['a'], conf := 7 }] }
    [Event.configure 7 sampleTree true]
    [.load true (.ok (some logTree)), .register ['q'] 5, .configure]
    { servingConfigurator with
      items := [{ section_ := ['s'], conf := 8 }, { section_ := ['a'], conf := 7 },
        { section_ := ['q'], conf := 5 }],
      lastCfg := some logTree }
    _ (by decide) rfl rfl

/-! ## C17: first delivery on registration -/

/-- Claim C17, at the input where the code fails it: on a configurator whose snapshot is
`{a: {b: {c: "1"}}, s: "text"}` and whose registry is empty, so that the duplicate check
compares nothing, `Register("a", 7)` appends `(a, 7)` and makes exactly one call with
`first = true`, but the node that it passes is the whole snapshot, which differs from the
sub-tree `Get("a")` that `Configure()` and `sourceChanged` deliver. -/
theorem Register_passes_whole_snapshot (unc : Nat → Nat → Bool) :
    boundConfigurator.Register unc ['a'] 7 =
        .ok ({ boundConfigurator with items := [{ section_ := ['a'], conf := 7 }] },
          [Event.configure 7 sampleTree true]) ∧
      sampleTree.Get envNoFiles ['a'] ≠ sampleTree ∧
      ({ boundConfigurator with items := [{ section_ := ['a'], conf := 7 }] }
          : Configurator).Configure envNoFiles
        = [Event.configure 7 (sampleTree.Get envNoFiles ['a']) false] := by
  refine ⟨rfl, ?_, rfl⟩
  intro h
  have := congrArg (fun o : Options => o.options.length) h
  exact absurd this (by decide)

/-! ## C18: explicit load -/

/-- Claim C18 (explicit `Load`): for a bound configurator whose connector load succeeds with
the configuration `N`, `Load(reconfigure)` replaces the snapshot by `N`, whatever the old
snapshot was; when `reconfigure` is true the calls made are those of `Configure()` on the new
state: one per registry entry, in registration order, with `N.Get(section)` and
`first = false`, hence exactly one per registered `Configurable`; when it is false no call
is made. -/
theorem Load_replaces_snapshot (env : Env) (cfg : Configurator) (k : Nat) (N : Options)
    (reconfigure : Bool) (hconn : cfg.conn = some k) :
    cfg.Load env reconfigure (.ok (some N)) =
        ({ cfg with lastCfg := some N },
          if reconfigure then
            cfg.items.map (fun item => Event.configure item.conf (N.Get env item.section_) false)
          else [],
          none) ∧
      (cfg.items.map (fun item => Event.configure item.conf (N.Get env item.section_) false)
        = ({ cfg with lastCfg := some N } : Configurator).Configure env) ∧
      ((registered cfg).Nodup → ∀ item ∈ cfg.items,
        callsTo item.conf
            (cfg.items.map (fun item =>
              Event.configure item.conf (N.Get env item.section_) false))
          = [(N.Get env item.section_, false)]) := by
  refine ⟨?_, rfl, fun hnd item hm => callsTo_broadcast_of_nodup env N cfg.items hnd item hm⟩
  unfold Configurator.Load
  rw [hconn]
  cases reconfigure <;> rfl

/-- Witness for C18: with the registry `[(a, 7), (s, 8)]`, `Load(true)` of a new
configuration delivers its sections to 7 and then to 8, and `Load(false)` delivers nothing;
both replace the snapshot. -/
theorem Load_replaces_snapshot_witness :
    servingConfigurator.Load envNoFiles true (.ok (some logTree))
        = ({ servingConfigurator with lastCfg := some logTree },
            [Event.configure 7 (logTree.Get envNoFiles ['a']) false,
              Event.configure 8 (logTree.Get envNoFiles ['s']) false], none) ∧
      servingConfigurator.Load envNoFiles false (.ok (some logTree))
        = ({ servingConfigurator with lastCfg := some logTree }, [], none) :=
  ⟨(Load_replaces_snapshot envNoFiles servingConfigurator 1 logTree true rfl).1,
    (Load_replaces_snapshot envNoFiles servingConfigurator 1 logTree false rfl).1⟩

/-! ## C19: reload failure -/

/-- Claim C19 (reload failure): if the connector's load returns an error, explicit `Load`
and `sourceChanged` each return that error, leave the configurator (snapshot and registry)
as it was and make no call; `sourceChanged` likewise returns an error and changes nothing
when the reload yields a nil configuration. -/
theorem reload_failure (env : Env) (equalTo : Options → Option Options → Bool)
    (cfg : Configurator) (k : Nat) (reconfigure : Bool) (err : Err) (hconn : cfg.conn = some k) :
    cfg.Load env reconfigure (.error err) = (cfg, [], some err) ∧
      cfg.sourceChanged env equalTo (.error err) = .ok (cfg, [], some err) ∧
      ∃ e, cfg.sourceChanged env equalTo (.ok none) = .ok (cfg, [], some e) := by
  unfold Configurator.Load Configurator.sourceChanged
  rw [hconn]
  exact ⟨rfl, rfl, _, rfl⟩

/-- Witness for C19 on the configurator with the registry `[(a, 7), (s, 8)]`. -/
theorem reload_failure_witness :
    servingConfigurator.Load envNoFiles true (.error "gone".toList)
        = (servingConfigurator, [], some "gone".toList) ∧
      servingConfigurator.sourceChanged envNoFiles (fun _ _ => false) (.error "gone".toList)
        = .ok (servingConfigurator, [], some "gone".toList) ∧
      ∃ e, servingConfigurator.sourceChanged envNoFiles (fun _ _ => false) (.ok none)
        = .ok (servingConfigurator, [], some e) :=
  reload_failure envNoFiles (fun _ _ => false) servingConfigurator 1 true "gone".toList rfl

/-! ## C20: the closed state -/

/-- Counterexample to claim C20 as stated: after `Close()` the configurator with the
snapshot `{a: {b: {c: "1"}}, s: "text"}` still holds that snapshot, and `Get("a")` returns
the node over `{b: {c: "1"}}`, which is not empty. -/
theorem Close_keeps_snapshot :
    (servingConfigurator.Close none).1.lastCfg = some sampleTree ∧
      ((servingConfigurator.Close none).1.Get envNoFiles ['a']).IsEmpty = false :=
  ⟨rfl, rfl⟩

/-- Claim C20, amended: after `Close()` the configurator holds no connector, so `Valid()` is
false and `Store` does nothing; the snapshot is kept, and for every key `Get(key)` returns
what it returned before `Close`. -/
theorem Close_clears_connector (env : Env) (cfg : Configurator) (res : Option Err) :
    (cfg.Close res).1.conn = none ∧ (cfg.Close res).1.Valid = false ∧
      (cfg.Close res).1.lastCfg = cfg.lastCfg ∧
      (∀ key, (cfg.Close res).1.Get env key = cfg.Get env key) ∧
      (∀ r, (cfg.Close res).1.Store r = ([], none)) := by
  unfold Configurator.Close
  cases hc : cfg.conn with
  | none =>
    refine ⟨hc, by simp [Configurator.Valid, hc], rfl, fun _ => rfl, fun r => ?_⟩
    simp [Configurator.Store, hc]
  | some c =>
    refine ⟨rfl, by simp [Configurator.Valid], rfl, fun _ => rfl, fun r => ?_⟩
    simp [Configurator.Store]


/-! ## C21: construction of a configurator -/

/-- Claim C21 (construction failure): `NewConfigurator` returns an error and no configurator
when the driver name is not registered, when the driver's `Connect` fails, and when the first
`Load` fails; in the last case the only call made on the connector besides `Load` is one
`Close`. When the three steps succeed it returns, without error and without closing, the
configurator that holds the connector and the loaded snapshot, with no registered item. -/
theorem NewConfigurator_outcomes (drivers : DriverMap) (driver : List Char)
    (connectRes : Nat → Except Err (Option Nat)) (loadRes : LoadResult) :
    (DriverFor drivers driver = none →
      ∃ e, NewConfigurator drivers driver connectRes loadRes = .ok (.error e, [])) ∧
    (∀ drv e, DriverFor drivers driver = some drv → connectRes drv = .error e →
      NewConfigurator drivers driver connectRes loadRes = .ok (.error e, [])) ∧
    (∀ drv conn e, DriverFor drivers driver = some drv → connectRes drv = .ok (some conn) →
      loadRes = .error e →
      NewConfigurator drivers driver connectRes loadRes
        = .ok (.error e, [Event.connClose conn])) ∧
    (∀ drv conn snapshot, DriverFor drivers driver = some drv →
      connectRes drv = .ok (some conn) → loadRes = .ok snapshot →
      NewConfigurator drivers driver connectRes loadRes
        = .ok (.ok { conn := some conn, lastCfg := snapshot, items := [] }, [])) := by
  refine ⟨fun h => ⟨"can not find configuration driver ".toList ++ driver ++
      ", forget to import?".toList, ?_⟩, fun drv e h hc => ?_, fun drv conn e h hc hl => ?_,
    fun drv conn snapshot h hc hl => ?_⟩
  · simp only [NewConfigurator, h]
  · simp only [NewConfigurator, h, hc]
  · simp only [NewConfigurator, h, hc, hl]
  · simp only [NewConfigurator, h, hc, hl]

/-- Witness for C21: with the registry `{file: 1, db: 2, rest: 3}` and a `file` driver that
connects with connector 9, a failing first load gives the error and one `Close` of
connector 9, and a load of `{a: {b: {c: "1"}}, s: "text"}` gives the configurator over
connector 9 and that snapshot. -/
theorem NewConfigurator_outcomes_witness :
    NewConfigurator sampleDrivers "file".toList (fun _ => .ok (some 9)) (.error "gone".toList)
        = .ok (.error "gone".toList, [Event.connClose 9]) ∧
      NewConfigurator sampleDrivers "file".toList (fun _ => .ok (some 9)) (.ok (some sampleTree))
        = .ok (.ok { conn := some 9, lastCfg := some sampleTree, items := [] }, []) :=
  ⟨(NewConfigurator_outcomes sampleDrivers "file".toList (fun _ => .ok (some 9))
      (.error "gone".toList)).2.2.1 1 9 "gone".toList rfl rfl rfl,
    (NewConfigurator_outcomes sampleDrivers "file".toList (fun _ => .ok (some 9))
      (.ok (some sampleTree))).2.2.2 1 9 (some sampleTree) rfl rfl rfl⟩

/-! ## C22: registration of a driver -/

/-- Claim C22 (driver registration): `Register(name, driver)` panics if and only if the
driver is nil or the name is among the registered names; otherwise, in the registry
afterwards, `DriverFor(name)` returns that driver and `DriverFor` of every other name
returns what it returned before. -/
theorem Register_panics_iff (drivers : DriverMap) (name : List Char) (driver : Option Nat) :
    ((∃ f, Register drivers name driver = .error f) ↔
        driver = none ∨ name ∈ Drivers drivers) ∧
      ∀ drivers', Register drivers name driver = .ok drivers' →
        DriverFor drivers' name = driver ∧
          ∀ other, other ≠ name → DriverFor drivers' other = DriverFor drivers other := by
  rw [mem_Drivers, ← DriverFor_isSome_iff]
  unfold Register
  cases driver with
  | none => exact ⟨⟨fun _ => Or.inl rfl, fun _ => ⟨_, rfl⟩⟩, fun _ h => by cases h⟩
  | some d =>
    show ((∃ f, (if (DriverFor drivers name).isSome = true then _ else _) = _) ↔ _) ∧
      ∀ drivers', (if (DriverFor drivers name).isSome = true then _ else _) = _ → _
    by_cases hd : (DriverFor drivers name).isSome = true
    · rw [if_pos hd]
      exact ⟨⟨fun _ => Or.inr hd, fun _ => ⟨_, rfl⟩⟩, fun _ h => by cases h⟩
    · rw [if_neg hd]
      refine ⟨⟨fun hf => ?_, fun h => ?_⟩, fun drivers' h => ?_⟩
      · obtain ⟨f, hf⟩ := hf
        cases hf
      · rcases h with h | h
        · cases h
        · exact absurd h hd
      · cases h
        exact ⟨by simp [DriverFor], fun other ho => DriverFor_cons_ne drivers name other d
          (fun h => ho h.symm)⟩

/-- Witness for C22: registering driver 4 under `etcd` in `{file: 1, db: 2, rest: 3}`
completes; afterwards `etcd` resolves to driver 4 and `db` still to driver 2. -/
theorem Register_panics_iff_witness :
    ∃ drivers', Register sampleDrivers "etcd".toList (some 4) = .ok drivers' ∧
      DriverFor drivers' "etcd".toList = some 4 ∧
      DriverFor drivers' "db".toList = DriverFor sampleDrivers "db".toList :=
  ⟨("etcd".toList, 4) :: sampleDrivers, rfl,
    ((Register_panics_iff sampleDrivers "etcd".toList (some 4)).2 _ rfl).1,
    ((Register_panics_iff sampleDrivers "etcd".toList (some 4)).2 _ rfl).2 "db".toList
      (by decide)⟩

/-! ## C23: the list of drivers -/

/-- Claim C23: for a registry, which as a Go map holds every name once, `Drivers()` is in
strictly ascending order, hence without repeats, and a name occurs in it if and only if
`DriverFor(name)` returns a driver. -/
theorem Drivers_sorted (drivers : DriverMap) (h : (drivers.map Prod.fst).Nodup) :
    (Drivers drivers).Sorted (· < ·) ∧ (Drivers drivers).Nodup ∧
      ∀ name, name ∈ Drivers drivers ↔ (DriverFor drivers name).isSome = true := by
  have hnd : (Drivers drivers).Nodup :=
    (List.perm_insertionSort _ _).nodup_iff.mpr h
  refine ⟨?_, hnd, fun name => ?_⟩
  · exact (List.sorted_insertionSort (· ≤ ·) _).lt_of_le hnd
  · rw [mem_Drivers, DriverFor_isSome_iff]

/-- Witness for C23: the names of `{file: 1, db: 2, rest: 3}` are listed as `db`, `file`,
`rest`. -/
theorem Drivers_sorted_witness :
    Drivers sampleDrivers = ["db".toList, "file".toList, "rest".toList] ∧
      (Drivers sampleDrivers).Sorted (· < ·) ∧ (Drivers sampleDrivers).Nodup ∧
      ∀ name, name ∈ Drivers sampleDrivers ↔ (DriverFor sampleDrivers name).isSome = true :=
  ⟨by decide, Drivers_sorted sampleDrivers (by decide)⟩

/-! ## C24: document formats -/

/-- Claim C24, at the input where the code fails it: for a format name that lower-cases to
`json` and a document that the JSON decoder accepts, `FromReader` and `FromText` return the
error `Not supported options format`, not the node over the decoded object: the `json` case
of the switch builds the node and then leaves the switch without returning it. -/
theorem FromReader_json_not_supported (codec : Codec) (content format : List Char)
    (data : GoMap) (hfmt : codec.toLower format = FormatJSON)
    (hdec : codec.jsonUnmarshal content = .ok data) :
    FromReader codec (.ok content) format
        = .error ("Not supported options format ".toList ++ format) ∧
      FromText codec content format
        = .error ("Not supported options format ".toList ++ format) := by
  have hne : ¬ codec.toLower format = FormatHJSON := by rw [hfmt]; decide
  have h : FromReader codec (.ok content) format
      = .error ("Not supported options format ".toList ++ format) := by
    unfold FromReader
    simp only
    rw [if_neg hne, if_pos hfmt, hdec]
  exact ⟨h, h⟩

/-- Witness for C24: the document `{"a": "1"}` loads under the name `hjson` to the node
`{a: "1"}`, and under the name `json` it gives the error. -/
theorem FromReader_json_not_supported_witness :
    FromText codecStd sampleDocument "hjson".toList = .ok ⟨[], [(['a'], .str ['1'])]⟩ ∧
      FromReader codecStd (.ok sampleDocument) "json".toList
        = .error "Not supported options format json".toList ∧
      FromText codecStd sampleDocument "json".toList
        = .error "Not supported options format json".toList :=
  ⟨rfl, FromReader_json_not_supported codecStd sampleDocument "json".toList
    [(['a'], .str ['1'])] rfl rfl⟩

/-! ## C25: escapes in what Parse stores -/

/-- Counterexample to claim C25 as stated: after `Parse` of `k=a\nb;` (with the two runes
backslash, `n`) the value stored under `k`, as `GetObject` returns it, is the four runes
`a`, backslash, `n`, `b`, not `a`, line feed, `b`; and after `Parse` of `k=a\\b;` the stored
value holds both backslashes. -/
theorem Parse_keeps_control_escapes :
    Parse New ("k=a".toList ++ ESCAPE :: "nb;".toList)
        = .ok (⟨[], [(['k'], .str ['a', ESCAPE, 'n', 'b'])]⟩, none) ∧
      (⟨[], [(['k'], .str ['a', ESCAPE, 'n', 'b'])]⟩ : Options).GetObject ['k']
        = some (.str ['a', ESCAPE, 'n', 'b']) ∧
      (['a', ESCAPE, 'n', 'b'] : List Char) ≠ ['a', LF, 'b'] ∧
      Parse New ("k=a".toList ++ ESCAPE :: ESCAPE :: "b;".toList)
        = .ok (⟨[], [(['k'], .str ['a', ESCAPE, ESCAPE, 'b'])]⟩, none) :=
  ⟨rfl, rfl, by decide, rfl⟩

/-- Claim C25, amended: while accumulating, `Parse` drops the backslash only before `=` and
`;`; before every other rune it keeps it. For every sequence of records whose keys and
values are non-empty fields, with any number of escapes, and whose text
`k_1=v_1;...;k_n=v_n;` holds no line continuation and is within the size limit, `Parse`
returns no error and leaves the mapping that binds, for each record, the key without its
delimiter escapes to the value without its delimiter escapes, a later record overriding an
earlier one, and binds nothing else. The escapes backslash-`n`, backslash-`r`,
backslash-`t` and the doubled backslash are stored as they stand and decoded when the value
is read as text: for a key without dot, `GetObject` returns the stored string and
`GetString` the stored string decoded by `rplEscape`. -/
theorem Parse_stores_escapes (env : Env) (o : Options) (rs : List (List Char × List Char))
    (hraw : ∀ kv ∈ rs, kv.1 ≠ [] ∧ rawField kv.1 = true ∧ kv.2 ≠ [] ∧ rawField kv.2 = true)
    (hlc : hasLineCont (recordText rs) = false)
    (hlen : goLen (recordText rs) ≤ maxLen) :
    ∃ o', Parse o (recordText rs) = .ok (o', none) ∧
      (∀ k, o'.options.get? k = (lastBinding (storedRecords rs) k).map Value.str) ∧
      (∀ k v d, lastBinding (storedRecords rs) k = some v → '.' ∉ k →
        o'.GetObject k = some (.str v) ∧ o'.GetString env k d = rplEscape v) := by
  have hline := rplLineEscape_of_noLineCont _ hlc
  obtain ⟨key, c, _, e⟩ := run_recordText_raw rs initState hraw rfl rfl
    (show CR ≠ ESCAPE by decide)
  have hparse : Parse o (recordText rs)
      = .ok ({ o with options := GoMap.setAll [] (strEntries (storedRecords rs)) }, none) := by
    rw [Parse_of_le o _ (by rw [hline]; exact hlen), hline, e]
    simp [finish, initState, waitfieldDelim, waitoptDelim]
  have hget : ∀ k, (GoMap.setAll [] (strEntries (storedRecords rs))).get? k
      = (lastBinding (storedRecords rs) k).map Value.str := by
    intro k
    rw [get?_setAll_strEntries]
    cases lastBinding (storedRecords rs) k <;> rfl
  refine ⟨_, hparse, hget, ?_⟩
  intro k v d hb hdot
  have hl : look (GoMap.setAll [] (strEntries (storedRecords rs))) (splitDot k)
      = some (.str v) := by
    rw [splitDot_of_not_mem k hdot, look_singleton, hget, hb]; rfl
  refine ⟨by rw [GetObject_eq_look]; exact hl, ?_⟩
  rw [GetString_eq]
  show (match look (GoMap.setAll [] (strEntries (storedRecords rs))) (splitDot k) with
    | none => d
    | some val => asText env val) = _
  rw [hl]
  rfl

/-- Witness for C25: in the two records `k=a\nb;` and `x\=y=p\;q\\r\ts;` the first
value is stored as `a`, backslash, `n`, `b` and read as text as `a`, line feed, `b`; the
second key is stored as `x=y` and the second value as `p;q`, two backslashes, `r`,
backslash, `t`, `s`. -/
theorem Parse_stores_escapes_witness :
    storedRecords [(['k'], ['a', ESCAPE, 'n', 'b']),
        (['x', ESCAPE, '=', 'y'],
          ['p', ESCAPE, ';', 'q', ESCAPE, ESCAPE, 'r', ESCAPE, 't', 's'])]
      = [(['k'], ['a', ESCAPE, 'n', 'b']),
          ("x=y".toList, ['p', ';', 'q', ESCAPE, ESCAPE, 'r', ESCAPE, 't', 's'])] ∧
    rplEscape ['a', ESCAPE, 'n', 'b'] = ['a', LF, 'b'] ∧
    ∃ o', Parse New (recordText [(['k'], ['a', ESCAPE, 'n', 'b']),
        (['x', ESCAPE, '=', 'y'],
          ['p', ESCAPE, ';', 'q', ESCAPE, ESCAPE, 'r', ESCAPE, 't', 's'])]) = .ok (o', none) ∧
      (∀ k, o'.options.get? k = (lastBinding (storedRecords [(['k'], ['a', ESCAPE, 'n', 'b']),
        (['x', ESCAPE, '=', 'y'],
          ['p', ESCAPE, ';', 'q', ESCAPE, ESCAPE, 'r', ESCAPE, 't', 's'])]) k).map Value.str) ∧
      (∀ k v d, lastBinding (storedRecords [(['k'], ['a', ESCAPE, 'n', 'b']),
        (['x', ESCAPE, '=', 'y'],
          ['p', ESCAPE, ';', 'q', ESCAPE, ESCAPE, 'r', ESCAPE, 't', 's'])]) k = some v →
        '.' ∉ k →
        o'.GetObject k = some (.str v) ∧ o'.GetString envNoFiles k d = rplEscape v) :=
  ⟨by decide, by decide,
    Parse_stores_escapes envNoFiles New [(['k'], ['a', ESCAPE, 'n', 'b']),
        (['x', ESCAPE, '=', 'y'],
          ['p', ESCAPE, ';', 'q', ESCAPE, ESCAPE, 'r', ESCAPE, 't', 's'])]
      (by decide) (by decide) (by decide)⟩

/-! ## C26: line continuation -/

/-- Counterexample to claim C26 as stated: with `s1` the text `k=a\` that ends in a
backslash and `s2` the text line feed, `b;`, `Parse` of `s1`, backslash, line feed, `s2`
stores under `k` the value `a`, backslash, line feed, `b`, whereas `Parse` of `s1` followed
directly by `s2` stores `ab`: the backslash that ends `s1` takes the line feed that starts
`s2` as its own line continuation. -/
theorem Parse_line_continuation_after_backslash :
    Parse New (['k', '=', 'a', ESCAPE] ++ ESCAPE :: LF :: (LF :: "b;".toList))
        = .ok (⟨[], [(['k'], .str ['a', ESCAPE, LF, 'b'])]⟩, none) ∧
      Parse New (['k', '=', 'a', ESCAPE] ++ (LF :: "b;".toList))
        = .ok (⟨[], [(['k'], .str ['a', 'b'])]⟩, none) ∧
      (['a', ESCAPE, LF, 'b'] : List Char) ≠ ['a', 'b'] :=
  ⟨rfl, rfl, by decide⟩

/-- Claim C26, amended: for all texts `s1` and `s2` such that `s2` does not begin with CR or
LF when `s1` ends in a backslash, and `s2` does not begin with LF when `s1` ends in a
backslash followed by CR, `Parse` applied to `s1`, a backslash and a newline (LF, or CR and
LF), `s2` gives exactly what `Parse` applied to `s1` followed directly by `s2` gives: the
same panic or the same error status and the same mapping. -/
theorem Parse_line_continuation (o : Options) (s1 s2 : List Char)
    (hA : s1.getLast? = some ESCAPE → s2.head? ≠ some CR ∧ s2.head? ≠ some LF)
    (hB : [ESCAPE, CR] <:+ s1 → s2.head? ≠ some LF) :
    Parse o (s1 ++ ESCAPE :: LF :: s2) = Parse o (s1 ++ s2) ∧
      Parse o (s1 ++ ESCAPE :: CR :: LF :: s2) = Parse o (s1 ++ s2) := by
  have h1 : rplLineEscape (s1 ++ ESCAPE :: LF :: s2) = rplLineEscape (s1 ++ s2) :=
    rplLineEscape_insert [ESCAPE, LF] (fun t => rplLineEscape_esc_LF t) rfl s2 s1.length s1
      (Nat.le_refl _) hA hB
  have h2 : rplLineEscape (s1 ++ ESCAPE :: CR :: LF :: s2) = rplLineEscape (s1 ++ s2) :=
    rplLineEscape_insert [ESCAPE, CR, LF] (fun t => rplLineEscape_esc_CR_LF t) rfl s2
      s1.length s1 (Nat.le_refl _) hA hB
  unfold Parse
  simp only [h1, h2, and_self]

/-- Witness for C26: `key=va`, backslash, line feed, `lue;` parses like `key=value;`. -/
theorem Parse_line_continuation_witness :
    Parse New ("key=va".toList ++ ESCAPE :: LF :: "lue;".toList)
        = Parse New ("key=va".toList ++ "lue;".toList) ∧
      Parse New ("key=va".toList ++ ESCAPE :: CR :: LF :: "lue;".toList)
        = Parse New ("key=va".toList ++ "lue;".toList) :=
  Parse_line_continuation New "key=va".toList "lue;".toList
    (fun h => absurd h (by decide)) (fun h => absurd h (by decide))

/-! ## C27: String and Parse on flat nodes of strings -/

/-- Counterexample to claim C27 as stated. First, the node `{k: v}`, `v` being `maxLen - 2`
letters `a`, is flat, its key and value are non-empty and free of `=`, `;` and backslash;
`String()` renders it as `k=`, `v`, `;`, which is `maxLen + 1` bytes long, and `Parse` of
that text panics on the size check. Second, for the node `{k: "\xff"}`, whose value is the
one byte 0xFF, `String()` is `k=\xff;`, and `Parse` of it stores under `k` the text U+FFFD,
whose three bytes are not the value of the node. -/
theorem Parse_String_flat_oversize :
    ((∀ c ∈ List.replicate (maxLen - 2) 'a', plain c) ∧
      List.replicate (maxLen - 2) 'a' ≠ [] ∧
      StringBytes (encodeRecords [(['k'], List.replicate (maxLen - 2) 'a')])
        = utf8 ('k' :: delimField :: (List.replicate (maxLen - 2) 'a' ++ [delimOpt])) ∧
      ParseBytes New (StringBytes (encodeRecords [(['k'], List.replicate (maxLen - 2) 'a')]))
        = .error (.sizeLimit (maxLen + 1) maxLen)) ∧
    (StringBytes [([0x6B], [0xFF])] = [0x6B, 0x3D, 0xFF, 0x3B] ∧
      ParseBytes New (StringBytes [([0x6B], [0xFF])])
        = .ok (⟨[], [(['k'], .str [RuneError])]⟩, none) ∧
      utf8 [RuneError] = [0xEF, 0xBF, 0xBD] ∧ utf8 [RuneError] ≠ [0xFF]) := by
  refine ⟨?_, rfl, rfl, by decide, by decide⟩
  have hnd : rplDelimiter (List.replicate (maxLen - 2) 'a') = List.replicate (maxLen - 2) 'a' :=
    rplDelimiter_of_no_delim _ (fun c hc => by rw [List.eq_of_mem_replicate hc]; decide)
  have e : flatText [(['k'], List.replicate (maxLen - 2) 'a')]
      = 'k' :: delimField :: (List.replicate (maxLen - 2) 'a' ++ [delimOpt]) := by
    simp only [flatText, List.flatMap_cons, List.flatMap_nil, hnd]
    simp
  refine ⟨fun c hc => by rw [List.eq_of_mem_replicate hc]; decide, ?_,
    by rw [StringBytes_encodeRecords, e], ?_⟩
  · intro h
    have := congrArg List.length h
    simp only [List.length_replicate, List.length_nil] at this
    exact absurd this (by decide)
  · rw [StringBytes_encodeRecords, ParseBytes_utf8, e]
    have hesc : ESCAPE ∉ 'k' :: delimField :: (List.replicate (maxLen - 2) 'a' ++ [delimOpt]) := by
      simp only [List.mem_cons, List.mem_append, List.mem_singleton, not_or]
      exact ⟨by decide, by decide,
        fun h => absurd (List.eq_of_mem_replicate h) (by decide), by decide⟩
    have hl : goLen ('k' :: delimField :: (List.replicate (maxLen - 2) 'a' ++ [delimOpt]))
        = maxLen + 1 := by
      rw [goLen_cons, goLen_cons, goLen_append, goLen_replicate _ 'a' (by decide)]
      have e1 : Char.utf8Size 'k' = 1 := by decide
      have e2 : delimField.utf8Size = 1 := by decide
      have e3 : goLen [delimOpt] = 1 := by decide
      have e4 : 2 ≤ maxLen := by decide
      omega
    have := Parse_of_gt New _ (by rw [rplLineEscape_of_not_mem _ hesc, hl]; omega)
    rw [rplLineEscape_of_not_mem _ hesc, hl] at this
    exact this

/-- Claim C27, amended: for every node `N` whose entries, in the order `es` in which
`String()` renders them, are strings that are texts, that is well-formed UTF-8, with
non-empty keys free of `=`, `;` and backslash and non-empty values free of backslash,
`N.String()` is the text of the entries, each as key, `=`, the value with every `=` and `;`
preceded by a backslash, `;`. If that text is at most `maxLen` bytes long, `Parse` of it
succeeds, whatever the receiving node held, and yields a mapping that reads every key
exactly as `N` does; if it is longer, `Parse` of it panics on the size check. -/
theorem Parse_String_flat (env : Env) (o N : Options) (es : List (List Char × List Char))
    (hperm : (strEntries es).Perm N.options) (hnd : (GoMap.keys N.options).Nodup)
    (hkv : ∀ kv ∈ es, kv.1 ≠ [] ∧ (∀ c ∈ kv.1, plain c) ∧ kv.2 ≠ [] ∧ ESCAPE ∉ kv.2) :
    StringBytes (encodeRecords es)
        = utf8 (Options.String env { N with options := strEntries es }) ∧
      Options.String env { N with options := strEntries es } = flatText es ∧
      ((StringBytes (encodeRecords es)).length ≤ maxLen →
        ∃ N', ParseBytes o (StringBytes (encodeRecords es)) = .ok (N', none) ∧
          N'.options.keys.Nodup ∧ ∀ k, N'.options.get? k = N.options.get? k) ∧
      (maxLen < (StringBytes (encodeRecords es)).length →
        ParseBytes o (StringBytes (encodeRecords es))
          = .error (.sizeLimit (StringBytes (encodeRecords es)).length maxLen)) := by
  have hread : ∀ e ∈ strEntries es, Readable e := by
    intro e he
    obtain ⟨kv, hm, rfl⟩ := List.mem_map.mp he
    obtain ⟨h1, h2, h3, h4⟩ := hkv kv hm
    exact ⟨⟨wellEscaped_of_no_esc _ (fun c hc => (h2 c hc).2.2), h1⟩,
      fun c hc => ⟨(h2 c hc).1, (h2 c hc).2.1⟩, kv.2, rfl,
      wellEscaped_of_no_esc _ (fun c hc hce => h4 (hce ▸ hc)), h3⟩
  have hnl : NoLineContMap (strEntries es) := by
    intro e he
    obtain ⟨kv, hm, rfl⟩ := List.mem_map.mp he
    obtain ⟨_, h2, _, h4⟩ := hkv kv hm
    refine ⟨hasLineCont_of_not_mem _ (fun h => (h2 _ h).2.2 rfl), fun b hb => ?_⟩
    cases hb
    exact hasLineCont_of_not_mem _ h4
  have hnd' : (GoMap.keys (strEntries es)).Nodup := (hperm.map Prod.fst).nodup_iff.mpr hnd
  have hrl : rplLineEscape (renderEntries env (strEntries es)) = renderEntries env (strEntries es) :=
    rplLineEscape_of_noLineCont _ (hasLineCont_renderEntries env _ hread hnl)
  have hflat : renderEntries env (strEntries es) = flatText es := by
    clear hperm hkv hread hnl hnd' hrl
    induction es with
    | nil => rfl
    | cons kv rest ih =>
      show renderEntries env ((kv.1, .str kv.2) :: strEntries rest) = _
      rw [renderEntries_cons_str, ih]
      simp [flatText]
  have hbytes : StringBytes (encodeRecords es) = utf8 (renderEntries env (strEntries es)) := by
    rw [StringBytes_encodeRecords, hflat]
  refine ⟨hbytes, hflat, ?_, ?_⟩
  · intro hlen
    rw [hbytes, length_utf8] at hlen
    rw [hbytes, ParseBytes_utf8]
    have hP := Parse_renderEntries env o (strEntries es) hread hrl hlen
    refine ⟨_, hP, GoMap.nodup_setAll _ List.nodup_nil, ?_⟩
    intro k
    show (GoMap.setAll [] (strEntries es)).get? k = _
    rw [GoMap.get?_setAll_of_nodup _ k [] hnd', ← GoMap.get?_eq_of_perm hnd' hperm k]
    cases GoMap.get? (strEntries es) k <;> rfl
  · intro hgt
    rw [hbytes, length_utf8] at hgt ⊢
    rw [ParseBytes_utf8]
    have := Parse_of_gt o (renderEntries env (strEntries es)) (by rw [hrl]; exact hgt)
    rw [hrl] at this
    exact this

/-- Witness for C27: the node `{b: "x;y", a: "1=2"}` rendered in the order `a`, `b` gives
`a=1\=2;b=x\;y;`, which parses to a mapping that reads alike. -/
theorem Parse_String_flat_witness :
    StringBytes (encodeRecords [(['a'], "1=2".toList), (['b'], "x;y".toList)])
        = utf8 ("a=1".toList ++ ESCAPE :: "=2;b=x".toList ++ ESCAPE :: ";y;".toList) ∧
      ∃ N', ParseBytes New
            (StringBytes (encodeRecords [(['a'], "1=2".toList), (['b'], "x;y".toList)]))
          = .ok (N', none) ∧
        N'.options.keys.Nodup ∧
        ∀ k, N'.options.get? k
          = (⟨[], [(['b'], .str "x;y".toList), (['a'], .str "1=2".toList)]⟩ :
              Options).options.get? k :=
  ⟨by decide,
    (Parse_String_flat envNoFiles New
      ⟨[], [(['b'], .str "x;y".toList), (['a'], .str "1=2".toList)]⟩
      [(['a'], "1=2".toList), (['b'], "x;y".toList)]
      (List.Perm.swap _ _ []) (by decide) (by decide)).2.2.1 (by decide)⟩

/-! ## C28: text after the last record -/

/-- Counterexample to claim C28 as stated: `Parse` accepts the record `a=b;`, which ends
with an unescaped `;`; followed by `maxLen` spaces, which hold none of `=`, `;` and
backslash, the text is longer than `maxLen` and `Parse` panics on the size check. -/
theorem Parse_trailing_text_oversize :
    Parse New "a=b;".toList = .ok (⟨[], [(['a'], .str ['b'])]⟩, none) ∧
      (∀ c ∈ List.replicate maxLen ' ', plain c) ∧
      Parse New ("a=b;".toList ++ List.replicate maxLen ' ')
        = .error (.sizeLimit (maxLen + 4) maxLen) := by
  refine ⟨rfl, fun c hc => by rw [List.eq_of_mem_replicate hc]; decide, ?_⟩
  have hesc : ESCAPE ∉ "a=b;".toList ++ List.replicate maxLen ' ' := by
    simp only [List.mem_append, not_or]
    exact ⟨by decide, fun h => absurd (List.eq_of_mem_replicate h) (by decide)⟩
  have hl : goLen ("a=b;".toList ++ List.replicate maxLen ' ') = maxLen + 4 := by
    rw [goLen_append, goLen_replicate _ ' ' (by decide)]
    have e1 : goLen "a=b;".toList = 4 := by decide
    omega
  have := Parse_of_gt New _ (by rw [rplLineEscape_of_not_mem _ hesc, hl]; omega)
  rw [rplLineEscape_of_not_mem _ hesc, hl] at this
  exact this

/-- Claim C28, amended: let the text `r` be `a` followed by `;`, let `s` be the state of the
loop after `a` with no escape pending, so that the final `;` is unescaped, and let `Parse`
accept `r`, leaving the node `o'`. Then for every text `t` without `=`, `;` and backslash,
the text `r` followed by `t` is, after line-continuation removal, as long as `r` after that
removal plus `t`; if it is within the size limit, `Parse` of `r` followed by `t` returns no
error and leaves the same node `o'`, the dangling text being dropped; and if it is longer,
`Parse` panics on the size check. -/
theorem Parse_trailing_text (o o' : Options) (a t : List Char) (s : LoopState)
    (hscan : parseLoop (goLen (rplLineEscape (a ++ [delimOpt]))) initState (rplLineEscape a)
      = some s)
    (hesc : s.lastCh ≠ ESCAPE)
    (hacc : Parse o (a ++ [delimOpt]) = .ok (o', none))
    (ht : ∀ c ∈ t, plain c) :
    goLen (rplLineEscape (a ++ delimOpt :: t))
        = goLen (rplLineEscape (a ++ [delimOpt])) + goLen t ∧
      (goLen (rplLineEscape (a ++ delimOpt :: t)) ≤ maxLen →
        Parse o (a ++ delimOpt :: t) = .ok (o', none)) ∧
      (maxLen < goLen (rplLineEscape (a ++ delimOpt :: t)) →
        Parse o (a ++ delimOpt :: t)
          = .error (.sizeLimit (goLen (rplLineEscape (a ++ delimOpt :: t))) maxLen)) := by
  refine ⟨?_, ?_, fun hgt => Parse_of_gt o _ hgt⟩
  · rw [rplLineEscape_append_tail (delimOpt :: t)
        (by
          simp only [List.mem_cons, not_or]
          exact ⟨by decide, fun h => (ht _ h).2.2 rfl⟩)
        ⟨fun h => absurd (Option.some.inj h) (by decide),
          fun h => absurd (Option.some.inj h) (by decide)⟩ a,
      rplLineEscape_append_tail [delimOpt] (by decide) (by decide) a]
    simp only [goLen_append, goLen_cons, goLen_nil]
    omega
  intro hlen
  have hte : ESCAPE ∉ delimOpt :: t := by
    simp only [List.mem_cons, not_or]
    exact ⟨by decide, fun h => (ht _ h).2.2 rfl⟩
  have hR1 : rplLineEscape (a ++ [delimOpt]) = rplLineEscape a ++ [delimOpt] :=
    rplLineEscape_append_tail [delimOpt] (by decide) (by decide) a
  have hR2 : rplLineEscape (a ++ delimOpt :: t) = rplLineEscape a ++ delimOpt :: t :=
    rplLineEscape_append_tail (delimOpt :: t) hte
      ⟨fun h => absurd (Option.some.inj h) (by decide),
        fun h => absurd (Option.some.inj h) (by decide)⟩ a
  have hlen1 : goLen (rplLineEscape (a ++ [delimOpt])) ≤ maxLen := by
    rw [hR2, goLen_append, goLen_cons] at hlen
    rw [hR1, goLen_append, goLen_cons, goLen_nil]
    omega
  have hs : s = run initState (rplLineEscape a) := by
    have hle : (rplLineEscape a).length ≤ goLen (rplLineEscape (a ++ [delimOpt])) := by
      have := length_le_goLen (rplLineEscape a)
      rw [hR1, goLen_append]; omega
    rw [parseLoop_init _ _ hle] at hscan
    exact (Option.some.inj hscan).symm
  rw [Parse_of_le o _ hlen1, hR1] at hacc
  have hfin : finish o (run initState (rplLineEscape a ++ [delimOpt])) = (o', none) :=
    Except.ok.inj hacc
  have herr1 : (run initState (rplLineEscape a ++ [delimOpt])).err = none := by
    cases he : (run initState (rplLineEscape a ++ [delimOpt])).err with
    | none => rfl
    | some e =>
      unfold finish at hfin
      rw [he] at hfin
      cases hfin
  have herr0 : (run initState (rplLineEscape a)).err = none := by
    by_contra hne
    rw [run_append_brk _ _ initState rfl hne] at herr1
    exact hne herr1
  have hI : Inv s := hs ▸ Inv_run (rplLineEscape a) Inv_initState herr0
  rw [run_append _ _ initState herr0, ← hs] at hfin herr1
  -- the final terminator commits a record
  have hstep : s.state = waitoptDelim ∧ s.rbuf ≠ [] := by
    rcases hI.inSt with h0 | h0
    · rw [run_cons_brk (stepU_field_opt s h0 hesc)] at herr1
      cases herr1
    · refine ⟨h0, fun hb => ?_⟩
      have hst := stepU_value_opt s h0 hesc
      rw [if_pos hb] at hst
      rw [run_cons_brk hst] at herr1
      cases herr1
  have hst := stepU_value_opt s hstep.1 hesc
  rw [if_neg hstep.2] at hst
  rw [run_cons_next hst, run_nil] at hfin
  rw [Parse_of_le o _ hlen, hR2, run_append _ _ initState herr0, ← hs, run_cons_next hst]
  obtain ⟨c', e⟩ := run_plain t ht
    { s with rbuf := [], options := s.options.set s.key (.str s.rbuf), key := [],
             state := waitfieldDelim, lastCh := delimOpt } (Or.inl rfl)
    (show delimOpt ≠ ESCAPE by decide)
  rw [e, ← hfin]
  simp [finish, hI, herr0, hs ▸ herr0, waitfieldDelim, waitoptDelim]

/-- Witness for C28: `k=v;` followed by two spaces parses like `k=v;`. -/
theorem Parse_trailing_text_witness :
    Parse New ("k=v".toList ++ delimOpt :: "  ".toList)
      = .ok (⟨[], [(['k'], .str ['v'])]⟩, none) :=
  (Parse_trailing_text New ⟨[], [(['k'], .str ['v'])]⟩ "k=v".toList "  ".toList
    { state := waitoptDelim, key := ['k'], lastCh := 'v', rbuf := ['v'], options := [],
      err := none }
    rfl (by decide) rfl (by decide)).2.1 (by decide)

/-! ## C29: totality of Set -/

/-- Claim C29, at inputs where the code fails it: in `{vStr: "Ini string", ...}` the
intermediate segment `vStr` of the path `vStr.x` holds a string, and for every value
`Set("vStr.x", v)` panics on a write into a nil map instead of replacing the string by a
fresh container; likewise `Set("a.b.c.d", v)` in `{a: {b: {c: "1"}}, s: "text"}`, where the
third segment holds a string. -/
theorem Set_not_total (v : Value) :
    textTree.GetObject "vStr".toList = some (.str "Ini string".toList) ∧
      textTree.Set "vStr.x".toList v = .error .nilMapWrite ∧
      sampleTree.GetObject "a.b.c".toList = some (.str ['1']) ∧
      sampleTree.Set "a.b.c.d".toList v = .error .nilMapWrite :=
  ⟨rfl, rfl, rfl, rfl⟩

/-! ## C30: the accumulation buffer -/

/-- Claim C30: for every input, at every iteration of the loop of `Parse` the write
position plus the number of runes that the iteration may write, two when an escape is
pending and one otherwise, is at most the length of the buffer, which is the byte length of
the input after line-continuation removal; so no iteration faults, and `Parse` never fails
with an index out of range. -/
theorem Parse_buffer_in_range (o : Options) (p : List Char) :
    (∀ (pre post : List Char) (ch : Char) (s : LoopState),
      rplLineEscape p = pre ++ ch :: post →
      parseLoop (goLen (rplLineEscape p)) initState pre = some s →
        s.rbuf.length + (if s.lastCh = ESCAPE then 2 else 1) ≤ goLen (rplLineEscape p) ∧
          step (goLen (rplLineEscape p)) s ch ≠ .fault) ∧
      parseLoop (goLen (rplLineEscape p)) initState (rplLineEscape p) ≠ none ∧
      Parse o p ≠ .error .indexOutOfRange := by
  refine ⟨fun pre post ch s hsplit hpre => ?_, ?_, ?_⟩
  · have hlen := length_le_goLen (rplLineEscape p)
    have hl : (rplLineEscape p).length = pre.length + (post.length + 1) := by
      rw [hsplit, List.length_append, List.length_cons]
    rw [parseLoop_init _ _ (by omega)] at hpre
    have hs : s = run initState pre := (Option.some.inj hpre).symm
    have hroom := run_room pre initState
    rw [← hs] at hroom
    have h0 : initState.rbuf.length + pend initState = 0 := by decide
    have hlt : s.rbuf.length + pend s < goLen (rplLineEscape p) := by omega
    refine ⟨?_, ?_⟩
    · unfold pend at hlt
      split_ifs at hlt ⊢ <;> omega
    · rw [step_eq_stepU _ s ch hlt]
      exact stepU_ne_fault s ch
  · rw [parseLoop_init _ _ (length_le_goLen _)]
    exact fun h => by cases h
  · unfold Parse
    simp only
    split_ifs
    · exact fun h => by cases h
    · rw [parseLoop_init _ _ (length_le_goLen _)]
      exact fun h => by cases h

/-- Witness for C30: in `a\=b=c;`, when the loop reaches the escaped `=` with the escape
pending and one rune in the buffer, one plus two is at most the buffer length seven, and
the iteration does not fault. -/
theorem Parse_buffer_in_range_witness :
    ([] ++ ['a']).length + (if ESCAPE = ESCAPE then 2 else 1)
        ≤ goLen (rplLineEscape inputEscapedKey) ∧
      step (goLen (rplLineEscape inputEscapedKey))
        { state := waitfieldDelim, key := [], lastCh := ESCAPE, rbuf := [] ++ ['a'],
          options := [], err := none } '=' ≠ .fault :=
  (Parse_buffer_in_range New inputEscapedKey).1 ['a', ESCAPE] "b=c;".toList '='
    { state := waitfieldDelim, key := [], lastCh := ESCAPE, rbuf := [] ++ ['a'],
      options := [], err := none } rfl rfl

/-! ## C31: what Set leaves alone -/

/-- Counterexample to claim C31 as stated: a map is a reference. In `{a: {}}`,
`GetObject("a")` gives the map held under `a`, and `Set("b", m)` with that map stores the
same map object under `b`. Neither of the paths `a.y` and `b.y` is a prefix of the other and
`Set("a.y", "v")` completes, yet `GetObject("b.y")`, absent before the call, gives `"v"`
after it. -/
theorem Set_changes_shared_map :
    (Node.GetObject sharedHeap rootNode ['a']).2 = some (.map 1) ∧
      Node.Set sharedHeap rootNode ['b'] (.map 1)
        = .ok ([[(['b'], .map 1), (['a'], .map 1)], []], .null) ∧
      ¬ splitDot "a.y".toList <+: splitDot "b.y".toList ∧
      ¬ splitDot "b.y".toList <+: splitDot "a.y".toList ∧
      Node.Set [[(['b'], .map 1), (['a'], .map 1)], []] rootNode "a.y".toList (.str ['v'])
        = .ok ([[(['b'], .map 1), (['a'], .map 1)], [(['y'], .str ['v'])]], .null) ∧
      (Node.GetObject [[(['b'], .map 1), (['a'], .map 1)], []] rootNode "b.y".toList).2
        = none ∧
      (Node.GetObject [[(['b'], .map 1), (['a'], .map 1)], [(['y'], .str ['v'])]] rootNode
        "b.y".toList).2 = some (.str ['v']) :=
  ⟨rfl, rfl, by decide, by decide, rfl, rfl, rfl⟩

/-- Claim C31, amended (frame of `Set`): for every tree `T` whose maps form a tree of map
objects (no map is reached from the root along two paths, and every map reached is a map
object, not a nil map), every value `v` and dotted paths `p` and `q` such that the segments
of neither are a prefix of the segments of the other, whenever `Set(p, v)` completes,
`GetObject(q)` gives after the call the value and presence that it gave before. -/
theorem Set_frame (h h1 : Heap) (o : Node) (p q : List Char) (v r : Item)
    (ht : h.Tree o.options)
    (hpq : ¬ splitDot p <+: splitDot q) (hqp : ¬ splitDot q <+: splitDot p)
    (hs : Node.Set h o p v = .ok (h1, r)) :
    (Node.GetObject h1 o q).2 = (Node.GetObject h o q).2 := by
  obtain ⟨ov, hl⟩ := Node.Set_eq_setLoop hs
  rw [Node.GetObject_look, Node.GetObject_look]
  exact Heap.setLoop_frame v (splitDot p) (splitDot q) h o.options h1 ov
    (splitDot_ne_nil p) (splitDot_ne_nil q) hpq hqp ht hl

/-- Witness for C31: in `{a: {b: {c: "1"}}, s: "text"}`, whose three maps form a tree,
`Set("a.b.x", "v")` completes and leaves the reads of `a.b.c`, which shares two segments
with the written path, and of `s` as they were. -/
theorem Set_frame_witness :
    Node.Set sampleHeap rootNode "a.b.x".toList (.str ['v'])
        = .ok ([[(['a'], .map 1), (['s'], .str "text".toList)], [(['b'], .map 2)],
            [(['x'], .str ['v']), (['c'], .str ['1'])]], .null) ∧
      (Node.GetObject [[(['a'], .map 1), (['s'], .str "text".toList)], [(['b'], .map 2)],
          [(['x'], .str ['v']), (['c'], .str ['1'])]] rootNode "a.b.c".toList).2
        = (Node.GetObject sampleHeap rootNode "a.b.c".toList).2 ∧
      (Node.GetObject sampleHeap rootNode "a.b.c".toList).2 = some (.str ['1']) ∧
      (Node.GetObject [[(['a'], .map 1), (['s'], .str "text".toList)], [(['b'], .map 2)],
          [(['x'], .str ['v']), (['c'], .str ['1'])]] rootNode ['s']).2
        = (Node.GetObject sampleHeap rootNode ['s']).2 :=
  ⟨rfl,
    Set_frame sampleHeap _ rootNode "a.b.x".toList "a.b.c".toList (.str ['v']) .null
      sampleHeap_tree (by decide) (by decide) rfl,
    rfl,
    Set_frame sampleHeap _ rootNode "a.b.x".toList ['s'] (.str ['v']) .null
      sampleHeap_tree (by decide) (by decide) rfl⟩

/-! ## C32: no empty fields -/

/-- Claim C32: for every input on which `Parse` returns no error, and whatever the node held
before, every key of the resulting mapping is a non-empty string and every value is a
non-empty string, for the records committed at a `;` and for the one committed at the end of
the input alike. -/
theorem Parse_no_empty_fields (o o' : Options) (p : List Char)
    (h : Parse o p = .ok (o', none)) :
    ∀ e ∈ o'.options, e.1 ≠ [] ∧ 0 < goLen e.1 ∧ ∃ b, e.2 = .str b ∧ b ≠ [] ∧ 0 < goLen b := by
  intro e he
  obtain ⟨hk, b, hb, hv⟩ := (Parse_good h).1 e he
  exact ⟨hk.2, goLen_pos.mpr hk.2, b, hb, hv.2, goLen_pos.mpr hv.2⟩

/-- Witness for C32: `a=b;c=d` gives `{c: "d", a: "b"}`, the first record committed at the
`;` and the second at the end of the input; no key and no value is empty. -/
theorem Parse_no_empty_fields_witness :
    Parse New "a=b;c=d".toList
        = .ok (⟨[], [(['c'], .str ['d']), (['a'], .str ['b'])]⟩, none) ∧
      ∀ e ∈ (⟨[], [(['c'], .str ['d']), (['a'], .str ['b'])]⟩ : Options).options,
        e.1 ≠ [] ∧ 0 < goLen e.1 ∧ ∃ b, e.2 = .str b ∧ b ≠ [] ∧ 0 < goLen b :=
  ⟨rfl, Parse_no_empty_fields New ⟨[], [(['c'], .str ['d']), (['a'], .str ['b'])]⟩
    "a=b;c=d".toList rfl⟩
end Opt
